import Mathlib

/-!
# The Asterisk command line interface (`cli.c`)

A shallow embedding of the command registry, the matcher, the tokenizer and the
dispatcher of `cli.c`, followed by theorems about them.

Conventions of the embedding.

* A C string is the list of its characters before the terminating NUL; a
  character is a natural number (its `unsigned char` value).
* A command entry carries the address of its struct: the C code compares
  entries by pointer, the embedding by `addr`.
* The dynamic list `helpers` is the list of the entries reached by following
  `next` from the head; the registry state is that list (the built-in table is
  a constant).
* Function pointers (`handler`, `generator`) are code addresses; the bodies of
  the commands are external to the registry.
* `ast_log` (process-wide logging) and the registry mutex are not part of the
  embedding: every operation is modelled as it runs under the lock.
* A `join` whose text reaches the size of its buffer writes its terminator one
  byte past the buffer (`join_overruns`). In `help_workhorse` and in
  `ast_cli_generator` such a write ends the defined behaviour: the first gives
  `none`, the second `out_of_bounds`.
* The text `ast_cli` writes is what the libc `vsnprintf` makes of the format
  and its arguments, cut to the 4095 characters its buffer holds.
-/

namespace AstCli

/-! ## Strings -/

/-- The characters of a C string, terminator excluded. -/
abbrev CStr := List Nat

/-- Characters of a Lean string literal as a C string. -/
def cstr (s : String) : CStr := s.toList.map Char.toNat

/-- The libc `tolower` in the C locale: only `A`..`Z` are changed. -/
def tolower (c : Nat) : Nat := if 65 ≤ c ∧ c ≤ 90 then c + 32 else c

/-- The libc `strcmp`: sign of the first difference, the terminator being
smaller than every character. -/
def strcmp : CStr → CStr → Int
  | [], [] => 0
  | [], _ :: _ => -1
  | _ :: _, [] => 1
  | a :: as, b :: bs => if a = b then strcmp as bs else if a < b then -1 else 1

/-- The libc `strcasecmp`: `strcmp` on the lower-cased characters. -/
def strcasecmp : CStr → CStr → Int
  | [], [] => 0
  | [], _ :: _ => -1
  | _ :: _, [] => 1
  | a :: as, b :: bs =>
    if tolower a = tolower b then strcasecmp as bs
    else if tolower a < tolower b then -1 else 1

/-- The libc `strncasecmp`: `strcasecmp` limited to the first `n` characters. -/
def strncasecmp : CStr → CStr → Nat → Int
  | _, _, 0 => 0
  | [], [], _ + 1 => 0
  | [], _ :: _, _ + 1 => -1
  | _ :: _, [], _ + 1 => 1
  | a :: as, b :: bs, n + 1 =>
    if tolower a = tolower b then strncasecmp as bs n
    else if tolower a < tolower b then -1 else 1

/-- The libc `strncat(s, src, n)`: appends at most `n` characters of `src`. -/
def strncat (s src : CStr) (n : Nat) : CStr := s ++ src.take n

/-! ## Command entries and the built-in table -/

/-- The `struct ast_cli_entry` of `asterisk/cli.h`. The field `cmda` holds the
words before the terminating NULL; `next` is represented by the position of the
entry in the dynamic list. -/
structure ast_cli_entry where
  /-- address of the struct, the identity of the entry -/
  addr : Nat
  /-- words of the command, in order -/
  cmda : List CStr
  /-- address of the handler function -/
  handler : Nat
  /-- one-line summary -/
  summary : CStr
  /-- usage text -/
  usage : CStr
  /-- address of the completion generator, if the entry has one -/
  generator : Option Nat
  deriving DecidableEq, Repr

/-- Code addresses of the built-in handlers and generators (symbolic). -/
def handle_help : Nat := 1
/-- Code address of `handle_load`. -/
def handle_load : Nat := 2
/-- Code address of `handle_showchan`. -/
def handle_showchan : Nat := 3
/-- Code address of `handle_chanlist`. -/
def handle_chanlist : Nat := 4
/-- Code address of `handle_modlist`. -/
def handle_modlist : Nat := 5
/-- Code address of `handle_unload`. -/
def handle_unload : Nat := 6
/-- Code address of `complete_fn`. -/
def complete_fn : Nat := 7
/-- Code address of `complete_ch`. -/
def complete_ch : Nat := 8

/-- Usage text of `help`. -/
def help_help : CStr :=
  cstr "Usage: help [topic]\n       When called with a topic as an argument, displays usage\n       information on the given command.  If called without a\n       topic, it provides a list of commands.\n"

/-- Usage text of `load`. -/
def load_help : CStr :=
  cstr "Usage: load <module name>\n       Loads the specified module into Asterisk.\n"

/-- Usage text of `unload`. -/
def unload_help : CStr :=
  cstr "Usage: unload [-f|-h] <module name>\n       Unloads the specified module from Asterisk.  The -f\n       option causes the module to be unloaded even if it is\n       in use (may cause a crash) and the -h module causes the\n       module to be unloaded even if the module says it cannot, \n       which almost always will cause a crash.\n"

/-- Usage text of `show channels`. -/
def chanlist_help : CStr :=
  cstr "Usage: show channels\n       Lists currently defined channels and some information about\n       them.\n"

/-- Usage text of `show modules`. -/
def modlist_help : CStr :=
  cstr "Usage: show modules\n       Shows Asterisk modules currently in use, and usage statistics.\n"

/-- Usage text of `show channel`. -/
def showchan_help : CStr :=
  cstr "Usage: show channel <channel>\n       Shows lots of information about the specified channel.\n"

/-- Address of `builtins[x]`; the table lives at a symbolic base address. -/
def builtin_addr (x : Nat) : Nat := 1000 + x

/-- The static table `builtins`, up to its sentinel entry. -/
def builtins : List ast_cli_entry :=
  [ { addr := builtin_addr 0, cmda := [cstr "help"], handler := handle_help,
      summary := cstr "Display help list, or specific help on a command",
      usage := help_help, generator := none },
    { addr := builtin_addr 1, cmda := [cstr "load"], handler := handle_load,
      summary := cstr "Load a dynamic module by name",
      usage := load_help, generator := some complete_fn },
    { addr := builtin_addr 2, cmda := [cstr "show", cstr "channel"], handler := handle_showchan,
      summary := cstr "Display information on a specific channel",
      usage := showchan_help, generator := some complete_ch },
    { addr := builtin_addr 3, cmda := [cstr "show", cstr "channels"], handler := handle_chanlist,
      summary := cstr "Display information on channels",
      usage := chanlist_help, generator := none },
    { addr := builtin_addr 4, cmda := [cstr "show", cstr "modules"], handler := handle_modlist,
      summary := cstr "List modules and info",
      usage := modlist_help, generator := none },
    { addr := builtin_addr 5, cmda := [cstr "unload"], handler := handle_unload,
      summary := cstr "Unload a dynamic module by name",
      usage := unload_help, generator := some complete_fn } ]

/-! ## Lookup -/

/-- The inner loop of `find_cli`, `for (y = ...; match && cmds[y]; y++)`, from
position `y` on, where `cmds` lists the typed words from `y`. Returns the final
`match` flag and the final `y`. -/
def find_cli_words (cmda : List CStr) (exact : Int) : List CStr → Nat → Bool × Nat
  | [], y => (true, y)
  | c :: rest, y =>
    match cmda[y]? with
    | none => if exact = 0 then (true, y) else (false, y + 1)
    | some w =>
      if strcasecmp w c ≠ 0 then (false, y + 1)
      else find_cli_words cmda exact rest (y + 1)

/-- The test `find_cli` applies to one candidate: the word loop, then the
check that the candidate needs no more words unless `exact` is below zero. -/
def find_cli_match (cmda cmds : List CStr) (exact : Int) : Bool :=
  let r := find_cli_words cmda exact cmds 0
  if exact > -1 ∧ cmda[r.2]?.isSome then false else r.1

/-- The function `find_cli`: the first matching built-in, otherwise the first
matching entry of the dynamic list. -/
def find_cli (helpers : List ast_cli_entry) (cmds : List CStr) (exact : Int) :
    Option ast_cli_entry :=
  match builtins.find? (fun e => find_cli_match e.cmda cmds exact) with
  | some e => some e
  | none => helpers.find? (fun e => find_cli_match e.cmda cmds exact)

/-! ## Joining words -/

/-- The loop of `join` from word index `x` on, `s` being the text of the
buffer so far: a space before every word but the first, each piece added with
`strncat` limited to `len - strlen(s)` characters. The value is the text that
the `len` bytes of the buffer hold at the end, never more than `len`
characters; whether a `strncat` put its terminator beyond those bytes is told
by `join_from_overruns`. -/
def join_from (len : Nat) : Nat → CStr → List CStr → CStr
  | _, s, [] => s
  | x, s, wx :: rest =>
    let s1 := if x ≠ 0 then strncat s [32] (len - s.length) else s
    join_from len (x + 1) (strncat s1 wx (len - s1.length)) rest

/-- The function `join`: the words separated by single spaces, as the `len`
bytes of the buffer hold them. -/
def join (len : Nat) (w : List CStr) : CStr := join_from len 0 [] w

/-- Whether the loop of `join` writes outside the `len` bytes of the buffer.
The call `strncat(s, w, n)` writes the characters it appends and then a
terminator, at index `strlen(s) + min(strlen(w), n)`; with
`n = len - strlen(s)` that index is `len`, one byte past the buffer, as soon
as the text reaches `len` characters. -/
def join_from_overruns (len : Nat) : Nat → CStr → List CStr → Bool
  | _, _, [] => false
  | x, s, wx :: rest =>
    let s1 := if x ≠ 0 then strncat s [32] (len - s.length) else s
    let s2 := strncat s1 wx (len - s1.length)
    (decide (x ≠ 0) && decide (len ≤ s1.length)) ||
      (decide (len ≤ s2.length) || join_from_overruns len (x + 1) s2 rest)

/-- Whether a call of `join` with a buffer of `len` bytes writes outside the
buffer: the `strcpy` of the empty string needs one byte, the loop as
`join_from_overruns` tells. -/
def join_overruns (len : Nat) (w : List CStr) : Bool :=
  decide (len = 0) || join_from_overruns len 0 [] w

/-- The loop of `join2`: like `join` without the spaces. -/
def join2_from (len : Nat) : CStr → List CStr → CStr
  | s, [] => s
  | s, wx :: rest => join2_from len (strncat s wx (len - s.length)) rest

/-- The function `join2`: the words concatenated. -/
def join2 (len : Nat) (w : List CStr) : CStr := join2_from len [] w

/-! ## Registration -/

/-- The loop of `ast_cli_unregister`: unlink the node whose address is `e`. -/
def unregister_loop (e : ast_cli_entry) : List ast_cli_entry → List ast_cli_entry
  | [] => []
  | cur :: rest => if e.addr = cur.addr then rest else cur :: unregister_loop e rest

/-- The function `ast_cli_unregister`: return value and new dynamic list. -/
def ast_cli_unregister (helpers : List ast_cli_entry) (e : ast_cli_entry) :
    Int × List ast_cli_entry :=
  (0, unregister_loop e helpers)

/-- The insertion loop of `ast_cli_register`: `e` goes before the first node
whose concatenated words compare greater under `strncasecmp` limited to the
shorter of the two lengths, or at the end. -/
def register_loop (fulle : CStr) (e : ast_cli_entry) : List ast_cli_entry → List ast_cli_entry
  | [] => [e]
  | cur :: rest =>
    let fulltst := join2 80 cur.cmda
    let len := if fulle.length < fulltst.length then fulle.length else fulltst.length
    if strncasecmp fulle fulltst len < 0 then e :: cur :: rest
    else cur :: register_loop fulle e rest

/-- The function `ast_cli_register`: return value and new dynamic list. -/
def ast_cli_register (helpers : List ast_cli_entry) (e : ast_cli_entry) :
    Int × List ast_cli_entry :=
  let fulle := join2 80 e.cmda
  if (find_cli helpers e.cmda (-1)).isSome then (-1, helpers)
  else (0, register_loop fulle e helpers)

/-! ## Console output and the help listing -/

/-- What a console operation does to the outside: a call of an entry's handler,
or a call of `ast_cli` (which formats with the libc `vsnprintf` and writes the
text to the descriptor). -/
inductive Event where
  /-- the call `e->handler(fd, argc, argv)` -/
  | handler (e : ast_cli_entry) (fd : Int) (argc : Nat) (argv : List CStr)
  /-- the call `ast_cli(fd, fmt, args...)` -/
  | ast_cli (fd : Int) (fmt : CStr) (args : List CStr)
  deriving DecidableEq, Repr

/-- The picks of the merge loop of `help_workhorse`: the entries in the order
the loop picks them, each with the text its buffer holds (`help_loop` is the
loop itself, with its `ast_cli` calls and the writes of `join` outside the
buffers). `e1s` are the built-ins from `e1` on, `e2s` the dynamic entries
from `e2` on. -/
def help_merge : List ast_cli_entry → List ast_cli_entry → List (ast_cli_entry × CStr)
  | [], [] => []
  | [], e2 :: r2 => (e2, join 80 e2.cmda) :: help_merge [] r2
  | e1 :: r1, [] => (e1, join 80 e1.cmda) :: help_merge r1 []
  | e1 :: r1, e2 :: r2 =>
    if strcmp (join 80 e2.cmda) (join 80 e1.cmda) < 0 then
      (e2, join 80 e2.cmda) :: help_merge (e1 :: r1) r2
    else
      (e1, join 80 e1.cmda) :: help_merge r1 (e2 :: r2)
termination_by e1s e2s => e1s.length + e2s.length

/-- The format of a help line. -/
def help_format : CStr := cstr "%20.20s   %s\n"

/-- The test of the filter in `help_workhorse`: without `match` every entry is
shown, with it those whose joined words `fullcmd` begin with `matchstr`
under `strncasecmp`. -/
def help_shown (matchstr : Option CStr) (fullcmd : CStr) : Bool :=
  match matchstr with
  | none => true
  | some m => decide (strncasecmp m fullcmd m.length = 0)

/-- The end of a turn of the loop of `help_workhorse` for the picked entry `e`
with the joined words `fullcmd`: the `continue` when the filter fails,
otherwise the call of `ast_cli`; `t` is what the rest of the loop does. -/
def help_emit (fd : Int) (matchstr : Option CStr) (e : ast_cli_entry) (fullcmd : CStr)
    (t : List Event) : List Event :=
  if help_shown matchstr fullcmd = true then
    Event.ast_cli fd help_format [fullcmd, e.summary] :: t
  else t

/-- The loop `while (e1->cmda[0] || e2)` of `help_workhorse`: the calls of
`ast_cli` it makes, or `none` when a `join` into `fullcmd1` or `fullcmd2`
writes outside the buffer, after which the C code has no defined behaviour.
`e1s` are the built-ins from `e1` on, `e2s` the dynamic entries from `e2`
on, `matchstr` the joined filter if there is one. -/
def help_loop (fd : Int) (matchstr : Option CStr) :
    List ast_cli_entry → List ast_cli_entry → Option (List Event)
  | [], [] => some []
  | [], e2 :: r2 =>
    if join_overruns 80 e2.cmda = true then none
    else (help_loop fd matchstr [] r2).map (help_emit fd matchstr e2 (join 80 e2.cmda))
  | e1 :: r1, [] =>
    if join_overruns 80 e1.cmda = true then none
    else (help_loop fd matchstr r1 []).map (help_emit fd matchstr e1 (join 80 e1.cmda))
  | e1 :: r1, e2 :: r2 =>
    if join_overruns 80 e2.cmda = true ∨ join_overruns 80 e1.cmda = true then none
    else if strcmp (join 80 e2.cmda) (join 80 e1.cmda) < 0 then
      (help_loop fd matchstr (e1 :: r1) r2).map (help_emit fd matchstr e2 (join 80 e2.cmda))
    else
      (help_loop fd matchstr r1 (e2 :: r2)).map (help_emit fd matchstr e1 (join 80 e1.cmda))
termination_by e1s e2s => e1s.length + e2s.length

/-- The function `help_workhorse`: return value and the `ast_cli` calls, one
for each picked entry that passes the filter `filt` (the parameter `match`).
The result is `none` when a `join`, of the filter into `matchstr` or of an
entry in the loop, writes outside its 80-byte buffer. -/
def help_workhorse (helpers : List ast_cli_entry) (fd : Int) (filt : Option (List CStr)) :
    Option (Int × List Event) :=
  match filt with
  | none => (help_loop fd none builtins helpers).map (fun t => (0, t))
  | some m =>
    if join_overruns 80 m = true then none
    else (help_loop fd (some (join 80 m)) builtins helpers).map (fun t => (0, t))

/-! ## The tokenizer -/

/-- The local variables of `parse_args` and the memory it writes: the buffer
`dup` with the write offset `cur`, the argument vector `argv` (offsets into
`dup`, or NULL) and the flags. -/
structure parse_state where
  /-- the working buffer -/
  dup : List Nat
  /-- offset of the write pointer in `dup` -/
  cur : Nat
  /-- the argument vector -/
  argv : List (Option Nat)
  /-- number of arguments started -/
  x : Nat
  /-- inside double quotes -/
  quoted : Bool
  /-- previous character was an unescaped backslash -/
  escaped : Bool
  /-- no argument is in progress -/
  whitespace : Bool
  deriving DecidableEq, Repr

/-- The label `normal:` of `parse_args`. When an argument would start beyond
the cap the `break` leaves the switch with nothing changed. -/
def parse_normal (AST_MAX_ARGS : Nat) (st : parse_state) (c : Nat) : parse_state :=
  if st.whitespace = true ∧ st.x ≥ AST_MAX_ARGS - 1 then st
  else
    let st1 := if st.whitespace = true then
        { st with argv := st.argv.set st.x (some st.cur), x := st.x + 1, whitespace := false }
      else st
    { st1 with dup := st1.dup.set st1.cur c, cur := st1.cur + 1, escaped := false }

/-- One turn of the `while (*s)` loop of `parse_args` on the character `c`. -/
def parse_step (AST_MAX_ARGS : Nat) (st : parse_state) (c : Nat) : parse_state :=
  if c = 34 then
    if st.escaped = true then parse_normal AST_MAX_ARGS st c
    else { st with quoted := !st.quoted, escaped := false }
  else if c = 32 ∨ c = 9 then
    if st.quoted = false ∧ st.escaped = false then
      { st with whitespace := true, dup := st.dup.set st.cur 0, cur := st.cur + 1 }
    else parse_normal AST_MAX_ARGS st c
  else if c = 92 then
    if st.escaped = true then parse_normal AST_MAX_ARGS st c
    else { st with escaped := true }
  else parse_normal AST_MAX_ARGS st c

/-- The `while (*s)` loop of `parse_args`: it stops at the terminator. -/
def parse_loop (AST_MAX_ARGS : Nat) : List Nat → parse_state → parse_state
  | [], st => st
  | c :: rest, st =>
    if c = 0 then st else parse_loop AST_MAX_ARGS rest (parse_step AST_MAX_ARGS st c)

/-- The libc `strdup` when it succeeds: a buffer with the characters up to the
terminator, and the terminator. -/
def strdup (s : List Nat) : List Nat := s.takeWhile (fun c => decide (c ≠ 0)) ++ [0]

/-- What `parse_args` hands back: the buffer, the argument vector and `*max`. -/
structure parse_result where
  /-- the buffer the arguments point into -/
  dup : List Nat
  /-- the argument vector -/
  argv : List (Option Nat)
  /-- the argument count -/
  max : Nat
  deriving DecidableEq, Repr

/-- The function `parse_args`. `mem` tells whether `strdup` succeeds, `argv` is
the caller's vector as it is on entry. The result is `none` when `strdup`
fails. -/
def parse_args (AST_MAX_ARGS : Nat) (mem : Bool) (s : List Nat) (argv : List (Option Nat)) :
    Option parse_result :=
  if mem = true then
    let st := parse_loop AST_MAX_ARGS s
      { dup := strdup s, cur := 0, argv := argv, x := 0,
        quoted := false, escaped := false, whitespace := true }
    some { dup := st.dup.set st.cur 0, argv := st.argv.set st.x none, max := st.x }
  else none

/-- The C string found at offset `p` of a buffer. -/
def str_at (buf : List Nat) (p : Nat) : CStr := (buf.drop p).takeWhile (fun c => decide (c ≠ 0))

/-- The words of a NULL-terminated vector of offsets into `buf`, as a callee
reading `argv[0]`, `argv[1]`, ... up to the first NULL sees them. -/
def argv_words (buf : List Nat) : List (Option Nat) → List CStr
  | some p :: rest => str_at buf p :: argv_words buf rest
  | _ => []

/-! ## The dispatcher -/

/-- The words of a NULL-terminated vector of strings. -/
def vec_words : List (Option CStr) → List CStr
  | some w :: rest => w :: vec_words rest
  | _ => []

/-- The second loop of `find_best`, from index `x` on: `argv` lists the words
from `x`, `myargv` is the trial vector. A store beyond the vector is dropped
and a read beyond it gives NULL. -/
def find_best_loop (helpers : List ast_cli_entry) :
    List CStr → Nat → List (Option CStr) → List (Option CStr)
  | [], _, myargv => myargv
  | a :: rest, x, myargv =>
    let my1 := myargv.set x (some a)
    if (find_cli helpers (vec_words my1) (-1)).isNone then my1
    else find_best_loop helpers rest (x + 1) my1

/-- The function `find_best`: the text its static buffer `cmdline` holds after
the `join` of the trial vector (the terminator of a text of 80 characters lies
one byte past the buffer, see `join_overruns`; the characters are the same). -/
def find_best (AST_MAX_CMD_LEN : Nat) (helpers : List ast_cli_entry) (argv : List CStr) : CStr :=
  join 80 (vec_words (find_best_loop helpers argv 0 (List.replicate AST_MAX_CMD_LEN none)))

/-- What `cli.c` takes from outside: the constants of `asterisk/cli.h` and the
execution of the code behind a handler or generator address. -/
structure Env where
  /-- size of an argument vector -/
  AST_MAX_ARGS : Nat
  /-- size of the word vector of an entry -/
  AST_MAX_CMD_LEN : Nat
  /-- the handler result that asks for the usage text -/
  RESULT_SHOWUSAGE : Int
  /-- result of the handler at a code address on `(fd, argc, argv)` -/
  call_handler : Nat → Int → Nat → List CStr → Int
  /-- result of the generator at a code address on `(line, word, pos, state)`,
  where `pos` and `state` are C integers -/
  call_generator : Nat → CStr → CStr → Int → Int → Option CStr

/-- The format of the message for an unknown command. -/
def no_such_command : CStr := cstr "No such command '%s' (type 'help' for help)\n"

/-- The function `ast_cli_command`: return value and what it does to the
outside. `mem` tells whether `strdup` succeeds; `garbage i` is what the local
vector `argv` holds in slot `i` before it is written. -/
def ast_cli_command (env : Env) (helpers : List ast_cli_entry) (mem : Bool)
    (garbage : Nat → Option Nat) (fd : Int) (s : List Nat) : Int × List Event :=
  match parse_args env.AST_MAX_ARGS mem s ((List.range env.AST_MAX_ARGS).map garbage) with
  | some r =>
    if r.max > 0 then
      let argv := argv_words r.dup r.argv
      match find_cli helpers argv 0 with
      | some e =>
        if env.call_handler e.handler fd r.max argv = env.RESULT_SHOWUSAGE then
          (0, [Event.handler e fd r.max argv, Event.ast_cli fd e.usage []])
        else (0, [Event.handler e fd r.max argv])
      | none =>
        (0, [Event.ast_cli fd no_such_command [find_best env.AST_MAX_CMD_LEN helpers argv]])
    else (0, [])
  | none => (-1, [])

/-! ## Relations between word-paths used in the statements -/

/-- A word-path with every word lower-cased: two paths agree word by word,
case-insensitively, when their images agree. -/
def lower_path (p : List CStr) : List CStr := p.map (fun w => w.map tolower)

/-- The path `p` is the beginning of `w`, word by word and case-insensitively
(`p` may be all of `w`). -/
def path_begins (p w : List CStr) : Prop := lower_path p <+: lower_path w

/-- The paths `p` and `w` are equal word for word, case-insensitively. -/
def path_same (p w : List CStr) : Prop := lower_path p = lower_path w

instance (p w : List CStr) : Decidable (path_begins p w) :=
  inferInstanceAs (Decidable (lower_path p <+: lower_path w))

instance (p w : List CStr) : Decidable (path_same p w) :=
  inferInstanceAs (Decidable (lower_path p = lower_path w))

/-- The candidate test from position `y`, as `find_cli` finishes it. -/
def find_cli_final (cmda : List CStr) (exact : Int) (r : Bool × Nat) : Bool :=
  if exact > -1 ∧ cmda[r.2]?.isSome then false else r.1

/-! ## Registry states and listings used in the statements -/

/-- The dynamic lists that calls of `ast_cli_register` and `ast_cli_unregister`
produce from the empty list. -/
inductive Reachable : List ast_cli_entry → Prop where
  /-- the list at start-up: `helpers = NULL` -/
  | empty : Reachable []
  /-- a call of `ast_cli_register` -/
  | register (helpers : List ast_cli_entry) (e : ast_cli_entry) :
      Reachable helpers → Reachable (ast_cli_register helpers e).2
  /-- a call of `ast_cli_unregister` -/
  | unregister (helpers : List ast_cli_entry) (e : ast_cli_entry) :
      Reachable helpers → Reachable (ast_cli_unregister helpers e).2

/-- The joined word-paths a help listing shows: the first argument of each
`ast_cli` call, in order. -/
def listed_paths : List Event → List CStr
  | [] => []
  | Event.ast_cli _ _ (p :: _) :: rest => p :: listed_paths rest
  | _ :: rest => listed_paths rest

/-- Non-decreasing case-insensitive lexicographic order of a list of strings:
no string is followed by one that `strcasecmp` finds smaller. -/
def ci_sorted : List CStr → Prop
  | a :: b :: rest => strcasecmp a b ≤ 0 ∧ ci_sorted (b :: rest)
  | _ => True

instance ci_sorted_decidable : (l : List CStr) → Decidable (ci_sorted l)
  | [] => isTrue trivial
  | [_] => isTrue trivial
  | a :: b :: rest =>
    have := ci_sorted_decidable (b :: rest)
    inferInstanceAs (Decidable (strcasecmp a b ≤ 0 ∧ ci_sorted (b :: rest)))

/-- An entry of a loadable module with the given address and words, used in the
examples. -/
def sample_entry (addr : Nat) (words : List String) : ast_cli_entry :=
  { addr := addr, cmda := words.map cstr, handler := 100 + addr,
    summary := cstr "sample", usage := cstr "Usage: sample\n", generator := none }

/-! ## The tokenizer on word lists

The rules of `parse_args` on a state that holds the words themselves instead
of a buffer and offsets into it. With `cap = some AST_MAX_ARGS` the rules are
those of `parse_args`; with `cap = none` the test on the argument count is
left out. The theorems relate `parse_args` to these rules. -/

/-- State of the word-list tokenizer: the finished words, the word in progress
(`none` where `parse_args` has `whitespace` set) and the two flags. -/
structure tok_state where
  /-- finished words, in order -/
  done : List CStr
  /-- the word in progress -/
  word : Option CStr
  /-- inside double quotes -/
  quoted : Bool
  /-- previous character was an unescaped backslash -/
  escaped : Bool
  deriving DecidableEq, Repr

/-- Whether a word may no longer be started when `n` words exist. -/
def tok_full (cap : Option Nat) (n : Nat) : Bool :=
  match cap with
  | none => false
  | some m => decide (n ≥ m - 1)

/-- The rule for an ordinary character: it extends the word in progress, or
starts a word unless the cap is reached, in which case it is dropped. -/
def tok_normal (cap : Option Nat) (t : tok_state) (c : Nat) : tok_state :=
  match t.word with
  | none => if tok_full cap t.done.length = true then t
            else { t with word := some [c], escaped := false }
  | some w => { t with word := some (w ++ [c]), escaped := false }

/-- The rules for one character. -/
def tok_step (cap : Option Nat) (t : tok_state) (c : Nat) : tok_state :=
  if c = 34 then
    if t.escaped = true then tok_normal cap t c
    else { t with quoted := !t.quoted, escaped := false }
  else if c = 32 ∨ c = 9 then
    if t.quoted = false ∧ t.escaped = false then
      { t with done := t.done ++ t.word.toList, word := none }
    else tok_normal cap t c
  else if c = 92 then
    if t.escaped = true then tok_normal cap t c
    else { t with escaped := true }
  else tok_normal cap t c

/-- The state before the first character. -/
def tok_init : tok_state := { done := [], word := none, quoted := false, escaped := false }

/-- The words of a state: the finished ones and the one in progress. -/
def tok_words (t : tok_state) : List CStr := t.done ++ t.word.toList

/-- The characters of a line up to its terminator. -/
def line_chars (s : List Nat) : List Nat := s.takeWhile (fun c => decide (c ≠ 0))

/-- The words of a line under the rules without cap. -/
def tokenize (s : List Nat) : List CStr :=
  tok_words ((line_chars s).foldl (tok_step none) tok_init)

/-- The words of a line under the rules with the cap `AST_MAX_ARGS`. -/
def tokenize_capped (AST_MAX_ARGS : Nat) (s : List Nat) : List CStr :=
  tok_words ((line_chars s).foldl (tok_step (some AST_MAX_ARGS)) tok_init)

/-- How the capped run stands to the uncapped one: either both are in the same
state with at most `m - 1` words, or the capped run is stuck with `m - 1`
finished words that begin the finished words of the uncapped run. -/
def cap_rel (m : Nat) (tc tu : tok_state) : Prop :=
  (tc = tu ∧ (tok_words tu).length ≤ m - 1) ∨
  (tc.word = none ∧ tc.done.length = m - 1 ∧ tc.done <+: tu.done)

/-! ## How the buffer of `parse_args` holds the words -/

/-- The word `w` stands at offset `off` of the written bytes `out`, followed
by a terminator. -/
def placed (out : List Nat) (off : Nat) (w : CStr) : Prop :=
  0 ∉ w ∧ ∃ post, out.drop off = w ++ 0 :: post

/-- The word `w` stands at offset `off` of the written bytes `out` and reaches
their end: it is still being written. -/
def open_at (out : List Nat) (off : Nat) (w : CStr) : Prop :=
  0 ∉ w ∧ off ≤ out.length ∧ out.drop off = w

/-- The offsets `offs` point at the words of the state `t` in the written
bytes `out`. -/
def words_at (out : List Nat) (offs : List Nat) (t : tok_state) : Prop :=
  ∃ offsD, List.Forall₂ (placed out) offsD t.done ∧
    match t.word with
    | none => offs = offsD
    | some w => ∃ off, offs = offsD ++ [off] ∧ open_at out off w

/-- The state `st` of `parse_args`, with `k` characters of the line still to
come, represents the word-list state `t`, and its stores stay inside the
buffer and inside the argument vector of `m` slots. -/
structure rep (m k : Nat) (st : parse_state) (t : tok_state) (offs : List Nat) : Prop where
  /-- same quoting flag -/
  quoted : st.quoted = t.quoted
  /-- same escape flag -/
  escaped : st.escaped = t.escaped
  /-- `whitespace` is set when no word is in progress -/
  white : st.whitespace = t.word.isNone
  /-- the rest of the line and the final terminator fit in the buffer -/
  room : st.cur + k + 1 ≤ st.dup.length
  /-- the vector has `m` slots -/
  size : st.argv.length = m
  /-- one offset for each argument started -/
  count : st.x = offs.length
  /-- a slot is left for the final NULL -/
  cap : st.x + 1 ≤ m
  /-- the first `x` slots hold the offsets -/
  vec : st.argv.take st.x = offs.map some
  /-- the offsets point at the words -/
  words : words_at (st.dup.take st.cur) offs t

/-! ## Lines built from words, used in the round-trip statements -/

/-- What a caller of `parse_args` reads back when `strdup` succeeds: the count
`*max` and the words of the vector up to its first NULL. -/
def parse_words (AST_MAX_ARGS : Nat) (s : List Nat) (argv : List (Option Nat)) :
    Option (Nat × List CStr) :=
  (parse_args AST_MAX_ARGS true s argv).map (fun r => (r.max, argv_words r.dup r.argv))

/-- The pieces of a line separated by single spaces. -/
def spaced : List (List Nat) → List Nat
  | [] => []
  | [p] => p
  | p :: q :: rest => p ++ 32 :: spaced (q :: rest)

/-- A word with a backslash before each of its spaces, tabs, double quotes and
backslashes. -/
def escape_word : CStr → List Nat
  | [] => []
  | c :: rest =>
    if c = 32 ∨ c = 9 ∨ c = 34 ∨ c = 92 then 92 :: c :: escape_word rest
    else c :: escape_word rest

/-- A word written inside double quotes (`q = true`) or bare. -/
def quote_word (p : CStr × Bool) : List Nat :=
  if p.2 = true then 34 :: (p.1 ++ [34]) else p.1

/-- A word that may be written as `quote_word` writes it: not empty, without
NUL, double quote or backslash, and without space or tab when written bare. -/
def quotable (p : CStr × Bool) : Prop :=
  p.1 ≠ [] ∧ 0 ∉ p.1 ∧ 34 ∉ p.1 ∧ 92 ∉ p.1 ∧ (p.2 = false → 32 ∉ p.1 ∧ 9 ∉ p.1)

instance (p : CStr × Bool) : Decidable (quotable p) :=
  inferInstanceAs (Decidable (p.1 ≠ [] ∧ 0 ∉ p.1 ∧ 34 ∉ p.1 ∧ 92 ∉ p.1 ∧
    (p.2 = false → 32 ∉ p.1 ∧ 9 ∉ p.1)))

/-- An environment for the examples: vectors of 64 arguments and 16 command
words, 1 as the handler result that asks for the usage text, and handlers
that all return 0. -/
def sample_env : Env :=
  { AST_MAX_ARGS := 64, AST_MAX_CMD_LEN := 16, RESULT_SHOWUSAGE := 1,
    call_handler := fun _ _ _ _ => 0, call_generator := fun _ _ _ _ _ => none }

/-- An environment for the examples in which every handler returns the result
that asks for the usage text. -/
def showusage_env : Env :=
  { AST_MAX_ARGS := 64, AST_MAX_CMD_LEN := 16, RESULT_SHOWUSAGE := 1,
    call_handler := fun _ _ _ _ => 1, call_generator := fun _ _ _ _ _ => none }

/-- An entry of a loadable module whose usage text holds `%%`, used in the
examples. -/
def percent_entry : ast_cli_entry :=
  { addr := 1, cmda := [cstr "pct"], handler := 101, summary := cstr "sample",
    usage := cstr "Usage: pct 100%%\n", generator := none }

/-- An entry of a loadable module whose usage text has 4096 characters, used
in the examples. -/
def long_entry : ast_cli_entry :=
  { addr := 2, cmda := [cstr "big"], handler := 102, summary := cstr "sample",
    usage := List.replicate 4096 120, generator := none }

/-! ## The text `ast_cli` writes -/

/-- Where the libc `vsnprintf` stands in its format: in plain text, just after
a `%`, in the digits of a field width, or after the `.` in the digits of a
precision. -/
inductive fmt_state where
  /-- outside a conversion -/
  | text
  /-- after the `%` that opens a conversion -/
  | percent
  /-- in the digits of the field width, `w` so far -/
  | width (w : Nat)
  /-- after the `.`, in the digits of the precision, `p` so far -/
  | precision (w : Nat) (p : Nat)
  deriving DecidableEq, Repr

/-- A string right-aligned in a field of `w` characters: spaces come first. -/
def pad_left (w : Nat) (t : CStr) : CStr := List.replicate (w - t.length) 32 ++ t

/-- The libc `vsnprintf` on the formats made of plain text, `%%` and the
conversion `s` with an optional decimal field width and precision and no
flag: `%s` is replaced by the next argument, `%W.Ps` by its first `P`
characters right-aligned in `W` characters, `%%` by a `%`. The result is
`none` for any other conversion, for a format that ends inside a conversion
and for a conversion without an argument, where the C call has no defined
result. -/
def format_run : fmt_state → CStr → List CStr → Option CStr
  | st, [], _ =>
    match st with
    | fmt_state.text => some []
    | _ => none
  | st, c :: rest, args =>
    match st with
    | fmt_state.text =>
      if c = 37 then format_run fmt_state.percent rest args
      else (format_run fmt_state.text rest args).map (fun t => c :: t)
    | fmt_state.percent =>
      if c = 37 then (format_run fmt_state.text rest args).map (fun t => 37 :: t)
      else if c = 115 then
        match args with
        | a :: args1 => (format_run fmt_state.text rest args1).map (fun t => a ++ t)
        | [] => none
      else if 49 ≤ c ∧ c ≤ 57 then format_run (fmt_state.width (c - 48)) rest args
      else if c = 46 then format_run (fmt_state.precision 0 0) rest args
      else none
    | fmt_state.width w =>
      if 48 ≤ c ∧ c ≤ 57 then format_run (fmt_state.width (10 * w + (c - 48))) rest args
      else if c = 46 then format_run (fmt_state.precision w 0) rest args
      else if c = 115 then
        match args with
        | a :: args1 =>
          (format_run fmt_state.text rest args1).map (fun t => pad_left w a ++ t)
        | [] => none
      else none
    | fmt_state.precision w p =>
      if 48 ≤ c ∧ c ≤ 57 then format_run (fmt_state.precision w (10 * p + (c - 48))) rest args
      else if c = 115 then
        match args with
        | a :: args1 =>
          (format_run fmt_state.text rest args1).map (fun t => pad_left w (a.take p) ++ t)
        | [] => none
      else none

/-- The text `vsnprintf` builds from a format and its string arguments, before
it is cut to the size of the buffer. -/
def format_text (fmt : CStr) (args : List CStr) : Option CStr :=
  format_run fmt_state.text fmt args

/-- The text the function `ast_cli` writes to the descriptor: the formatted
text as far as it fits the buffer `stuff` of 4096 bytes. -/
def ast_cli (fmt : CStr) (args : List CStr) : Option CStr :=
  (format_text fmt args).map (fun t => t.take 4095)

/-- What a call of `ast_cli_generator` ends in. -/
inductive gen_result where
  /-- the `return NULL` after the loop (or after a failed `strdup` of the line) -/
  | null
  /-- the `return` of a copy of `res`, a word of the entry `e` -/
  | word (e : ast_cli_entry) (res : CStr)
  /-- the `return` of `r`, the result of the generator of `e` called with the
  word index `pos` -/
  | generated (e : ast_cli_entry) (pos : Int) (r : Option CStr)
  /-- a read or a write outside an array: the call has no defined result -/
  | out_of_bounds
  deriving DecidableEq, Repr

/-- The entry that ends the table `builtins`: no words, all pointers NULL. -/
def sentinel : ast_cli_entry :=
  { addr := builtin_addr builtins.length, cmda := [], handler := 0, summary := [], usage := [],
    generator := none }

/-- The word index handed to a generator: `strlen(word) ? (x - 1) : (x)`. -/
def generator_pos (word : CStr) (x : Nat) : Int :=
  if word.length ≠ 0 then (x : Int) - 1 else (x : Int)

/-- The `return` of the next word in the loop of `ast_cli_generator`: the word
`e->cmda[x - 1]` if `word` is not empty, else `e->cmda[x]`, when it is not
NULL. A read of `cmda` past the words gives NULL; the read of `cmda[x - 1]`
with `x = 0` is outside the array. -/
def generator_word (word : CStr) (x : Nat) (e : ast_cli_entry) : Option gen_result :=
  if word.length ≠ 0 then
    if x = 0 then some gen_result.out_of_bounds
    else (e.cmda[x - 1]?).map (fun res => gen_result.word e res)
  else (e.cmda[x]?).map (fun res => gen_result.word e res)

/-- The `return` of the generator's result in the loop of `ast_cli_generator`:
taken when the entry has a generator and `fullcmd` begins `matchstr`. -/
def generator_delegate (env : Env) (text word : CStr) (state : Int) (x : Nat) (matchstr : CStr)
    (e : ast_cli_entry) (fullcmd : CStr) : Option gen_result :=
  match e.generator with
  | some g =>
    if strncasecmp matchstr fullcmd fullcmd.length = 0 then
      some (gen_result.generated e (generator_pos word x)
        (env.call_generator g text word (generator_pos word x) state))
    else none
  | none => none

/-- The new value of `matchnum` after the entry with the joined words
`fullcmd` is picked. -/
def generator_count (matchstr fullcmd : CStr) (matchnum : Int) : Int :=
  if strncasecmp matchstr fullcmd matchstr.length = 0 then matchnum + 1 else matchnum

/-- The body of the loop of `ast_cli_generator` once the entry `e` and its
joined words `fullcmd` are picked: the result if the body returns, and the new
value of `matchnum`. -/
def generator_body (env : Env) (text word : CStr) (state : Int) (x : Nat) (matchstr : CStr)
    (e : ast_cli_entry) (fullcmd : CStr) (matchnum : Int) : Option gen_result × Int :=
  let matchnum1 := generator_count matchstr fullcmd matchnum
  let first : Option gen_result :=
    if strncasecmp matchstr fullcmd matchstr.length = 0 ∧ matchnum1 > state then
      generator_word word x e
    else none
  match first with
  | some r => (some r, matchnum1)
  | none => (generator_delegate env text word state x matchstr e fullcmd, matchnum1)

/-- The end of a turn of the loop: the result if the body returned, otherwise
the rest of the loop `k` with the new `matchnum`. -/
def generator_next (b : Option gen_result × Int) (k : Int → gen_result) : gen_result :=
  match b with
  | (some r, _) => r
  | (none, m1) => k m1

/-- The loop `while (e1->cmda[0] || e2)` of `ast_cli_generator`. `e1s` are the
built-ins from `e1` on (empty when `e1` is at the sentinel), `e2s` the dynamic
entries from `e2` on, `fullcmd1` is what the buffer of that name holds. A
`join` into `fullcmd2` or `fullcmd1` that writes outside the buffer ends the
defined behaviour. The test `!e1->cmda` of the source is never true (it tests
the address of the array), so with `e1` at the sentinel a dynamic entry is
picked only if its joined words are smaller than the stale `fullcmd1`;
otherwise the sentinel is picked and `e1` steps past the table, which the
next loop test reads. -/
def generator_loop (env : Env) (text word : CStr) (state : Int) (x : Nat) (matchstr : CStr) :
    List ast_cli_entry → List ast_cli_entry → CStr → Int → gen_result
  | [], [], _, _ => gen_result.null
  | [], e2 :: r2, fullcmd1, matchnum =>
    if join_overruns 80 e2.cmda = true then gen_result.out_of_bounds
    else if strcmp (join 80 e2.cmda) fullcmd1 < 0 then
      generator_next
        (generator_body env text word state x matchstr e2 (join 80 e2.cmda) matchnum)
        (fun m1 => generator_loop env text word state x matchstr [] r2 fullcmd1 m1)
    else
      generator_next
        (generator_body env text word state x matchstr sentinel fullcmd1 matchnum)
        (fun _ => gen_result.out_of_bounds)
  | e1 :: r1, [], _, matchnum =>
    if join_overruns 80 e1.cmda = true then gen_result.out_of_bounds
    else
      generator_next
        (generator_body env text word state x matchstr e1 (join 80 e1.cmda) matchnum)
        (fun m1 => generator_loop env text word state x matchstr r1 [] (join 80 e1.cmda) m1)
  | e1 :: r1, e2 :: r2, _, matchnum =>
    if join_overruns 80 e2.cmda = true ∨ join_overruns 80 e1.cmda = true then
      gen_result.out_of_bounds
    else if strcmp (join 80 e2.cmda) (join 80 e1.cmda) < 0 then
      generator_next
        (generator_body env text word state x matchstr e2 (join 80 e2.cmda) matchnum)
        (fun m1 =>
          generator_loop env text word state x matchstr (e1 :: r1) r2 (join 80 e1.cmda) m1)
    else
      generator_next
        (generator_body env text word state x matchstr e1 (join 80 e1.cmda) matchnum)
        (fun m1 =>
          generator_loop env text word state x matchstr r1 (e2 :: r2) (join 80 e1.cmda) m1)
termination_by e1s e2s => e1s.length + e2s.length

/-- The function `ast_cli_generator`. `mem` tells whether `strdup` succeeds
in `parse_args`, `garbage i` is what slot `i` of the local vector holds on
entry and `stale` what the local buffer `fullcmd1` holds on entry. The `join`
of the typed words into `matchstr` comes first; if it writes outside the
buffer the call has no defined result. -/
def ast_cli_generator (env : Env) (helpers : List ast_cli_entry) (mem : Bool)
    (garbage : Nat → Option Nat) (stale : CStr) (text word : CStr) (state : Int) : gen_result :=
  match parse_args env.AST_MAX_ARGS mem text ((List.range env.AST_MAX_ARGS).map garbage) with
  | some r =>
    if join_overruns 80 (argv_words r.dup r.argv) = true then gen_result.out_of_bounds
    else
      generator_loop env text word state r.max (join 80 (argv_words r.dup r.argv))
        builtins helpers stale 0
  | none => gen_result.null

/-! ## Listings and loops by step count, used to evaluate examples -/

/-- The entries in the order `help_workhorse` lists them without filter. -/
def merged_view (helpers : List ast_cli_entry) : List ast_cli_entry :=
  (help_merge builtins helpers).map Prod.fst

/-- The picks of the loop of `help_workhorse` in at most `n` turns. -/
def help_merge_steps : Nat → List ast_cli_entry → List ast_cli_entry →
    List (ast_cli_entry × CStr)
  | 0, _, _ => []
  | _ + 1, [], [] => []
  | n + 1, [], e2 :: r2 => (e2, join 80 e2.cmda) :: help_merge_steps n [] r2
  | n + 1, e1 :: r1, [] => (e1, join 80 e1.cmda) :: help_merge_steps n r1 []
  | n + 1, e1 :: r1, e2 :: r2 =>
    if strcmp (join 80 e2.cmda) (join 80 e1.cmda) < 0 then
      (e2, join 80 e2.cmda) :: help_merge_steps n (e1 :: r1) r2
    else
      (e1, join 80 e1.cmda) :: help_merge_steps n r1 (e2 :: r2)

/-- The loop of `help_workhorse` with its `ast_cli` calls, run for at most `n`
turns. -/
def help_loop_steps (fd : Int) (matchstr : Option CStr) :
    Nat → List ast_cli_entry → List ast_cli_entry → Option (List Event)
  | 0, _, _ => some []
  | _ + 1, [], [] => some []
  | n + 1, [], e2 :: r2 =>
    if join_overruns 80 e2.cmda = true then none
    else (help_loop_steps fd matchstr n [] r2).map (help_emit fd matchstr e2 (join 80 e2.cmda))
  | n + 1, e1 :: r1, [] =>
    if join_overruns 80 e1.cmda = true then none
    else (help_loop_steps fd matchstr n r1 []).map (help_emit fd matchstr e1 (join 80 e1.cmda))
  | n + 1, e1 :: r1, e2 :: r2 =>
    if join_overruns 80 e2.cmda = true ∨ join_overruns 80 e1.cmda = true then none
    else if strcmp (join 80 e2.cmda) (join 80 e1.cmda) < 0 then
      (help_loop_steps fd matchstr n (e1 :: r1) r2).map
        (help_emit fd matchstr e2 (join 80 e2.cmda))
    else
      (help_loop_steps fd matchstr n r1 (e2 :: r2)).map
        (help_emit fd matchstr e1 (join 80 e1.cmda))

/-- The loop of `ast_cli_generator` run for at most `n` turns (`null` when the
turns are used up). -/
def generator_steps (env : Env) (text word : CStr) (state : Int) (x : Nat) (matchstr : CStr) :
    Nat → List ast_cli_entry → List ast_cli_entry → CStr → Int → gen_result
  | 0, _, _, _, _ => gen_result.null
  | _ + 1, [], [], _, _ => gen_result.null
  | n + 1, [], e2 :: r2, fullcmd1, matchnum =>
    if join_overruns 80 e2.cmda = true then gen_result.out_of_bounds
    else if strcmp (join 80 e2.cmda) fullcmd1 < 0 then
      generator_next
        (generator_body env text word state x matchstr e2 (join 80 e2.cmda) matchnum)
        (fun m1 => generator_steps env text word state x matchstr n [] r2 fullcmd1 m1)
    else
      generator_next
        (generator_body env text word state x matchstr sentinel fullcmd1 matchnum)
        (fun _ => gen_result.out_of_bounds)
  | n + 1, e1 :: r1, [], _, matchnum =>
    if join_overruns 80 e1.cmda = true then gen_result.out_of_bounds
    else
      generator_next
        (generator_body env text word state x matchstr e1 (join 80 e1.cmda) matchnum)
        (fun m1 => generator_steps env text word state x matchstr n r1 [] (join 80 e1.cmda) m1)
  | n + 1, e1 :: r1, e2 :: r2, _, matchnum =>
    if join_overruns 80 e2.cmda = true ∨ join_overruns 80 e1.cmda = true then
      gen_result.out_of_bounds
    else if strcmp (join 80 e2.cmda) (join 80 e1.cmda) < 0 then
      generator_next
        (generator_body env text word state x matchstr e2 (join 80 e2.cmda) matchnum)
        (fun m1 =>
          generator_steps env text word state x matchstr n (e1 :: r1) r2 (join 80 e1.cmda) m1)
    else
      generator_next
        (generator_body env text word state x matchstr e1 (join 80 e1.cmda) matchnum)
        (fun m1 =>
          generator_steps env text word state x matchstr n r1 (e2 :: r2) (join 80 e1.cmda) m1)

/-- What a result `R` of the loop of `ast_cli_generator` over the entries `l`
can be: NULL, an access outside an array, a word of an entry of `l` whose
joined words fit their buffer and begin with `matchstr`, or the result of the
generator of an entry of `l` whose joined words fit their buffer and begin
`matchstr`. -/
def generator_sound (env : Env) (text word : CStr) (state : Int) (x : Nat) (matchstr : CStr)
    (l : List ast_cli_entry) (R : gen_result) : Prop :=
  R = gen_result.null ∨ R = gen_result.out_of_bounds ∨
  (∃ e ∈ l, join_overruns 80 e.cmda = false ∧
    strncasecmp matchstr (join 80 e.cmda) matchstr.length = 0 ∧
    ∃ w, R = gen_result.word e w ∧
      e.cmda[if word.length ≠ 0 then x - 1 else x]? = some w) ∨
  (∃ e ∈ l, join_overruns 80 e.cmda = false ∧
    strncasecmp matchstr (join 80 e.cmda) (join 80 e.cmda).length = 0 ∧
    ∃ g, e.generator = some g ∧
      R = gen_result.generated e (generator_pos word x)
        (env.call_generator g text word (generator_pos word x) state))

/-- The entry `e` makes the loop of `ast_cli_generator` return nothing when it
is picked with an empty `word` and state 0: its joined words fit their buffer,
it has no word at index `x` or its joined words do not begin with `matchstr`,
and its generator is not called. -/
def generator_quiet (env : Env) (text : CStr) (x : Nat) (matchstr : CStr)
    (e : ast_cli_entry) : Prop :=
  join_overruns 80 e.cmda = false ∧
  ¬ (strncasecmp matchstr (join 80 e.cmda) matchstr.length = 0 ∧ (e.cmda[x]?).isSome = true) ∧
  generator_delegate env text [] 0 x matchstr e (join 80 e.cmda) = none

/-- The value a call of `ast_cli_generator` returns: `some none` for NULL,
`some (some w)` for the string `w`, and `none` when the call has no defined
result. -/
def returned : gen_result → Option (Option CStr)
  | gen_result.null => some none
  | gen_result.word _ res => some (some res)
  | gen_result.generated _ _ r => some r
  | gen_result.out_of_bounds => none

/-! ## Theorems: lookup -/

theorem strcasecmp_eq_zero (a b : CStr) :
    strcasecmp a b = 0 ↔ a.map tolower = b.map tolower := by
  induction a generalizing b with
  | nil => cases b <;> simp [strcasecmp]
  | cons x xs ih =>
    cases b with
    | nil => simp [strcasecmp]
    | cons y ys =>
      simp only [strcasecmp, List.map_cons, List.cons.injEq]
      by_cases h : tolower x = tolower y
      · simp [h, ih]
      · simp only [h, if_false, false_and, iff_false]
        split <;> simp

theorem lower_path_cons (w : CStr) (p : List CStr) :
    lower_path (w :: p) = w.map tolower :: lower_path p := rfl

theorem lower_path_eq_nil (p : List CStr) : lower_path p = [] ↔ p = [] := by
  simp [lower_path]

theorem drop_of_get?_none {α : Type} (l : List α) (y : Nat) (h : l[y]? = none) :
    l.drop y = [] := by
  rw [List.getElem?_eq_none_iff] at h
  exact List.drop_eq_nil_of_le h

theorem drop_of_get?_some {α : Type} (l : List α) (y : Nat) (w : α) (h : l[y]? = some w) :
    l.drop y = w :: l.drop (y + 1) := by
  induction l generalizing y with
  | nil => simp at h
  | cons a t ih =>
    cases y with
    | zero => simp at h; simp [h]
    | succ n => simp at h; simpa using ih n h

theorem find_cli_match_eq (cmda cmds : List CStr) (exact : Int) :
    find_cli_match cmda cmds exact = find_cli_final cmda exact (find_cli_words cmda exact cmds 0) :=
  rfl

theorem find_cli_final_false (cmda : List CStr) (exact : Int) (y : Nat) :
    find_cli_final cmda exact (false, y) = false := by
  unfold find_cli_final; split <;> rfl

/-- With `exact = 0` a candidate passes when its remaining words begin the
typed words. -/
theorem find_cli_words_zero (cmda : List CStr) (cmds : List CStr) (y : Nat) :
    find_cli_final cmda 0 (find_cli_words cmda 0 cmds y) = true ↔
      path_begins (cmda.drop y) cmds := by
  induction cmds generalizing y with
  | nil =>
    cases h : cmda[y]? with
    | none =>
      simp [find_cli_words, find_cli_final, h, drop_of_get?_none _ _ h, path_begins, lower_path]
    | some w =>
      simp [find_cli_words, find_cli_final, h, drop_of_get?_some _ _ _ h, path_begins, lower_path]
  | cons c rest ih =>
    cases h : cmda[y]? with
    | none =>
      simp [find_cli_words, find_cli_final, h, drop_of_get?_none _ _ h, path_begins, lower_path]
    | some w =>
      rw [drop_of_get?_some _ _ _ h]
      simp only [find_cli_words, h]
      by_cases hc : strcasecmp w c = 0
      · have hm := (strcasecmp_eq_zero w c).1 hc
        simp only [hc, ne_eq, not_true_eq_false, if_false]
        refine (ih (y + 1)).trans ?_
        simp only [path_begins, lower_path_cons, hm]
        constructor
        · intro hp
          obtain ⟨t, ht⟩ := hp
          exact ⟨t, by simp [ht]⟩
        · intro hp
          obtain ⟨t, ht⟩ := hp
          simp only [List.cons_append, List.cons.injEq, true_and] at ht
          exact ⟨t, ht⟩
      · have hm : ¬ w.map tolower = c.map tolower := fun h2 => hc ((strcasecmp_eq_zero w c).2 h2)
        simp only [hc, ne_eq, not_false_eq_true, if_true, find_cli_final_false]
        simp only [path_begins, lower_path_cons, Bool.false_eq_true, false_iff]
        intro hp
        obtain ⟨t, ht⟩ := hp
        simp only [List.cons_append, List.cons.injEq] at ht
        exact hm ht.1

/-- With a positive `exact` a candidate passes when its remaining words are
the typed words. -/
theorem find_cli_words_pos (cmda : List CStr) (exact : Int) (hx : 0 < exact)
    (cmds : List CStr) (y : Nat) :
    find_cli_final cmda exact (find_cli_words cmda exact cmds y) = true ↔
      path_same (cmda.drop y) cmds := by
  have hx0 : exact ≠ 0 := by omega
  have hx1 : exact > -1 := by omega
  induction cmds generalizing y with
  | nil =>
    cases h : cmda[y]? with
    | none =>
      simp [find_cli_words, find_cli_final, h, drop_of_get?_none _ _ h, path_same, lower_path]
    | some w =>
      simp [find_cli_words, find_cli_final, h, hx1, drop_of_get?_some _ _ _ h, path_same,
        lower_path]
  | cons c rest ih =>
    cases h : cmda[y]? with
    | none =>
      simp [find_cli_words, find_cli_final_false, h, hx0, drop_of_get?_none _ _ h, path_same,
        lower_path]
    | some w =>
      rw [drop_of_get?_some _ _ _ h]
      simp only [find_cli_words, h]
      by_cases hc : strcasecmp w c = 0
      · have hm := (strcasecmp_eq_zero w c).1 hc
        simp only [hc, ne_eq, not_true_eq_false, if_false]
        refine (ih (y + 1)).trans ?_
        simp [path_same, lower_path_cons, hm]
      · have hm : ¬ w.map tolower = c.map tolower := fun h2 => hc ((strcasecmp_eq_zero w c).2 h2)
        simp only [hc, ne_eq, not_false_eq_true, if_true, find_cli_final_false]
        simp [path_same, lower_path_cons, hm]

/-- With a negative `exact` a candidate passes when the typed words begin its
remaining words. -/
theorem find_cli_words_neg (cmda : List CStr) (exact : Int) (hx : exact < 0)
    (cmds : List CStr) (y : Nat) :
    find_cli_final cmda exact (find_cli_words cmda exact cmds y) = true ↔
      path_begins cmds (cmda.drop y) := by
  have hx0 : exact ≠ 0 := by omega
  have hx1 : ¬ exact > -1 := by omega
  induction cmds generalizing y with
  | nil =>
    simp [find_cli_words, find_cli_final, hx1, path_begins, lower_path]
  | cons c rest ih =>
    cases h : cmda[y]? with
    | none =>
      simp [find_cli_words, find_cli_final_false, h, hx0, drop_of_get?_none _ _ h, path_begins,
        lower_path]
    | some w =>
      rw [drop_of_get?_some _ _ _ h]
      simp only [find_cli_words, h]
      by_cases hc : strcasecmp w c = 0
      · have hm := (strcasecmp_eq_zero w c).1 hc
        simp only [hc, ne_eq, not_true_eq_false, if_false]
        refine (ih (y + 1)).trans ?_
        simp only [path_begins, lower_path_cons, hm]
        constructor
        · intro hp
          obtain ⟨t, ht⟩ := hp
          exact ⟨t, by simp [ht]⟩
        · intro hp
          obtain ⟨t, ht⟩ := hp
          simp only [List.cons_append, List.cons.injEq, true_and] at ht
          exact ⟨t, ht⟩
      · have hm : ¬ w.map tolower = c.map tolower := fun h2 => hc ((strcasecmp_eq_zero w c).2 h2)
        simp only [hc, ne_eq, not_false_eq_true, if_true, find_cli_final_false]
        simp only [path_begins, lower_path_cons, Bool.false_eq_true, false_iff]
        intro hp
        obtain ⟨t, ht⟩ := hp
        simp only [List.cons_append, List.cons.injEq] at ht
        exact hm ht.1.symm

theorem find_cli_match_zero (cmda cmds : List CStr) :
    find_cli_match cmda cmds 0 = true ↔ path_begins cmda cmds := by
  rw [find_cli_match_eq, find_cli_words_zero]; simp

theorem find_cli_match_one (cmda cmds : List CStr) :
    find_cli_match cmda cmds 1 = true ↔ path_same cmda cmds := by
  rw [find_cli_match_eq, find_cli_words_pos _ _ (by decide)]; simp

theorem find_cli_match_neg (cmda cmds : List CStr) :
    find_cli_match cmda cmds (-1) = true ↔ path_begins cmds cmda := by
  rw [find_cli_match_eq, find_cli_words_neg _ _ (by decide)]; simp

/-- The two scans of `find_cli` are one scan of the built-ins followed by the
dynamic list. -/
theorem find_cli_eq_find (helpers : List ast_cli_entry) (cmds : List CStr) (exact : Int) :
    find_cli helpers cmds exact =
      (builtins ++ helpers).find? (fun e => find_cli_match e.cmda cmds exact) := by
  unfold find_cli
  rw [List.find?_append]
  cases List.find? (fun e => find_cli_match e.cmda cmds exact) builtins <;> rfl

/-- What a lookup returns, for a mode whose candidate test is the relation `R`. -/
theorem find_cli_spec (helpers : List ast_cli_entry) (cmds : List CStr) (exact : Int)
    (R : List CStr → Prop) (hR : ∀ cmda, find_cli_match cmda cmds exact = true ↔ R cmda) :
    ((find_cli helpers cmds exact).isSome = true ↔ ∃ e ∈ builtins ++ helpers, R e.cmda) ∧
    (∀ e, find_cli helpers cmds exact = some e → e ∈ builtins ++ helpers ∧ R e.cmda) ∧
    (find_cli helpers cmds exact = none ↔ ∀ e ∈ builtins ++ helpers, ¬ R e.cmda) := by
  rw [find_cli_eq_find]
  refine ⟨?_, ?_, ?_⟩
  · rw [List.find?_isSome]
    constructor
    · rintro ⟨e, he, hm⟩
      exact ⟨e, he, (hR _).1 hm⟩
    · rintro ⟨e, he, hm⟩
      exact ⟨e, he, (hR _).2 hm⟩
  · intro e he
    have hm : find_cli_match e.cmda cmds exact = true := by
      simpa using List.find?_some he
    exact ⟨List.mem_of_find?_eq_some he, (hR _).1 hm⟩
  · rw [List.find?_eq_none]
    constructor
    · intro h e he hr
      exact h e he ((hR _).2 hr)
    · intro h e he hm
      exact h e he ((hR _).1 hm)

/-- C2: for every dynamic list and every word list, `find_cli` with `exact = 0`
returns an entry exactly when the complete word-path of some built-in or
dynamic entry begins the typed words (case-insensitively, word by word), with
`exact = 1` exactly when some entry's path equals the typed words, and with
`exact = -1` exactly when the typed words begin some entry's path; the entry
returned is a built-in or dynamic entry standing in that relation, and the
result is `none` exactly when no entry does. -/
theorem find_cli_semantics (helpers : List ast_cli_entry) (cmds : List CStr) :
    (((find_cli helpers cmds 0).isSome = true ↔
        ∃ e ∈ builtins ++ helpers, path_begins e.cmda cmds) ∧
      (∀ e, find_cli helpers cmds 0 = some e →
        e ∈ builtins ++ helpers ∧ path_begins e.cmda cmds) ∧
      (find_cli helpers cmds 0 = none ↔
        ∀ e ∈ builtins ++ helpers, ¬ path_begins e.cmda cmds)) ∧
    (((find_cli helpers cmds 1).isSome = true ↔
        ∃ e ∈ builtins ++ helpers, path_same e.cmda cmds) ∧
      (∀ e, find_cli helpers cmds 1 = some e →
        e ∈ builtins ++ helpers ∧ path_same e.cmda cmds) ∧
      (find_cli helpers cmds 1 = none ↔
        ∀ e ∈ builtins ++ helpers, ¬ path_same e.cmda cmds)) ∧
    (((find_cli helpers cmds (-1)).isSome = true ↔
        ∃ e ∈ builtins ++ helpers, path_begins cmds e.cmda) ∧
      (∀ e, find_cli helpers cmds (-1) = some e →
        e ∈ builtins ++ helpers ∧ path_begins cmds e.cmda) ∧
      (find_cli helpers cmds (-1) = none ↔
        ∀ e ∈ builtins ++ helpers, ¬ path_begins cmds e.cmda)) :=
  ⟨find_cli_spec helpers cmds 0 (fun cmda => path_begins cmda cmds)
      (fun cmda => find_cli_match_zero cmda cmds),
    find_cli_spec helpers cmds 1 (fun cmda => path_same cmda cmds)
      (fun cmda => find_cli_match_one cmda cmds),
    find_cli_spec helpers cmds (-1) (fun cmda => path_begins cmds cmda)
      (fun cmda => find_cli_match_neg cmda cmds)⟩

/-! ## Theorems: registration -/

theorem path_same_begins (p w : List CStr) (h : path_same p w) : path_begins p w := by
  unfold path_begins; rw [h]

theorem unregister_loop_cons_ne (e cur : ast_cli_entry) (rest : List ast_cli_entry)
    (h : cur.addr ≠ e.addr) :
    unregister_loop e (cur :: rest) = cur :: unregister_loop e rest := by
  have h1 : ¬ e.addr = cur.addr := fun h2 => h h2.symm
  simp only [unregister_loop, h1, if_false]

theorem unregister_loop_cons_eq (e cur : ast_cli_entry) (rest : List ast_cli_entry)
    (h : cur.addr = e.addr) : unregister_loop e (cur :: rest) = rest := by
  simp only [unregister_loop, h, if_true]

theorem unregister_loop_absent (e : ast_cli_entry) (l : List ast_cli_entry)
    (h : ∀ c ∈ l, c.addr ≠ e.addr) : unregister_loop e l = l := by
  induction l with
  | nil => rfl
  | cons cur rest ih =>
    rw [unregister_loop_cons_ne e cur rest (h cur (List.mem_cons_self _ _)),
      ih (fun c hc => h c (List.mem_cons_of_mem _ hc))]

theorem unregister_loop_present (e c : ast_cli_entry) (pre post : List ast_cli_entry)
    (hc : c.addr = e.addr) (hpre : ∀ p ∈ pre, p.addr ≠ e.addr) :
    unregister_loop e (pre ++ c :: post) = pre ++ post := by
  induction pre with
  | nil => exact unregister_loop_cons_eq e c post hc
  | cons cur rest ih =>
    rw [List.cons_append, unregister_loop_cons_ne e cur _ (hpre cur (List.mem_cons_self _ _)),
      ih (fun p hp => hpre p (List.mem_cons_of_mem _ hp)), List.cons_append]

theorem register_miss (helpers : List ast_cli_entry) (e : ast_cli_entry)
    (h : find_cli helpers e.cmda (-1) = none) :
    ast_cli_register helpers e = (0, register_loop (join2 80 e.cmda) e helpers) := by
  simp [ast_cli_register, h]

theorem help_merge_left_nil (e2 : ast_cli_entry) (r2 : List ast_cli_entry) :
    help_merge [] (e2 :: r2) = (e2, join 80 e2.cmda) :: help_merge [] r2 := by
  rw [help_merge]

theorem help_merge_right_nil (e1 : ast_cli_entry) (r1 : List ast_cli_entry) :
    help_merge (e1 :: r1) [] = (e1, join 80 e1.cmda) :: help_merge r1 [] := by
  rw [help_merge]

theorem help_merge_dynamic (e1 e2 : ast_cli_entry) (r1 r2 : List ast_cli_entry)
    (h : strcmp (join 80 e2.cmda) (join 80 e1.cmda) < 0) :
    help_merge (e1 :: r1) (e2 :: r2) = (e2, join 80 e2.cmda) :: help_merge (e1 :: r1) r2 := by
  rw [help_merge, if_pos h]

theorem help_merge_builtin (e1 e2 : ast_cli_entry) (r1 r2 : List ast_cli_entry)
    (h : ¬ strcmp (join 80 e2.cmda) (join 80 e1.cmda) < 0) :
    help_merge (e1 :: r1) (e2 :: r2) = (e1, join 80 e1.cmda) :: help_merge r1 (e2 :: r2) := by
  rw [help_merge, if_neg h]

theorem help_merge_nil_nil : help_merge [] [] = [] := by
  rw [help_merge]

theorem help_merge_builtins_only (l : List ast_cli_entry) :
    help_merge l [] = l.map (fun e => (e, join 80 e.cmda)) := by
  induction l with
  | nil => exact help_merge_nil_nil
  | cons e1 r1 ih => rw [help_merge_right_nil, ih, List.map_cons]

theorem help_loop_eq_steps (fd : Int) (ms : Option CStr) (l1 l2 : List ast_cli_entry)
    (n : Nat) (h : l1.length + l2.length ≤ n) :
    help_loop fd ms l1 l2 = help_loop_steps fd ms n l1 l2 := by
  induction l1, l2 using help_loop.induct fd ms generalizing n with
  | case1 => cases n <;> simp [help_loop_steps, help_loop]
  | case2 e2 r2 ho =>
    obtain ⟨n1, rfl⟩ : ∃ n1, n = n1 + 1 := ⟨n - 1, by simp at h; omega⟩
    rw [help_loop, help_loop_steps, if_pos ho, if_pos ho]
  | case3 e2 r2 ho ih =>
    obtain ⟨n1, rfl⟩ : ∃ n1, n = n1 + 1 := ⟨n - 1, by simp at h; omega⟩
    rw [help_loop, help_loop_steps, if_neg ho, if_neg ho, ih n1 (by simp at h ⊢; omega)]
  | case4 e1 r1 ho =>
    obtain ⟨n1, rfl⟩ : ∃ n1, n = n1 + 1 := ⟨n - 1, by simp at h; omega⟩
    rw [help_loop, help_loop_steps, if_pos ho, if_pos ho]
  | case5 e1 r1 ho ih =>
    obtain ⟨n1, rfl⟩ : ∃ n1, n = n1 + 1 := ⟨n - 1, by simp at h; omega⟩
    rw [help_loop, help_loop_steps, if_neg ho, if_neg ho, ih n1 (by simp at h ⊢; omega)]
  | case6 e1 r1 e2 r2 ho =>
    obtain ⟨n1, rfl⟩ : ∃ n1, n = n1 + 1 := ⟨n - 1, by simp at h; omega⟩
    rw [help_loop, help_loop_steps, if_pos ho, if_pos ho]
  | case7 e1 r1 e2 r2 ho hlt ih =>
    obtain ⟨n1, rfl⟩ : ∃ n1, n = n1 + 1 := ⟨n - 1, by simp at h; omega⟩
    rw [help_loop, help_loop_steps, if_neg ho, if_neg ho, if_pos hlt, if_pos hlt,
      ih n1 (by simp at h ⊢; omega)]
  | case8 e1 r1 e2 r2 ho hlt ih =>
    obtain ⟨n1, rfl⟩ : ∃ n1, n = n1 + 1 := ⟨n - 1, by simp at h; omega⟩
    rw [help_loop, help_loop_steps, if_neg ho, if_neg ho, if_neg hlt, if_neg hlt,
      ih n1 (by simp at h ⊢; omega)]

theorem help_workhorse_eq_steps (helpers : List ast_cli_entry) (fd : Int)
    (filt : Option (List CStr)) :
    help_workhorse helpers fd filt
      = match filt with
        | none =>
          (help_loop_steps fd none (builtins.length + helpers.length) builtins helpers).map
            (fun t => (0, t))
        | some m =>
          if join_overruns 80 m = true then none
          else
            (help_loop_steps fd (some (join 80 m)) (builtins.length + helpers.length)
              builtins helpers).map (fun t => (0, t)) := by
  unfold help_workhorse
  cases filt with
  | none => simp only [help_loop_eq_steps fd none builtins helpers _ (le_refl _)]
  | some m => simp only [help_loop_eq_steps fd _ builtins helpers _ (le_refl _)]

set_option maxRecDepth 20000 in
/-- C5 (the code at the failing input): registering `abc` and then `ab` on the
empty dynamic list succeeds twice and leaves `abc` before `ab`; in this
reachable state the help listing without filter shows `abc`, `ab`, `help`, ...
which is not in non-decreasing case-insensitive order. -/
theorem help_listing_out_of_order :
    ast_cli_register [] (sample_entry 1 ["abc"]) = (0, [sample_entry 1 ["abc"]]) ∧
    ast_cli_register [sample_entry 1 ["abc"]] (sample_entry 2 ["ab"])
      = (0, [sample_entry 1 ["abc"], sample_entry 2 ["ab"]]) ∧
    Reachable [sample_entry 1 ["abc"], sample_entry 2 ["ab"]] ∧
    (help_workhorse [sample_entry 1 ["abc"], sample_entry 2 ["ab"]] 1 none).map
        (fun r => listed_paths r.2)
      = some [cstr "abc", cstr "ab", cstr "help", cstr "load", cstr "show channel",
         cstr "show channels", cstr "show modules", cstr "unload"] ∧
    (∀ r, help_workhorse [sample_entry 1 ["abc"], sample_entry 2 ["ab"]] 1 none = some r →
      ¬ ci_sorted (listed_paths r.2)) := by
  have h3 : (help_workhorse [sample_entry 1 ["abc"], sample_entry 2 ["ab"]] 1 none).map
        (fun r => listed_paths r.2)
      = some [cstr "abc", cstr "ab", cstr "help", cstr "load", cstr "show channel",
         cstr "show channels", cstr "show modules", cstr "unload"] := by
    rw [help_workhorse_eq_steps]
    decide
  have h1 : ast_cli_register [] (sample_entry 1 ["abc"]) = (0, [sample_entry 1 ["abc"]]) := by
    decide
  have h2 : ast_cli_register [sample_entry 1 ["abc"]] (sample_entry 2 ["ab"])
      = (0, [sample_entry 1 ["abc"], sample_entry 2 ["ab"]]) := by decide
  have hr1 := Reachable.register [] (sample_entry 1 ["abc"]) Reachable.empty
  rw [h1] at hr1
  have hr2 := Reachable.register _ (sample_entry 2 ["ab"]) hr1
  rw [h2] at hr2
  refine ⟨h1, h2, hr2, h3, ?_⟩
  intro r hr
  rw [hr] at h3
  simp only [Option.map_some', Option.some.injEq] at h3
  rw [h3]
  decide

/-! ## Theorems: unregistration -/

/-- C7: for every dynamic list and entry `e`, `ast_cli_unregister` returns 0;
if a node with `e`'s address is in the list, the result is the list without
that one node, the other entries in their previous order; if no node has `e`'s
address (an entry with the same words at another address included) the list is
unchanged; and on a list whose nodes have different addresses a second call
gives the same list as the first. The built-in table is a constant of the
embedding: the function only produces a new dynamic list. -/
theorem ast_cli_unregister_removes_by_identity (helpers : List ast_cli_entry)
    (e : ast_cli_entry) :
    (ast_cli_unregister helpers e).1 = 0 ∧
    (∀ (pre post : List ast_cli_entry) (c : ast_cli_entry),
      helpers = pre ++ c :: post → c.addr = e.addr → (∀ p ∈ pre, p.addr ≠ e.addr) →
        (ast_cli_unregister helpers e).2 = pre ++ post) ∧
    ((∀ c ∈ helpers, c.addr ≠ e.addr) → (ast_cli_unregister helpers e).2 = helpers) ∧
    ((helpers.map (fun c => c.addr)).Nodup →
      ast_cli_unregister (ast_cli_unregister helpers e).2 e = ast_cli_unregister helpers e) := by
  refine ⟨rfl, ?_, ?_, ?_⟩
  · intro pre post c hl hc hpre
    rw [hl]
    exact unregister_loop_present e c pre post hc hpre
  · intro h
    exact unregister_loop_absent e helpers h
  · intro hnd
    have hgone : ∀ c ∈ unregister_loop e helpers, c.addr ≠ e.addr := by
      clear * - hnd
      induction helpers with
      | nil => intro c hc; simp [unregister_loop] at hc
      | cons cur rest ih =>
        rw [List.map_cons, List.nodup_cons] at hnd
        by_cases h : cur.addr = e.addr
        · rw [unregister_loop_cons_eq e cur rest h]
          intro c hc hce
          apply hnd.1
          rw [h, ← hce]
          exact List.mem_map_of_mem (fun c => c.addr) hc
        · rw [unregister_loop_cons_ne e cur rest h]
          intro c hc
          rcases List.mem_cons.1 hc with h1 | h1
          · rw [h1]; exact h
          · exact ih hnd.2 c h1
    show (0, unregister_loop e (unregister_loop e helpers)) = (0, unregister_loop e helpers)
    rw [unregister_loop_absent e _ hgone]

/-- Witness of C7: `dial` (address 1) is unlinked from a list of three; an
entry `dial` at another address is not in the list, which stays as it is. -/
theorem ast_cli_unregister_removes_by_identity_witness :
    (ast_cli_unregister
        [sample_entry 3 ["agent"], sample_entry 1 ["dial"], sample_entry 2 ["zap"]]
        (sample_entry 1 ["dial"])).2
      = [sample_entry 3 ["agent"]] ++ [sample_entry 2 ["zap"]] ∧
    (ast_cli_unregister
        [sample_entry 3 ["agent"], sample_entry 1 ["dial"], sample_entry 2 ["zap"]]
        (sample_entry 7 ["dial"])).2
      = [sample_entry 3 ["agent"], sample_entry 1 ["dial"], sample_entry 2 ["zap"]] :=
  ⟨(ast_cli_unregister_removes_by_identity
      [sample_entry 3 ["agent"], sample_entry 1 ["dial"], sample_entry 2 ["zap"]]
      (sample_entry 1 ["dial"])).2.1
      [sample_entry 3 ["agent"]] [sample_entry 2 ["zap"]] (sample_entry 1 ["dial"])
      rfl rfl (by decide),
    (ast_cli_unregister_removes_by_identity
      [sample_entry 3 ["agent"], sample_entry 1 ["dial"], sample_entry 2 ["zap"]]
      (sample_entry 7 ["dial"])).2.2.1 (by decide)⟩

/-! ## Theorems: the cap on word lists -/

theorem tok_step_done_grows (t : tok_state) (c : Nat) :
    t.done <+: (tok_step none t c).done := by
  unfold tok_step tok_normal tok_full
  split_ifs <;> (try cases t.word) <;> simp

theorem tok_foldl_done_grows (l : List Nat) (t : tok_state) :
    t.done <+: (l.foldl (tok_step none) t).done := by
  induction l generalizing t with
  | nil => exact List.prefix_refl _
  | cons c rest ih => exact (tok_step_done_grows t c).trans (ih _)

theorem tok_step_stuck (m : Nat) (tc : tok_state) (c : Nat) (hw : tc.word = none)
    (hd : tc.done.length = m - 1) :
    (tok_step (some m) tc c).word = none ∧ (tok_step (some m) tc c).done = tc.done := by
  obtain ⟨done, word, quoted, escaped⟩ := tc
  simp only at hw hd
  subst hw
  unfold tok_step tok_normal tok_full
  split_ifs <;> simp_all

theorem cap_rel_step (m : Nat) (tc tu : tok_state) (c : Nat) (h : cap_rel m tc tu) :
    cap_rel m (tok_step (some m) tc c) (tok_step none tu c) := by
  rcases h with ⟨heq, hlen⟩ | ⟨hw, hd, hp⟩
  · subst heq
    obtain ⟨done, word, quoted, escaped⟩ := tc
    cases word with
    | none =>
      simp only [tok_words, Option.toList, List.append_nil] at hlen
      by_cases hfull : done.length ≥ m - 1
      · have hd : done.length = m - 1 := by omega
        unfold tok_step tok_normal tok_full cap_rel tok_words
        split_ifs <;> simp_all
      · unfold tok_step tok_normal tok_full cap_rel tok_words
        split_ifs <;> simp_all <;> omega
    | some w =>
      unfold tok_step tok_normal tok_full cap_rel tok_words
      simp only [tok_words, Option.toList, List.length_append, List.length_singleton] at hlen
      split_ifs <;> simp_all
  · right
    have hs := tok_step_stuck m tc c hw hd
    refine ⟨hs.1, ?_, ?_⟩
    · rw [hs.2]; exact hd
    · rw [hs.2]; exact hp.trans (tok_step_done_grows tu c)

theorem cap_rel_foldl (m : Nat) (l : List Nat) (tc tu : tok_state) (h : cap_rel m tc tu) :
    cap_rel m (l.foldl (tok_step (some m)) tc) (l.foldl (tok_step none) tu) := by
  induction l generalizing tc tu with
  | nil => exact h
  | cons c rest ih => exact ih _ _ (cap_rel_step m tc tu c h)

theorem cap_rel_words (m : Nat) (tc tu : tok_state) (h : cap_rel m tc tu) :
    tok_words tc = (tok_words tu).take (m - 1) := by
  rcases h with ⟨heq, hlen⟩ | ⟨hw, hd, hp⟩
  · rw [heq, List.take_of_length_le hlen]
  · obtain ⟨t, ht⟩ := hp
    unfold tok_words
    rw [hw, ← ht, List.append_assoc, List.take_left' hd]
    simp

/-- The capped rules give the first `AST_MAX_ARGS - 1` words of the uncapped
ones. -/
theorem tokenize_capped_eq (m : Nat) (s : List Nat) :
    tokenize_capped m s = (tokenize s).take (m - 1) := by
  unfold tokenize_capped tokenize
  apply cap_rel_words
  apply cap_rel_foldl
  left
  exact ⟨rfl, by simp [tok_words, tok_init]⟩

theorem take_set_succ {α : Type} (l : List α) (n : Nat) (a : α) (h : n < l.length) :
    (l.set n a).take (n + 1) = l.take n ++ [a] := by
  induction l generalizing n with
  | nil => simp at h
  | cons x xs ih =>
    cases n with
    | zero => simp
    | succ k =>
      simp only [List.length_cons, Nat.add_lt_add_iff_right] at h
      simp [ih k h]

theorem placed_append (out : List Nat) (off : Nat) (w : CStr) (l : List Nat)
    (h : placed out off w) : placed (out ++ l) off w := by
  obtain ⟨h0, post, hp⟩ := h
  refine ⟨h0, post ++ l, ?_⟩
  have hle : off ≤ out.length := by
    by_contra hc
    rw [List.drop_eq_nil_of_le (by omega)] at hp
    cases w <;> simp at hp
  rw [List.drop_append_of_le_length hle, hp]
  simp

theorem placed_all_append (out : List Nat) (offs : List Nat) (ws : List CStr) (l : List Nat)
    (h : List.Forall₂ (placed out) offs ws) : List.Forall₂ (placed (out ++ l)) offs ws :=
  List.Forall₂.imp (fun off w hp => placed_append out off w l hp) h

theorem open_at_close (out : List Nat) (off : Nat) (w : CStr) (h : open_at out off w) :
    placed (out ++ [0]) off w := by
  obtain ⟨h0, hle, hd⟩ := h
  refine ⟨h0, [], ?_⟩
  rw [List.drop_append_of_le_length hle, hd]

theorem open_at_extend (out : List Nat) (off : Nat) (w : CStr) (c : Nat) (hc : c ≠ 0)
    (h : open_at out off w) : open_at (out ++ [c]) off (w ++ [c]) := by
  obtain ⟨h0, hle, hd⟩ := h
  refine ⟨?_, ?_, ?_⟩
  · simp only [List.mem_append, List.mem_singleton, not_or]
    exact ⟨h0, fun h => hc h.symm⟩
  · simp; omega
  · rw [List.drop_append_of_le_length hle, hd]

theorem open_at_start (out : List Nat) (c : Nat) (hc : c ≠ 0) :
    open_at (out ++ [c]) out.length [c] := by
  refine ⟨?_, ?_, ?_⟩
  · simp only [List.mem_singleton]; exact fun h => hc h.symm
  · simp
  · simp

theorem written_length (st : parse_state) (k : Nat) (h : st.cur + k + 1 ≤ st.dup.length) :
    (st.dup.take st.cur).length = st.cur := by
  rw [List.length_take]; omega

theorem forall₂_placed_length (out : List Nat) (offs : List Nat) (ws : List CStr)
    (h : List.Forall₂ (placed out) offs ws) : offs.length = ws.length :=
  List.Forall₂.length_eq h

/-- The label `normal:` keeps the representation. -/
theorem rep_normal (m k : Nat) (st : parse_state) (t : tok_state) (offs : List Nat) (c : Nat)
    (hc : c ≠ 0) (h : rep m (k + 1) st t offs) :
    ∃ offs1, rep m k (parse_normal m st c) (tok_normal (some m) t c) offs1 := by
  obtain ⟨hq, he, hw, hroom, hsize, hcount, hcap, hvec, offsD, hD, hword⟩ := h
  have hlen := written_length st (k + 1) hroom
  have hcur : st.cur < st.dup.length := by omega
  obtain ⟨done, word, quoted, escaped⟩ := t
  obtain ⟨dup, cur, argv, x, q, e, ws⟩ := st
  simp only at hq he hw hroom hsize hcount hcap hvec hD hword hlen hcur
  subst hq he
  cases word with
  | none =>
    simp only [Option.isNone_none] at hw
    simp only at hword
    subst hw hword
    have hxd : x = done.length := by rw [hcount]; exact List.Forall₂.length_eq hD
    by_cases hfull : x ≥ m - 1
    · refine ⟨offs, ?_⟩
      have h1 : parse_normal m ⟨dup, cur, argv, x, q, e, true⟩ c
          = ⟨dup, cur, argv, x, q, e, true⟩ := by
        simp [parse_normal, hfull]
      have h2 : tok_normal (some m) ⟨done, none, q, e⟩ c = ⟨done, none, q, e⟩ := by
        simp only [tok_normal, tok_full]
        rw [if_pos]
        simp only [decide_eq_true_eq]; omega
      rw [h1, h2]
      exact ⟨rfl, rfl, rfl, by simp only; omega, hsize, hcount, hcap, hvec, offs, hD, rfl⟩
    · refine ⟨offs ++ [cur], ?_⟩
      have h1 : parse_normal m ⟨dup, cur, argv, x, q, e, true⟩ c
          = ⟨dup.set cur c, cur + 1, argv.set x (some cur), x + 1, q, false, false⟩ := by
        simp [parse_normal, hfull]
      have h2 : tok_normal (some m) ⟨done, none, q, e⟩ c = ⟨done, some [c], q, false⟩ := by
        simp only [tok_normal, tok_full]
        rw [if_neg]
        simp only [decide_eq_true_eq]; omega
      rw [h1, h2]
      have hx : x < argv.length := by omega
      refine ⟨rfl, rfl, rfl, ?_, ?_, ?_, ?_, ?_, ?_⟩
      · simp only [List.length_set]; omega
      · simp only [List.length_set]; exact hsize
      · simp only [List.length_append, List.length_singleton]; omega
      · simp only; omega
      · simp only
        rw [take_set_succ argv x (some cur) hx, hvec]
        simp
      · simp only
        rw [take_set_succ dup cur c hcur]
        refine ⟨offs, placed_all_append _ _ _ _ hD, cur, rfl, ?_⟩
        have := open_at_start (dup.take cur) c hc
        rw [hlen] at this
        exact this
  | some w =>
    simp only [Option.isNone_some] at hw
    simp only at hword
    subst hw
    obtain ⟨off, hoffs, hopen⟩ := hword
    refine ⟨offs, ?_⟩
    have h1 : parse_normal m ⟨dup, cur, argv, x, q, e, false⟩ c
        = ⟨dup.set cur c, cur + 1, argv, x, q, false, false⟩ := by
      simp [parse_normal]
    have h2 : tok_normal (some m) ⟨done, some w, q, e⟩ c = ⟨done, some (w ++ [c]), q, false⟩ := by
      simp only [tok_normal]
    rw [h1, h2]
    refine ⟨rfl, rfl, rfl, ?_, hsize, hcount, hcap, hvec, ?_⟩
    · simp only [List.length_set]; omega
    · simp only
      rw [take_set_succ dup cur c hcur]
      exact ⟨offsD, placed_all_append _ _ _ _ hD, off, hoffs, open_at_extend _ _ _ _ hc hopen⟩

/-- Ending a word keeps the representation. -/
theorem rep_space (m k : Nat) (st : parse_state) (t : tok_state) (offs : List Nat)
    (h : rep m (k + 1) st t offs) :
    rep m k { st with whitespace := true, dup := st.dup.set st.cur 0, cur := st.cur + 1 }
      { t with done := t.done ++ t.word.toList, word := none } offs := by
  obtain ⟨hq, he, hw, hroom, hsize, hcount, hcap, hvec, offsD, hD, hword⟩ := h
  have hcur : st.cur < st.dup.length := by omega
  refine ⟨hq, he, rfl, ?_, hsize, hcount, hcap, hvec, ?_⟩
  · simp only [List.length_set]; omega
  · simp only
    rw [take_set_succ st.dup st.cur 0 hcur]
    refine ⟨offs, ?_, rfl⟩
    cases hwd : t.word with
    | none =>
      rw [hwd] at hword
      simp only at hword
      rw [hword]
      simpa using placed_all_append _ _ _ [0] hD
    | some w =>
      rw [hwd] at hword
      obtain ⟨off, hoffs, hopen⟩ := hword
      rw [hoffs]
      simp only [Option.toList]
      exact List.rel_append (placed_all_append _ _ _ [0] hD)
        (List.Forall₂.cons (open_at_close _ _ _ hopen) List.Forall₂.nil)

/-- A change of the flags alone keeps the representation. -/
theorem rep_flags (m k : Nat) (st : parse_state) (t : tok_state) (offs : List Nat)
    (q e : Bool) (h : rep m (k + 1) st t offs) :
    rep m k { st with quoted := q, escaped := e } { t with quoted := q, escaped := e } offs := by
  obtain ⟨hq, he, hw, hroom, hsize, hcount, hcap, hvec, hwords⟩ := h
  refine ⟨rfl, rfl, hw, ?_, hsize, hcount, hcap, hvec, hwords⟩
  simp only; omega

/-- One turn of the loop keeps the representation. -/
theorem rep_step (m k : Nat) (st : parse_state) (t : tok_state) (offs : List Nat) (c : Nat)
    (hc : c ≠ 0) (h : rep m (k + 1) st t offs) :
    ∃ offs1, rep m k (parse_step m st c) (tok_step (some m) t c) offs1 := by
  have hq := h.quoted
  have he := h.escaped
  obtain ⟨dup, cur, argv, x, q, e, ws⟩ := st
  obtain ⟨done, word, q1, e1⟩ := t
  simp only at hq he
  subst hq he
  by_cases h34 : c = 34
  · subst h34
    cases e with
    | true => exact rep_normal m k _ _ offs 34 hc h
    | false => exact ⟨offs, rep_flags m k _ _ offs (!q) false h⟩
  · by_cases hsp : c = 32 ∨ c = 9
    · by_cases hqe : q = false ∧ e = false
      · have h1 : parse_step m ⟨dup, cur, argv, x, q, e, ws⟩ c
            = ⟨dup.set cur 0, cur + 1, argv, x, q, e, true⟩ := by
          simp [parse_step, h34, hsp, hqe]
        have h2 : tok_step (some m) ⟨done, word, q, e⟩ c
            = ⟨done ++ word.toList, none, q, e⟩ := by
          simp [tok_step, h34, hsp, hqe]
        rw [h1, h2]
        exact ⟨offs, rep_space m k _ _ offs h⟩
      · have h1 : parse_step m ⟨dup, cur, argv, x, q, e, ws⟩ c
            = parse_normal m ⟨dup, cur, argv, x, q, e, ws⟩ c := by
          simp only [parse_step, h34, hsp, if_false, if_true]
          rw [if_neg hqe]
        have h2 : tok_step (some m) ⟨done, word, q, e⟩ c
            = tok_normal (some m) ⟨done, word, q, e⟩ c := by
          simp only [tok_step, h34, hsp, if_false, if_true]
          rw [if_neg hqe]
        rw [h1, h2]
        exact rep_normal m k _ _ offs c hc h
    · by_cases h92 : c = 92
      · subst h92
        cases e with
        | true => exact rep_normal m k _ _ offs 92 hc h
        | false => exact ⟨offs, rep_flags m k _ _ offs q true h⟩
      · have h1 : parse_step m ⟨dup, cur, argv, x, q, e, ws⟩ c
            = parse_normal m ⟨dup, cur, argv, x, q, e, ws⟩ c := by
          simp only [parse_step, h34, hsp, h92, if_false]
        have h2 : tok_step (some m) ⟨done, word, q, e⟩ c
            = tok_normal (some m) ⟨done, word, q, e⟩ c := by
          simp only [tok_step, h34, hsp, h92, if_false]
        rw [h1, h2]
        exact rep_normal m k _ _ offs c hc h

theorem parse_loop_eq_foldl (m : Nat) (s : List Nat) (st : parse_state) :
    parse_loop m s st = (line_chars s).foldl (parse_step m) st := by
  induction s generalizing st with
  | nil => rfl
  | cons c rest ih =>
    by_cases hc : c = 0
    · simp [parse_loop, line_chars, hc]
    · have ih2 := ih (parse_step m st c)
      simp only [line_chars] at ih2
      simp [parse_loop, line_chars, hc, ih2]

theorem line_chars_ne_zero (s : List Nat) : ∀ c ∈ line_chars s, c ≠ 0 := by
  intro c hc
  have := List.mem_takeWhile_imp hc
  simpa using this

theorem rep_foldl (m : Nat) (l : List Nat) (hl : ∀ c ∈ l, c ≠ 0) (st : parse_state)
    (t : tok_state) (offs : List Nat) (h : rep m l.length st t offs) :
    ∃ offs1, rep m 0 (l.foldl (parse_step m) st) (l.foldl (tok_step (some m)) t) offs1 := by
  induction l generalizing st t offs with
  | nil => exact ⟨offs, h⟩
  | cons c rest ih =>
    obtain ⟨offs1, h1⟩ := rep_step m rest.length st t offs c (hl c (List.mem_cons_self _ _)) h
    exact ih (fun d hd => hl d (List.mem_cons_of_mem _ hd)) _ _ offs1 h1

theorem rep_init (m : Nat) (hm : 0 < m) (s : List Nat) (argv : List (Option Nat))
    (hargv : argv.length = m) :
    rep m (line_chars s).length
      { dup := strdup s, cur := 0, argv := argv, x := 0,
        quoted := false, escaped := false, whitespace := true } tok_init [] := by
  refine ⟨rfl, rfl, rfl, ?_, hargv, rfl, ?_, rfl, ?_⟩
  · simp [strdup, line_chars]
  · simp only; omega
  · exact ⟨[], List.Forall₂.nil, rfl⟩

theorem take_set_self {α : Type} (l : List α) (n : Nat) (a : α) :
    (l.set n a).take n = l.take n := by
  induction l generalizing n with
  | nil => simp
  | cons x xs ih =>
    cases n with
    | zero => simp
    | succ k => simp [ih k]

theorem argv_words_offsets (buf : List Nat) (offs : List Nat) (rest : List (Option Nat)) :
    argv_words buf (offs.map some ++ none :: rest) = offs.map (str_at buf) := by
  induction offs with
  | nil => simp [argv_words]
  | cons o os ih => simp [argv_words, ih]

theorem takeWhile_word (w : CStr) (post : List Nat) (h0 : 0 ∉ w) :
    (w ++ 0 :: post).takeWhile (fun c => decide (c ≠ 0)) = w := by
  induction w with
  | nil => simp
  | cons a as ih =>
    have ha : a ≠ 0 := fun h => h0 (by simp [h])
    have has : 0 ∉ as := fun h => h0 (List.mem_cons_of_mem _ h)
    rw [List.cons_append, List.takeWhile_cons_of_pos (by simpa using ha), ih has]

theorem str_at_placed (buf : List Nat) (n off : Nat) (w : CStr)
    (h : placed (buf.take n) off w) : str_at buf off = w := by
  obtain ⟨h0, post, hp⟩ := h
  have hle : off ≤ (buf.take n).length := by
    by_contra hc
    rw [List.drop_eq_nil_of_le (by omega)] at hp
    cases w <;> simp at hp
  have hsplit : buf.drop off = (buf.take n).drop off ++ buf.drop n := by
    conv_lhs => rw [← List.take_append_drop n buf]
    exact List.drop_append_of_le_length hle
  unfold str_at
  rw [hsplit, hp, List.append_assoc, List.cons_append]
  exact takeWhile_word w _ h0

theorem map_of_forall₂ {α β : Type} (f : α → β) (l : List α) (ws : List β)
    (h : List.Forall₂ (fun a b => f a = b) l ws) : l.map f = ws := by
  induction h with
  | nil => rfl
  | cons hab _ ih => simp [hab, ih]

/-- At the end of the line the words of the buffer are the words of the
word-list state. -/
theorem rep_final (m : Nat) (st : parse_state) (t : tok_state) (offs : List Nat)
    (h : rep m 0 st t offs) :
    argv_words (st.dup.set st.cur 0) (st.argv.set st.x none) = tok_words t ∧
    st.x = (tok_words t).length ∧
    (st.argv.set st.x none)[st.x]? = some none ∧
    (∀ i, i < st.x → ∃ p, (st.argv.set st.x none)[i]? = some (some p)) := by
  obtain ⟨hq, he, hw, hroom, hsize, hcount, hcap, hvec, offsD, hD, hword⟩ := h
  have hcur : st.cur < st.dup.length := by omega
  have hx : st.x < st.argv.length := by omega
  have hout : (st.dup.set st.cur 0).take (st.cur + 1) = st.dup.take st.cur ++ [0] :=
    take_set_succ st.dup st.cur 0 hcur
  have hall : List.Forall₂ (placed (st.dup.take st.cur ++ [0])) offs (tok_words t) := by
    unfold tok_words
    cases hwd : t.word with
    | none =>
      rw [hwd] at hword
      simp only at hword
      rw [hword]
      simpa using placed_all_append _ _ _ [0] hD
    | some w =>
      rw [hwd] at hword
      obtain ⟨off, hoffs, hopen⟩ := hword
      rw [hoffs]
      simp only [Option.toList]
      exact List.rel_append (placed_all_append _ _ _ [0] hD)
        (List.Forall₂.cons (open_at_close _ _ _ hopen) List.Forall₂.nil)
  have hvecF : (st.argv.set st.x none).take st.x = offs.map some := by
    rw [take_set_self, hvec]
  have hnull : (st.argv.set st.x none)[st.x]? = some none := by
    simp [List.getElem?_set, hx]
  have hshape : st.argv.set st.x none
      = offs.map some ++ none :: (st.argv.set st.x none).drop (st.x + 1) := by
    have hx2 : st.x < (st.argv.set st.x none).length := by simpa using hx
    have hg : (st.argv.set st.x none)[st.x] = none := by
      simp
    have hd := List.drop_eq_getElem_cons hx2
    rw [hg] at hd
    rw [← hvecF, ← hd, List.take_append_drop]
  refine ⟨?_, ?_, hnull, ?_⟩
  · rw [hshape, argv_words_offsets]
    apply map_of_forall₂
    refine List.Forall₂.imp ?_ hall
    intro off w hp
    rw [← hout] at hp
    exact str_at_placed _ _ off w hp
  · rw [hcount]; exact List.Forall₂.length_eq hall
  · intro i hi
    have h1 : ((st.argv.set st.x none).take st.x)[i]? = (offs.map some)[i]? := by rw [hvecF]
    rw [List.getElem?_take_of_lt hi] at h1
    rw [h1]
    have hio : i < offs.length := by omega
    exact ⟨offs[i], by simp [hio]⟩

theorem parse_result_eq (m : Nat) (s : List Nat) (argv : List (Option Nat)) :
    parse_args m true s argv =
      some { dup := ((line_chars s).foldl (parse_step m)
                { dup := strdup s, cur := 0, argv := argv, x := 0,
                  quoted := false, escaped := false, whitespace := true }).dup.set
              ((line_chars s).foldl (parse_step m)
                { dup := strdup s, cur := 0, argv := argv, x := 0,
                  quoted := false, escaped := false, whitespace := true }).cur 0,
             argv := ((line_chars s).foldl (parse_step m)
                { dup := strdup s, cur := 0, argv := argv, x := 0,
                  quoted := false, escaped := false, whitespace := true }).argv.set
              ((line_chars s).foldl (parse_step m)
                { dup := strdup s, cur := 0, argv := argv, x := 0,
                  quoted := false, escaped := false, whitespace := true }).x none,
             max := ((line_chars s).foldl (parse_step m)
                { dup := strdup s, cur := 0, argv := argv, x := 0,
                  quoted := false, escaped := false, whitespace := true }).x } := by
  simp only [parse_args, if_true, parse_loop_eq_foldl]

/-- What `parse_args` returns, in terms of the rules on word lists: when the
vector has `AST_MAX_ARGS ≥ 1` slots the call returns a result whose words are
the first `AST_MAX_ARGS - 1` words of the line, `max` is their number, slot
`max` of the vector holds NULL and the slots before it hold offsets. -/
theorem parse_args_tokens (m : Nat) (hm : 0 < m) (s : List Nat) (argv : List (Option Nat))
    (hargv : argv.length = m) :
    ∃ r, parse_args m true s argv = some r ∧
      argv_words r.dup r.argv = (tokenize s).take (m - 1) ∧
      r.max = ((tokenize s).take (m - 1)).length ∧
      r.argv.length = m ∧
      r.argv[r.max]? = some none ∧
      ∀ i, i < r.max → ∃ p, r.argv[i]? = some (some p) := by
  obtain ⟨offs, hrep⟩ := rep_foldl m (line_chars s) (line_chars_ne_zero s) _ _ []
    (rep_init m hm s argv hargv)
  have hfin := rep_final m _ _ offs hrep
  have hcap : tokenize_capped m s = (tokenize s).take (m - 1) := tokenize_capped_eq m s
  unfold tokenize_capped at hcap
  rw [hcap] at hfin
  refine ⟨_, parse_result_eq m s argv, hfin.1, hfin.2.1, ?_, hfin.2.2.1, hfin.2.2.2⟩
  simp only [List.length_set]
  exact hrep.size

theorem tok_step_words_length (t : tok_state) (c : Nat) :
    (tok_words (tok_step none t c)).length ≤ (tok_words t).length + 1 := by
  obtain ⟨done, word, quoted, escaped⟩ := t
  unfold tok_step tok_normal tok_full tok_words
  cases word <;> split_ifs <;> simp

theorem tok_foldl_words_length (l : List Nat) (t : tok_state) :
    (tok_words (l.foldl (tok_step none) t)).length ≤ (tok_words t).length + l.length := by
  induction l generalizing t with
  | nil => simp
  | cons c rest ih =>
    have h1 := ih (tok_step none t c)
    have h2 := tok_step_words_length t c
    simp only [List.foldl_cons, List.length_cons]
    omega

theorem line_chars_length (s : List Nat) : (line_chars s).length ≤ s.length :=
  (List.takeWhile_sublist _).length_le

/-- A line has at most as many words as characters. -/
theorem tokenize_length (s : List Nat) : (tokenize s).length ≤ s.length := by
  have h := tok_foldl_words_length (line_chars s) tok_init
  have h2 := line_chars_length s
  have h3 : (tok_words tok_init).length = 0 := rfl
  unfold tokenize
  omega

theorem tok_normal_none (D : List CStr) (wo : Option CStr) (q e : Bool) (c : Nat) :
    tok_normal none ⟨D, wo, q, e⟩ c = ⟨D, some (wo.getD [] ++ [c]), q, false⟩ := by
  cases wo <;> simp [tok_normal, tok_full]

theorem tok_normal_run (w : CStr) (D : List CStr) (u : CStr) (q : Bool) :
    w.foldl (tok_normal none) ⟨D, some u, q, false⟩ = ⟨D, some (u ++ w), q, false⟩ := by
  induction w generalizing u with
  | nil => simp
  | cons c r ih =>
    rw [List.foldl_cons, tok_normal_none]
    simp only [Option.getD_some]
    rw [ih]
    simp

theorem tok_normal_run_start (w : CStr) (hw : w ≠ []) (D : List CStr) (q : Bool) :
    w.foldl (tok_normal none) ⟨D, none, q, false⟩ = ⟨D, some w, q, false⟩ := by
  cases w with
  | nil => exact absurd rfl hw
  | cons c r =>
    rw [List.foldl_cons, tok_normal_none]
    simp only [Option.getD_none, List.nil_append]
    rw [tok_normal_run]
    simp

/-- An escaped word is read character by character as ordinary characters. -/
theorem tok_escape_word (w : CStr) (D : List CStr) (wo : Option CStr) (q : Bool) :
    (escape_word w).foldl (tok_step none) ⟨D, wo, q, false⟩
      = w.foldl (tok_normal none) ⟨D, wo, q, false⟩ := by
  induction w generalizing wo with
  | nil => rfl
  | cons c r ih =>
    by_cases hs : c = 32 ∨ c = 9 ∨ c = 34 ∨ c = 92
    · have h1 : tok_step none ⟨D, wo, q, false⟩ 92 = ⟨D, wo, q, true⟩ := by
        simp [tok_step]
      have h2 : tok_step none ⟨D, wo, q, true⟩ c = tok_normal none ⟨D, wo, q, true⟩ c := by
        unfold tok_step
        split_ifs <;> simp_all
      simp only [escape_word, hs, if_true, List.foldl_cons]
      rw [h1, h2, tok_normal_none, tok_normal_none, ih]
    · have h1 : tok_step none ⟨D, wo, q, false⟩ c = tok_normal none ⟨D, wo, q, false⟩ c := by
        unfold tok_step
        split_ifs <;> simp_all
      simp only [escape_word, hs, if_false, List.foldl_cons]
      rw [h1, tok_normal_none, ih]

/-- Characters other than quote and backslash are ordinary inside quotes, and
outside when they are no space or tab either. -/
theorem tok_plain_run (w : CStr) (D : List CStr) (wo : Option CStr) (q : Bool)
    (h34 : 34 ∉ w) (h92 : 92 ∉ w) (hsp : q = false → 32 ∉ w ∧ 9 ∉ w) :
    w.foldl (tok_step none) ⟨D, wo, q, false⟩ = w.foldl (tok_normal none) ⟨D, wo, q, false⟩ := by
  induction w generalizing wo with
  | nil => rfl
  | cons c r ih =>
    have hc34 : c ≠ 34 := fun h => h34 (by simp [h])
    have hc92 : c ≠ 92 := fun h => h92 (by simp [h])
    have h1 : tok_step none ⟨D, wo, q, false⟩ c = tok_normal none ⟨D, wo, q, false⟩ c := by
      unfold tok_step
      cases q with
      | true => split_ifs <;> simp_all
      | false =>
        have := hsp rfl
        have hc32 : c ≠ 32 := fun h => this.1 (by simp [h])
        have hc9 : c ≠ 9 := fun h => this.2 (by simp [h])
        split_ifs <;> simp_all
    simp only [List.foldl_cons]
    rw [h1, tok_normal_none]
    exact ih _ (fun h => h34 (List.mem_cons_of_mem _ h)) (fun h => h92 (List.mem_cons_of_mem _ h))
      (fun hq => ⟨fun h => (hsp hq).1 (List.mem_cons_of_mem _ h),
        fun h => (hsp hq).2 (List.mem_cons_of_mem _ h)⟩)

/-- An escaped non-empty word read from the start of a word gives that word. -/
theorem tok_escape_piece (w : CStr) (hw : w ≠ []) (D : List CStr) :
    (escape_word w).foldl (tok_step none) ⟨D, none, false, false⟩
      = ⟨D, some w, false, false⟩ := by
  rw [tok_escape_word, tok_normal_run_start w hw]

/-- A quoted or bare word read from the start of a word gives that word. -/
theorem tok_quote_piece (p : CStr × Bool) (hp : quotable p) (D : List CStr) :
    (quote_word p).foldl (tok_step none) ⟨D, none, false, false⟩
      = ⟨D, some p.1, false, false⟩ := by
  obtain ⟨w, q⟩ := p
  obtain ⟨hne, _, h34, h92, hsp⟩ := hp
  simp only at hne h34 h92 hsp
  cases q with
  | true =>
    have h1 : tok_step none ⟨D, none, false, false⟩ 34 = ⟨D, none, true, false⟩ := by
      simp [tok_step]
    have h2 : tok_step none ⟨D, some w, true, false⟩ 34 = ⟨D, some w, false, false⟩ := by
      simp [tok_step]
    simp only [quote_word, if_true, List.foldl_cons, List.foldl_append, List.foldl_nil]
    rw [h1, tok_plain_run w D none true h34 h92 (fun h => by simp at h),
      tok_normal_run_start w hne, h2]
  | false =>
    simp only [quote_word, Bool.false_eq_true, if_false]
    rw [tok_plain_run w D none false h34 h92 hsp, tok_normal_run_start w hne]

/-- Pieces that each give one word, separated by single spaces, give the list
of these words. -/
theorem tok_spaced {α : Type} (enc : α → List Nat) (val : α → CStr) (items : List α)
    (h : ∀ a ∈ items, ∀ D, (enc a).foldl (tok_step none) ⟨D, none, false, false⟩
      = ⟨D, some (val a), false, false⟩) (D : List CStr) :
    tok_words ((spaced (items.map enc)).foldl (tok_step none) ⟨D, none, false, false⟩)
      = D ++ items.map val := by
  induction items generalizing D with
  | nil => simp [spaced, tok_words]
  | cons a rest ih =>
    cases rest with
    | nil =>
      simp only [List.map_cons, List.map_nil, spaced]
      rw [h a (List.mem_cons_self _ _) D]
      simp [tok_words]
    | cons b rest2 =>
      have hsp : tok_step none ⟨D, some (val a), false, false⟩ 32
          = ⟨D ++ [val a], none, false, false⟩ := by
        simp [tok_step]
      simp only [List.map_cons, spaced, List.foldl_append, List.foldl_cons]
      rw [h a (List.mem_cons_self _ _) D, hsp]
      have := ih (fun x hx => h x (List.mem_cons_of_mem _ hx)) (D ++ [val a])
      simp only [List.map_cons] at this
      rw [this]
      simp

theorem line_chars_self (l : List Nat) (h : 0 ∉ l) : line_chars l = l := by
  unfold line_chars
  rw [List.takeWhile_eq_self_iff]
  intro c hc
  have : c ≠ 0 := fun h0 => h (h0 ▸ hc)
  simpa using this

theorem spaced_no_nul (pieces : List (List Nat)) (h : ∀ p ∈ pieces, 0 ∉ p) :
    0 ∉ spaced pieces := by
  induction pieces with
  | nil => simp [spaced]
  | cons p rest ih =>
    cases rest with
    | nil => simpa [spaced] using h p (List.mem_cons_self _ _)
    | cons q rest2 =>
      have h1 := h p (List.mem_cons_self _ _)
      have h2 := ih (fun x hx => h x (List.mem_cons_of_mem _ hx))
      simp only [spaced, List.mem_append, List.mem_cons, not_or]
      exact ⟨h1, by decide, h2⟩

theorem escape_word_no_nul (w : CStr) (h : 0 ∉ w) : 0 ∉ escape_word w := by
  induction w with
  | nil => simp [escape_word]
  | cons c r ih =>
    have hc : ¬ 0 = c := fun h0 => h (by simp [h0])
    have hr := ih (fun h0 => h (List.mem_cons_of_mem _ h0))
    unfold escape_word
    split_ifs <;> simp [hc, hr]

theorem quote_word_no_nul (p : CStr × Bool) (h : 0 ∉ p.1) : 0 ∉ quote_word p := by
  unfold quote_word
  split_ifs <;> simp [h]

/-- A line whose words under the rules are `ws`, fewer than `AST_MAX_ARGS`, is
read back by `parse_args` as `ws`. -/
theorem parse_words_of_tokenize (m : Nat) (s : List Nat) (argv : List (Option Nat))
    (hargv : argv.length = m) (ws : List CStr) (hlen : ws.length < m)
    (htok : tokenize s = ws) : parse_words m s argv = some (ws.length, ws) := by
  obtain ⟨r, hr, hwords, hmax, _⟩ := parse_args_tokens m (by omega) s argv hargv
  have htake : (tokenize s).take (m - 1) = ws := by
    rw [htok, List.take_of_length_le (by omega)]
  unfold parse_words
  rw [hr, Option.map_some']
  rw [htake] at hwords hmax
  rw [hwords, hmax]

/-! ## Theorems: the tokenizer -/

/-- C8: for every list of fewer than `AST_MAX_ARGS` non-empty words (C strings,
so without NUL) none of which contains a double quote or a backslash, the line
that writes each word inside double quotes or bare (bare only if the word has
no space or tab) and separates the words by single spaces is tokenized by
`parse_args` to exactly that list of words, with `argc` equal to its length. -/
theorem parse_args_quoting_round_trip (AST_MAX_ARGS : Nat) (argv : List (Option Nat))
    (hargv : argv.length = AST_MAX_ARGS) (items : List (CStr × Bool))
    (hlen : items.length < AST_MAX_ARGS) (hq : ∀ p ∈ items, quotable p) :
    parse_words AST_MAX_ARGS (spaced (items.map quote_word)) argv
      = some (items.length, items.map Prod.fst) := by
  have hnul : 0 ∉ spaced (items.map quote_word) := by
    apply spaced_no_nul
    intro p hp
    obtain ⟨a, ha, rfl⟩ := List.mem_map.1 hp
    exact quote_word_no_nul a (hq a ha).2.1
  have htok : tokenize (spaced (items.map quote_word)) = items.map Prod.fst := by
    unfold tokenize
    rw [line_chars_self _ hnul]
    have := tok_spaced quote_word Prod.fst items
      (fun a ha D => tok_quote_piece a (hq a ha) D) []
    simpa [tok_init] using this
  have := parse_words_of_tokenize AST_MAX_ARGS _ argv hargv (items.map Prod.fst)
    (by simpa using hlen) htok
  simpa using this

/-- Witness of C8: the line `show channel "My Phone"` gives the three words
`show`, `channel` and `My Phone`. -/
theorem parse_args_quoting_round_trip_witness :
    parse_words 64 (cstr "show channel " ++ 34 :: (cstr "My Phone" ++ [34]))
        (List.replicate 64 none)
      = some (3, [cstr "show", cstr "channel", cstr "My Phone"]) :=
  parse_args_quoting_round_trip 64 (List.replicate 64 none) rfl
    [(cstr "show", false), (cstr "channel", false), (cstr "My Phone", true)]
    (by decide) (by decide)

/-- C9: for every list of fewer than `AST_MAX_ARGS` non-empty words over
arbitrary non-NUL characters, the line that puts a backslash before every
space, tab, double quote and backslash of each word and separates the words by
single spaces is tokenized by `parse_args` to exactly that list of words. -/
theorem parse_args_escape_round_trip (AST_MAX_ARGS : Nat) (argv : List (Option Nat))
    (hargv : argv.length = AST_MAX_ARGS) (ws : List CStr)
    (hlen : ws.length < AST_MAX_ARGS) (hws : ∀ w ∈ ws, w ≠ [] ∧ 0 ∉ w) :
    parse_words AST_MAX_ARGS (spaced (ws.map escape_word)) argv = some (ws.length, ws) := by
  have hnul : 0 ∉ spaced (ws.map escape_word) := by
    apply spaced_no_nul
    intro p hp
    obtain ⟨a, ha, rfl⟩ := List.mem_map.1 hp
    exact escape_word_no_nul a (hws a ha).2
  have htok : tokenize (spaced (ws.map escape_word)) = ws := by
    unfold tokenize
    rw [line_chars_self _ hnul]
    have := tok_spaced escape_word id ws
      (fun a ha D => tok_escape_piece a (hws a ha).1 D) []
    simpa [tok_init] using this
  exact parse_words_of_tokenize AST_MAX_ARGS _ argv hargv ws hlen htok

/-- Witness of C9: the line of the four characters a, backslash, space, b
gives the word `a b`; two backslashes give one backslash; backslash and double
quote give a double quote. -/
theorem parse_args_escape_round_trip_witness :
    parse_words 64 [97, 92, 32, 98] (List.replicate 64 none) = some (1, [cstr "a b"]) ∧
    parse_words 64 [92, 92] (List.replicate 64 none) = some (1, [[92]]) ∧
    parse_words 64 [92, 34] (List.replicate 64 none) = some (1, [[34]]) :=
  ⟨parse_args_escape_round_trip 64 (List.replicate 64 none) rfl [cstr "a b"]
      (by decide) (by decide),
    parse_args_escape_round_trip 64 (List.replicate 64 none) rfl [[92]]
      (by decide) (by decide),
    parse_args_escape_round_trip 64 (List.replicate 64 none) rfl [[34]]
      (by decide) (by decide)⟩

/-- C10: for every input line and every argument vector of `AST_MAX_ARGS ≥ 1`
slots, `parse_args` returns an `argc` of at most `AST_MAX_ARGS - 1`; the vector
keeps its `AST_MAX_ARGS` slots, holds offsets in the slots below `argc` and
NULL in slot `argc`, and a reader finds exactly `argc` words in it; and these
words are the first `min n (AST_MAX_ARGS - 1)` of the `n` words that the same
function returns when the cap `big` is too large to be reached (more slots
than the line has characters plus one). -/
theorem parse_args_cap (AST_MAX_ARGS : Nat) (hpos : 0 < AST_MAX_ARGS) (s : List Nat)
    (argv : List (Option Nat)) (hargv : argv.length = AST_MAX_ARGS)
    (big : Nat) (argvBig : List (Option Nat)) (hbig : argvBig.length = big)
    (hfar : s.length + 1 < big) :
    ∃ r, parse_args AST_MAX_ARGS true s argv = some r ∧
      r.max ≤ AST_MAX_ARGS - 1 ∧
      r.argv.length = AST_MAX_ARGS ∧
      r.argv[r.max]? = some none ∧
      (∀ i, i < r.max → ∃ p, r.argv[i]? = some (some p)) ∧
      (argv_words r.dup r.argv).length = r.max ∧
      ∃ all : List CStr, parse_words big s argvBig = some (all.length, all) ∧
        r.max = min all.length (AST_MAX_ARGS - 1) ∧
        argv_words r.dup r.argv = all.take (AST_MAX_ARGS - 1) := by
  obtain ⟨r, hr, hwords, hmax, hsize, hnull, hoffs⟩ :=
    parse_args_tokens AST_MAX_ARGS hpos s argv hargv
  have hcount := tokenize_length s
  have hall : parse_words big s argvBig = some ((tokenize s).length, tokenize s) :=
    parse_words_of_tokenize big s argvBig hbig (tokenize s) (by omega) rfl
  refine ⟨r, hr, ?_, hsize, hnull, hoffs, ?_, tokenize s, hall, ?_, hwords⟩
  · rw [hmax, List.length_take]; omega
  · rw [hwords, hmax]
  · rw [hmax, List.length_take]; omega

/-- Witness of C10: with three slots the line `a b c d e` gives the two words
`a` and `b`, whatever the vector held before. -/
theorem parse_args_cap_witness :
    ∃ r, parse_args 3 true (cstr "a b c d e") [some 7, none, some 2] = some r ∧
      r.max ≤ 3 - 1 ∧ argv_words r.dup r.argv = [cstr "a", cstr "b"] := by
  obtain ⟨r, hr, hle, _, _, _, _, all, hall, _, hw⟩ :=
    parse_args_cap 3 (by decide) (cstr "a b c d e") [some 7, none, some 2] rfl
      11 (List.replicate 11 none) rfl (by decide)
  refine ⟨r, hr, hle, ?_⟩
  have h2 : parse_words 11 (cstr "a b c d e") (List.replicate 11 none)
      = some (5, [cstr "a", cstr "b", cstr "c", cstr "d", cstr "e"]) := by decide
  rw [h2] at hall
  have h3 : all = [cstr "a", cstr "b", cstr "c", cstr "d", cstr "e"] := by
    simp only [Option.some.injEq, Prod.mk.injEq] at hall
    exact hall.2.symm
  rw [hw, h3]
  rfl

/-! ## Theorems: the dispatcher -/

theorem parse_step_argv_length (m : Nat) (st : parse_state) (c : Nat) :
    (parse_step m st c).argv.length = st.argv.length := by
  unfold parse_step parse_normal
  split_ifs <;> simp

theorem parse_foldl_argv_length (m : Nat) (l : List Nat) (st : parse_state) :
    (l.foldl (parse_step m) st).argv.length = st.argv.length := by
  induction l generalizing st with
  | nil => rfl
  | cons c rest ih => rw [List.foldl_cons, ih, parse_step_argv_length]

/-- When the vector of `parse_args` shows words, the count it returns is their
number. -/
theorem parse_words_count (m : Nat) (s : List Nat) (garbage : Nat → Option Nat)
    (argc : Nat) (argv : List CStr)
    (h : parse_words m s ((List.range m).map garbage) = some (argc, argv))
    (hne : argv ≠ []) : argc = argv.length := by
  unfold parse_words at h
  rcases Nat.eq_zero_or_pos m with hm | hm
  · subst hm
    rw [parse_result_eq] at h
    simp only [Option.map_some', Option.some.injEq, Prod.mk.injEq] at h
    obtain ⟨_, h2⟩ := h
    have hlen := parse_foldl_argv_length 0 (line_chars s)
      { dup := strdup s, cur := 0, argv := (List.range 0).map garbage, x := 0,
        quoted := false, escaped := false, whitespace := true }
    simp only [List.range_zero, List.map_nil, List.length_nil, List.length_eq_zero] at hlen
    simp only [List.range_zero, List.map_nil] at h2
    rw [hlen] at h2
    simp only [List.set_nil, argv_words] at h2
    exact absurd h2.symm hne
  · obtain ⟨r, hr, hwords, hmax, _⟩ :=
      parse_args_tokens m hm s ((List.range m).map garbage) (by simp)
    rw [hr] at h
    simp only [Option.map_some', Option.some.injEq, Prod.mk.injEq] at h
    rw [← h.1, ← h.2, hwords, hmax]

theorem format_text_char (c : Nat) (rest : CStr) (args : List CStr) (hc : c ≠ 37) :
    format_text (c :: rest) args = (format_text rest args).map (fun t => c :: t) := by
  unfold format_text
  conv_lhs => unfold format_run
  simp [hc]

theorem format_text_plain (l rest : CStr) (args : List CStr) (h : 37 ∉ l) :
    format_text (l ++ rest) args = (format_text rest args).map (fun t => l ++ t) := by
  induction l with
  | nil => simp
  | cons c r ih =>
    have hc : c ≠ 37 := fun hc => h (by simp [hc])
    have hr : 37 ∉ r := fun hr => h (List.mem_cons_of_mem _ hr)
    rw [List.cons_append, format_text_char _ _ _ hc, ih hr]
    cases format_text rest args <;> simp

theorem format_text_end (l : CStr) (args : List CStr) (h : 37 ∉ l) :
    format_text l args = some l := by
  have := format_text_plain l [] args h
  simpa [format_text, format_run] using this

/-- What `ast_cli_command` does when the tokens begin with the complete path of
exactly one entry: the call of its handler and, when the handler asks for it,
the call of `ast_cli` with the usage text as format. -/
theorem ast_cli_command_found (env : Env) (helpers : List ast_cli_entry)
    (garbage : Nat → Option Nat) (fd : Int) (s : List Nat) (argc : Nat) (argv : List CStr)
    (e : ast_cli_entry)
    (htok : parse_words env.AST_MAX_ARGS s ((List.range env.AST_MAX_ARGS).map garbage)
      = some (argc, argv))
    (hne : argv ≠ [])
    (he : e ∈ builtins ++ helpers) (hbegins : path_begins e.cmda argv)
    (honly : ∀ e1 ∈ builtins ++ helpers, path_begins e1.cmda argv → e1 = e) :
    argc = argv.length ∧
    ast_cli_command env helpers true garbage fd s
      = (0, Event.handler e fd argc argv ::
          (if env.call_handler e.handler fd argc argv = env.RESULT_SHOWUSAGE
            then [Event.ast_cli fd e.usage []] else [])) := by
  have hcount := parse_words_count env.AST_MAX_ARGS s garbage argc argv htok hne
  refine ⟨hcount, ?_⟩
  have hpos : argc > 0 := by
    rw [hcount]
    exact List.length_pos.2 hne
  have hspec := find_cli_spec helpers argv 0 (fun cmda => path_begins cmda argv)
    (fun cmda => find_cli_match_zero cmda argv)
  have hsome : (find_cli helpers argv 0).isSome = true := hspec.1.2 ⟨e, he, hbegins⟩
  obtain ⟨e1, he1⟩ := Option.isSome_iff_exists.1 hsome
  have heq : e1 = e := honly e1 (hspec.2.1 e1 he1).1 (hspec.2.1 e1 he1).2
  rw [heq] at he1
  unfold parse_words at htok
  unfold ast_cli_command
  cases hp : parse_args env.AST_MAX_ARGS true s ((List.range env.AST_MAX_ARGS).map garbage) with
  | none => rw [hp] at htok; simp at htok
  | some r =>
    rw [hp] at htok
    simp only [Option.map_some', Option.some.injEq, Prod.mk.injEq] at htok
    obtain ⟨h1, h2⟩ := htok
    simp only [h1, h2, hpos, if_true, he1]
    split_ifs <;> rfl

/-- A format without `%` is written as it stands, as far as the buffer of
`ast_cli` holds it. -/
theorem ast_cli_plain (fmt : CStr) (args : List CStr) (h : 37 ∉ fmt) :
    ast_cli fmt args = some (fmt.take 4095) := by
  unfold ast_cli format_text
  have := format_text_end fmt args h
  unfold format_text at this
  rw [this]
  rfl

/-- C1 (amended): for every dynamic list and every line whose token vector
`argv` (what `parse_args` gives for the line, `strdup` succeeding) is not empty
and begins, word by word and case-insensitively, with the complete word-path
of exactly one built-in or dynamic entry `e`, `ast_cli_command` returns 0 and
does exactly this: it calls the handler of `e`, once, with `argc` and `argv` as
tokenized (all words kept), and then calls `ast_cli` with `e`'s usage text as
the format and no argument if and only if the handler returned
`RESULT_SHOWUSAGE`. No other handler is called. When the usage text has no
`%`, that call writes the first 4095 characters of the usage text, which is
all of it when it is shorter than 4096 characters. -/
theorem ast_cli_command_dispatch (env : Env) (helpers : List ast_cli_entry)
    (garbage : Nat → Option Nat) (fd : Int) (s : List Nat) (argc : Nat) (argv : List CStr)
    (e : ast_cli_entry)
    (htok : parse_words env.AST_MAX_ARGS s ((List.range env.AST_MAX_ARGS).map garbage)
      = some (argc, argv))
    (hne : argv ≠ [])
    (he : e ∈ builtins ++ helpers) (hbegins : path_begins e.cmda argv)
    (honly : ∀ e1 ∈ builtins ++ helpers, path_begins e1.cmda argv → e1 = e) :
    argc = argv.length ∧
    ast_cli_command env helpers true garbage fd s
      = (0, Event.handler e fd argc argv ::
          (if env.call_handler e.handler fd argc argv = env.RESULT_SHOWUSAGE
            then [Event.ast_cli fd e.usage []] else [])) ∧
    (37 ∉ e.usage → ast_cli e.usage [] = some (e.usage.take 4095)) ∧
    (37 ∉ e.usage → e.usage.length < 4096 → ast_cli e.usage [] = some e.usage) := by
  obtain ⟨h1, h2⟩ := ast_cli_command_found env helpers garbage fd s argc argv e htok hne he
    hbegins honly
  refine ⟨h1, h2, ast_cli_plain e.usage [], ?_⟩
  intro h37 hlen
  rw [ast_cli_plain e.usage [] h37, List.take_of_length_le (by omega)]

/-- Witness of C1 (amended): with the built-ins only and handlers that ask for
the usage text, the line `show channels` calls the handler of `show channels`,
and no other, with the two words typed, and then `ast_cli` with the usage
text of that command, which is written as it stands. -/
theorem ast_cli_command_dispatch_witness :
    ast_cli_command showusage_env [] true (fun _ => none) 1 (cstr "show channels")
      = (0, [Event.handler
          { addr := builtin_addr 3, cmda := [cstr "show", cstr "channels"],
            handler := handle_chanlist, summary := cstr "Display information on channels",
            usage := chanlist_help, generator := none }
          1 2 [cstr "show", cstr "channels"],
          Event.ast_cli 1 chanlist_help []]) ∧
    ast_cli chanlist_help [] = some chanlist_help :=
  have h := ast_cli_command_dispatch showusage_env [] (fun _ => none) 1 (cstr "show channels") 2
    [cstr "show", cstr "channels"]
    { addr := builtin_addr 3, cmda := [cstr "show", cstr "channels"],
      handler := handle_chanlist, summary := cstr "Display information on channels",
      usage := chanlist_help, generator := none }
    (by decide) (by decide) (by decide) (by decide) (by decide)
  ⟨h.2.1, h.2.2.2 (by decide) (by decide)⟩

/-- C1 (as stated, refuted): the usage text is handed to `ast_cli` as a format.
With the dynamic entry `pct` registered, whose usage text holds `%%`, and a
handler that asks for the usage text, the line `pct` makes `ast_cli` write the
text with a single `%`, which is not the usage text. And with the entry `big`,
whose usage text has 4096 characters, the line `big` makes `ast_cli` write
only the first 4095 of them. -/
theorem usage_is_a_format :
    Reachable [percent_entry] ∧
    ast_cli_command showusage_env [percent_entry] true (fun _ => none) 1 (cstr "pct")
      = (0, [Event.handler percent_entry 1 1 [cstr "pct"],
          Event.ast_cli 1 percent_entry.usage []]) ∧
    percent_entry.usage = cstr "Usage: pct 100%%\n" ∧
    ast_cli percent_entry.usage [] = some (cstr "Usage: pct 100%\n") ∧
    Reachable [long_entry] ∧
    ast_cli_command showusage_env [long_entry] true (fun _ => none) 1 (cstr "big")
      = (0, [Event.handler long_entry 1 1 [cstr "big"], Event.ast_cli 1 long_entry.usage []]) ∧
    long_entry.usage.length = 4096 ∧
    ast_cli long_entry.usage [] = some (List.replicate 4095 120) := by
  have hreg1 : ast_cli_register [] percent_entry = (0, [percent_entry]) := by
    rw [register_miss [] percent_entry (by decide)]
    rfl
  have hr1 := Reachable.register [] percent_entry Reachable.empty
  rw [hreg1] at hr1
  have hreg2 : ast_cli_register [] long_entry = (0, [long_entry]) := by
    rw [register_miss [] long_entry (by decide)]
    rfl
  have hr2 := Reachable.register [] long_entry Reachable.empty
  rw [hreg2] at hr2
  have hb : ∀ e1 ∈ builtins, ¬ path_begins e1.cmda [cstr "pct"] ∧
      ¬ path_begins e1.cmda [cstr "big"] := by decide
  have hc1 := (ast_cli_command_found showusage_env [percent_entry] (fun _ => none) 1
    (cstr "pct") 1 [cstr "pct"] percent_entry (by decide) (by decide) (by simp) (by decide)
    (by
      intro e1 he1 hp
      rcases List.mem_append.1 he1 with h | h
      · exact absurd hp (hb e1 h).1
      · exact List.mem_singleton.1 h)).2
  have hc2 := (ast_cli_command_found showusage_env [long_entry] (fun _ => none) 1
    (cstr "big") 1 [cstr "big"] long_entry (by decide) (by decide) (by simp) (by decide)
    (by
      intro e1 he1 hp
      rcases List.mem_append.1 he1 with h | h
      · exact absurd hp (hb e1 h).2
      · exact List.mem_singleton.1 h)).2
  refine ⟨hr1, ?_, rfl, by decide, hr2, ?_, ?_, ?_⟩
  · rw [hc1]; rfl
  · rw [hc2]; rfl
  · exact List.length_replicate 4096 120
  · have h37 : 37 ∉ long_entry.usage := fun h =>
      absurd (List.eq_of_mem_replicate h) (by decide)
    rw [ast_cli_plain _ _ h37]
    show some (List.take 4095 (List.replicate 4096 120)) = some (List.replicate 4095 120)
    rw [List.take_replicate]
    rfl

/-! ## Theorems: more on the tokenizer and the dispatcher -/

theorem tokenize_open_quote (s : CStr) (hne : s ≠ []) (h0 : 0 ∉ s) (h34 : 34 ∉ s)
    (h92 : 92 ∉ s) : tokenize (34 :: s) = [s] := by
  have hnul : 0 ∉ (34 :: s) := by
    simp only [List.mem_cons, not_or]
    exact ⟨by decide, h0⟩
  have h1 : tok_step none tok_init 34 = ⟨[], none, true, false⟩ := by
    simp [tok_step, tok_init]
  unfold tokenize
  rw [line_chars_self _ hnul, List.foldl_cons, h1,
    tok_plain_run s [] none true h34 h92 (fun h => by simp at h),
    tok_normal_run_start s hne]
  rfl

theorem tokenize_closed_quote (s : CStr) (hne : s ≠ []) (h0 : 0 ∉ s) (h34 : 34 ∉ s)
    (h92 : 92 ∉ s) : tokenize (34 :: (s ++ [34])) = [s] := by
  have hq : quotable (s, true) := ⟨hne, h0, h34, h92, fun h => by simp at h⟩
  have hnul : 0 ∉ (34 :: (s ++ [34])) := by
    simp only [List.mem_cons, List.mem_append, List.mem_singleton, not_or, List.not_mem_nil,
      or_false]
    exact ⟨by decide, h0, by decide⟩
  have hp := tok_quote_piece (s, true) hq []
  simp only [quote_word, if_true] at hp
  unfold tokenize
  rw [line_chars_self _ hnul]
  show tok_words (List.foldl (tok_step none) ⟨[], none, false, false⟩ (34 :: (s ++ [34]))) = [s]
  rw [hp]
  rfl

/-- C11: for every non-empty string `s` (a C string, so without NUL) with no
double quote and no backslash, spaces and tabs allowed, `parse_args` reads the
line made of an opening double quote followed by `s`, with no closing quote,
as exactly one argument equal to `s`, which is also what it reads from the
properly closed line: no character of `s` is lost. The argument vector has
room for one argument and the final NULL. -/
theorem parse_args_unterminated_quote (AST_MAX_ARGS : Nat) (argv : List (Option Nat))
    (hargv : argv.length = AST_MAX_ARGS) (hroom : 1 < AST_MAX_ARGS) (s : CStr)
    (hne : s ≠ []) (h0 : 0 ∉ s) (h34 : 34 ∉ s) (h92 : 92 ∉ s) :
    parse_words AST_MAX_ARGS (34 :: s) argv = some (1, [s]) ∧
    parse_words AST_MAX_ARGS (34 :: (s ++ [34])) argv = some (1, [s]) :=
  ⟨parse_words_of_tokenize AST_MAX_ARGS _ argv hargv [s] hroom
      (tokenize_open_quote s hne h0 h34 h92),
    parse_words_of_tokenize AST_MAX_ARGS _ argv hargv [s] hroom
      (tokenize_closed_quote s hne h0 h34 h92)⟩

/-- Witness of C11: the line of a double quote followed by `My Phone` gives the
one word `My Phone`. -/
theorem parse_args_unterminated_quote_witness :
    parse_words 64 (34 :: cstr "My Phone") (List.replicate 64 none)
      = some (1, [cstr "My Phone"]) ∧
    parse_words 64 (34 :: (cstr "My Phone" ++ [34])) (List.replicate 64 none)
      = some (1, [cstr "My Phone"]) :=
  parse_args_unterminated_quote 64 (List.replicate 64 none) rfl (by decide)
    (cstr "My Phone") (by decide) (by decide) (by decide) (by decide)

theorem parse_loop_blank (m : Nat) (s : List Nat) (hs : ∀ c ∈ s, c = 32 ∨ c = 9)
    (st : parse_state) (hx : st.x = 0) (hq : st.quoted = false) (he : st.escaped = false) :
    (parse_loop m s st).x = 0 := by
  induction s generalizing st with
  | nil => exact hx
  | cons c rest ih =>
    have hc := hs c (List.mem_cons_self _ _)
    have hc0 : c ≠ 0 := by rcases hc with h | h <;> omega
    have hc34 : c ≠ 34 := by rcases hc with h | h <;> omega
    have hstep : parse_step m st c
        = { st with whitespace := true, dup := st.dup.set st.cur 0, cur := st.cur + 1 } := by
      simp [parse_step, hc34, hc, hq, he]
    simp only [parse_loop, hc0, if_false]
    apply ih (fun d hd => hs d (List.mem_cons_of_mem _ hd))
    · rw [hstep]; exact hx
    · rw [hstep]; exact hq
    · rw [hstep]; exact he

theorem ast_cli_command_no_words (env : Env) (helpers : List ast_cli_entry)
    (garbage : Nat → Option Nat) (fd : Int) (s : List Nat) (r : parse_result)
    (hr : parse_args env.AST_MAX_ARGS true s ((List.range env.AST_MAX_ARGS).map garbage) = some r)
    (h0 : r.max = 0) : ast_cli_command env helpers true garbage fd s = (0, []) := by
  unfold ast_cli_command
  rw [hr]
  simp [h0]

/-- C13: for every line whose tokenization has zero words (`parse_args` returns
the count 0, `strdup` succeeding), `ast_cli_command` returns 0, calls no
handler and writes nothing; the empty line and every line made only of spaces
and tabs are such lines. -/
theorem ast_cli_command_empty_line (env : Env) (helpers : List ast_cli_entry)
    (garbage : Nat → Option Nat) (fd : Int) :
    (∀ (s : List Nat) (argv : List CStr),
      parse_words env.AST_MAX_ARGS s ((List.range env.AST_MAX_ARGS).map garbage)
        = some (0, argv) →
      ast_cli_command env helpers true garbage fd s = (0, [])) ∧
    (∀ s : List Nat, (∀ c ∈ s, c = 32 ∨ c = 9) →
      (∃ argv, parse_words env.AST_MAX_ARGS s ((List.range env.AST_MAX_ARGS).map garbage)
        = some (0, argv)) ∧
      ast_cli_command env helpers true garbage fd s = (0, [])) := by
  have hfirst : ∀ (s : List Nat) (argv : List CStr),
      parse_words env.AST_MAX_ARGS s ((List.range env.AST_MAX_ARGS).map garbage)
        = some (0, argv) →
      ast_cli_command env helpers true garbage fd s = (0, []) := by
    intro s argv h
    unfold parse_words at h
    cases hp : parse_args env.AST_MAX_ARGS true s
        ((List.range env.AST_MAX_ARGS).map garbage) with
    | none => rw [hp] at h; simp at h
    | some r =>
      rw [hp] at h
      simp only [Option.map_some', Option.some.injEq, Prod.mk.injEq] at h
      exact ast_cli_command_no_words env helpers garbage fd s r hp h.1
  refine ⟨hfirst, ?_⟩
  intro s hs
  have hx := parse_loop_blank env.AST_MAX_ARGS s hs
    { dup := strdup s, cur := 0, argv := (List.range env.AST_MAX_ARGS).map garbage, x := 0,
      quoted := false, escaped := false, whitespace := true } rfl rfl rfl
  have hw : ∃ argv, parse_words env.AST_MAX_ARGS s ((List.range env.AST_MAX_ARGS).map garbage)
      = some (0, argv) := by
    unfold parse_words parse_args
    simp only [if_true, Option.map_some', hx]
    exact ⟨_, rfl⟩
  obtain ⟨argv, hargv⟩ := hw
  exact ⟨⟨argv, hargv⟩, hfirst s argv hargv⟩

/-- Witness of C13: the empty line, and a line of two spaces and a tab. -/
theorem ast_cli_command_empty_line_witness :
    ast_cli_command sample_env [] true (fun _ => none) 1 [] = (0, []) ∧
    ast_cli_command sample_env [] true (fun _ => none) 1 [32, 32, 9] = (0, []) :=
  ⟨((ast_cli_command_empty_line sample_env [] (fun _ => none) 1).2 [] (by decide)).2,
    ((ast_cli_command_empty_line sample_env [] (fun _ => none) 1).2 [32, 32, 9]
      (by decide)).2⟩

/-! ## Theorems: joined words -/

theorem strncat_take (a b c : List Nat) (len : Nat) (ha : a.length ≤ len) :
    (strncat a b (len - a.length) ++ c).take len = (a ++ (b ++ c)).take len := by
  unfold strncat
  rw [List.append_assoc, List.take_append_eq_append_take, @List.take_append_eq_append_take _ a]
  congr 1
  rw [List.take_append_eq_append_take, @List.take_append_eq_append_take _ b,
    List.take_take, Nat.min_self, List.length_take]
  congr 2
  omega

theorem strncat_length (a b : List Nat) (len : Nat) (ha : a.length ≤ len) :
    (strncat a b (len - a.length)).length ≤ len := by
  unfold strncat
  rw [List.length_append, List.length_take]
  omega

theorem spaced_cons (w : List Nat) (r : List (List Nat)) :
    spaced (w :: r) = w ++ (match r with | [] => [] | v :: r1 => 32 :: spaced (v :: r1)) := by
  cases r with
  | nil => simp [spaced]
  | cons v r1 => simp [spaced]

theorem join_from_eq (len : Nat) (rest : List CStr) (x : Nat) (s : CStr)
    (hs : s.length ≤ len) :
    join_from len x s rest
      = (s ++ (match rest with
          | [] => []
          | w :: r => if x ≠ 0 then 32 :: spaced (w :: r) else spaced (w :: r))).take len := by
  induction rest generalizing x s with
  | nil => simp [join_from, List.take_of_length_le hs]
  | cons w r ih =>
    simp only [join_from]
    by_cases hx : x = 0
    · subst hx
      simp only [ne_eq, not_true_eq_false, if_false]
      rw [ih (0 + 1) _ (strncat_length s w len hs)]
      simp only [ne_eq, Nat.add_eq_zero, one_ne_zero, and_false, not_false_eq_true, if_true]
      rw [spaced_cons w r, strncat_take s w _ len hs]
      cases r <;> rfl
    · simp only [ne_eq, hx, not_false_eq_true, if_true]
      have h1 := strncat_length s [32] len hs
      rw [ih (x + 1) _ (strncat_length _ w len h1)]
      simp only [ne_eq, Nat.add_eq_zero, one_ne_zero, and_false, not_false_eq_true, if_true]
      rw [spaced_cons w r, strncat_take _ w _ len h1, strncat_take s [32] _ len hs]
      cases r <;> rfl

/-- The function `join` gives the words separated by single spaces, cut to
`len` characters. -/
theorem join_eq_take (len : Nat) (w : List CStr) : join len w = (spaced w).take len := by
  unfold join
  rw [join_from_eq len w 0 [] (Nat.zero_le _)]
  cases w <;> simp [spaced]

theorem join_of_fits (len : Nat) (w : List CStr) (h : (spaced w).length ≤ len) :
    join len w = spaced w := by
  rw [join_eq_take, List.take_of_length_le h]

theorem spaced_length_ge (w : List Nat) (r : List (List Nat)) :
    w.length ≤ (spaced (w :: r)).length := by
  rw [spaced_cons, List.length_append]
  omega

theorem join_from_overruns_iff (len : Nat) (rest : List CStr) (x : Nat) (s : CStr)
    (hs : s.length < len) :
    join_from_overruns len x s rest = true ↔
      len ≤ (s ++ (match rest with
          | [] => []
          | w :: r => if x ≠ 0 then 32 :: spaced (w :: r) else spaced (w :: r))).length := by
  induction rest generalizing x s with
  | nil =>
    simp only [join_from_overruns, List.append_nil]
    constructor
    · intro h; exact absurd h (by decide)
    · intro h; omega
  | cons w r ih =>
    have key : ∀ s1 : CStr, s1.length < len →
        ((decide (len ≤ (strncat s1 w (len - s1.length)).length) ||
          join_from_overruns len (x + 1) (strncat s1 w (len - s1.length)) r) = true ↔
        len ≤ (s1 ++ spaced (w :: r)).length) := by
      intro s1 hs1
      by_cases hfit : s1.length + w.length < len
      · have hcat : strncat s1 w (len - s1.length) = s1 ++ w := by
          unfold strncat
          rw [List.take_of_length_le (by omega)]
        rw [hcat]
        have hlen : (s1 ++ w).length < len := by rw [List.length_append]; exact hfit
        have h1 : ¬ len ≤ (s1 ++ w).length := by omega
        simp only [h1, decide_False, Bool.false_or]
        rw [ih (x + 1) (s1 ++ w) hlen]
        simp only [ne_eq, Nat.add_eq_zero, one_ne_zero, and_false, not_false_eq_true, if_true]
        rw [spaced_cons w r]
        cases r <;> simp
      · have h1 : len ≤ (strncat s1 w (len - s1.length)).length := by
          unfold strncat
          rw [List.length_append, List.length_take]
          omega
        have h2 := spaced_length_ge w r
        simp only [h1, decide_True, Bool.true_or, true_iff, List.length_append]
        omega
    unfold join_from_overruns
    simp only
    by_cases hx : x = 0
    · subst hx
      simp only [ne_eq, not_true_eq_false, decide_False, Bool.false_and, Bool.false_or,
        if_false]
      exact key s hs
    · simp only [ne_eq, hx, not_false_eq_true, decide_True, Bool.true_and, if_true]
      have hs1 : strncat s [32] (len - s.length) = s ++ [32] := by
        unfold strncat
        rw [List.take_of_length_le (by simp; omega)]
      rw [hs1]
      by_cases hfit : s.length + 1 < len
      · have h1 : ¬ len ≤ (s ++ [32]).length := by simp; omega
        simp only [h1, decide_False, Bool.false_or]
        rw [key (s ++ [32]) (by simp; omega)]
        simp
      · have h1 : len ≤ (s ++ [32]).length := by simp; omega
        rw [decide_eq_true h1, Bool.true_or]
        simp only [true_iff, List.length_append, List.length_cons]
        omega

/-- A call of `join` writes outside its buffer exactly when the words
separated by single spaces make `len` characters or more. -/
theorem join_overruns_iff (len : Nat) (w : List CStr) :
    join_overruns len w = true ↔ len ≤ (spaced w).length := by
  unfold join_overruns
  by_cases h0 : len = 0
  · simp [h0]
  · simp only [h0, decide_False, Bool.false_or]
    rw [join_from_overruns_iff len w 0 [] (by simp; omega)]
    cases w <;> simp [spaced]

theorem join_fits_iff (len : Nat) (w : List CStr) :
    join_overruns len w = false ↔ (spaced w).length < len := by
  rw [← Bool.not_eq_true, join_overruns_iff]
  omega

/-- A `join` that stays inside its buffer gives the words separated by single
spaces, all of them. -/
theorem join_of_no_overrun (len : Nat) (w : List CStr) (h : join_overruns len w = false) :
    join len w = spaced w :=
  join_of_fits len w (Nat.le_of_lt ((join_fits_iff len w).1 h))

/-! ## Theorems: the unknown command -/

theorem help_merge_eq_steps (l1 l2 : List ast_cli_entry) (n : Nat)
    (h : l1.length + l2.length ≤ n) : help_merge l1 l2 = help_merge_steps n l1 l2 := by
  induction l1, l2 using help_merge.induct generalizing n with
  | case1 => cases n <;> simp [help_merge_steps, help_merge_nil_nil]
  | case2 e2 r2 ih =>
    obtain ⟨n1, rfl⟩ : ∃ n1, n = n1 + 1 := ⟨n - 1, by simp at h; omega⟩
    rw [help_merge_left_nil, help_merge_steps, ih n1 (by simp at h ⊢; omega)]
  | case3 e1 r1 ih =>
    obtain ⟨n1, rfl⟩ : ∃ n1, n = n1 + 1 := ⟨n - 1, by simp at h; omega⟩
    rw [help_merge_right_nil, help_merge_steps, ih n1 (by simp at h ⊢; omega)]
  | case4 e1 r1 e2 r2 hlt ih =>
    obtain ⟨n1, rfl⟩ : ∃ n1, n = n1 + 1 := ⟨n - 1, by simp at h; omega⟩
    rw [help_merge_dynamic _ _ _ _ hlt, help_merge_steps, if_pos hlt,
      ih n1 (by simp at h ⊢; omega)]
  | case5 e1 r1 e2 r2 hlt ih =>
    obtain ⟨n1, rfl⟩ : ∃ n1, n = n1 + 1 := ⟨n - 1, by simp at h; omega⟩
    rw [help_merge_builtin _ _ _ _ hlt, help_merge_steps, if_neg hlt,
      ih n1 (by simp at h ⊢; omega)]

theorem generator_loop_eq_steps (env : Env) (text word : CStr) (state : Int) (x : Nat)
    (matchstr : CStr) (l1 l2 : List ast_cli_entry) (f1 : CStr) (m : Int) (n : Nat)
    (h : l1.length + l2.length ≤ n) :
    generator_loop env text word state x matchstr l1 l2 f1 m
      = generator_steps env text word state x matchstr n l1 l2 f1 m := by
  induction l1, l2, f1, m using generator_loop.induct env text word state x matchstr
    generalizing n with
  | case1 f1 m => cases n <;> simp [generator_steps, generator_loop]
  | case2 e2 r2 f1 m ho =>
    obtain ⟨n1, rfl⟩ : ∃ n1, n = n1 + 1 := ⟨n - 1, by simp at h; omega⟩
    rw [generator_loop, generator_steps, if_pos ho, if_pos ho]
  | case3 e2 r2 f1 m ho hlt ih =>
    obtain ⟨n1, rfl⟩ : ∃ n1, n = n1 + 1 := ⟨n - 1, by simp at h; omega⟩
    rw [generator_loop, generator_steps, if_neg ho, if_neg ho, if_pos hlt, if_pos hlt]
    congr 1
    funext m1
    exact ih m1 n1 (by simp at h ⊢; omega)
  | case4 e2 r2 f1 m ho hlt =>
    obtain ⟨n1, rfl⟩ : ∃ n1, n = n1 + 1 := ⟨n - 1, by simp at h; omega⟩
    rw [generator_loop, generator_steps, if_neg ho, if_neg ho, if_neg hlt, if_neg hlt]
  | case5 e1 r1 f1 m ho =>
    obtain ⟨n1, rfl⟩ : ∃ n1, n = n1 + 1 := ⟨n - 1, by simp at h; omega⟩
    rw [generator_loop, generator_steps, if_pos ho, if_pos ho]
  | case6 e1 r1 f1 m ho ih =>
    obtain ⟨n1, rfl⟩ : ∃ n1, n = n1 + 1 := ⟨n - 1, by simp at h; omega⟩
    rw [generator_loop, generator_steps, if_neg ho, if_neg ho]
    congr 1
    funext m1
    exact ih m1 n1 (by simp at h ⊢; omega)
  | case7 e1 r1 e2 r2 f1 m ho =>
    obtain ⟨n1, rfl⟩ : ∃ n1, n = n1 + 1 := ⟨n - 1, by simp at h; omega⟩
    rw [generator_loop, generator_steps, if_pos ho, if_pos ho]
  | case8 e1 r1 e2 r2 f1 m ho hlt ih =>
    obtain ⟨n1, rfl⟩ : ∃ n1, n = n1 + 1 := ⟨n - 1, by simp at h; omega⟩
    rw [generator_loop, generator_steps, if_neg ho, if_neg ho, if_pos hlt, if_pos hlt]
    congr 1
    funext m1
    exact ih m1 n1 (by simp at h ⊢; omega)
  | case9 e1 r1 e2 r2 f1 m ho hlt ih =>
    obtain ⟨n1, rfl⟩ : ∃ n1, n = n1 + 1 := ⟨n - 1, by simp at h; omega⟩
    rw [generator_loop, generator_steps, if_neg ho, if_neg ho, if_neg hlt, if_neg hlt]
    congr 1
    funext m1
    exact ih m1 n1 (by simp at h ⊢; omega)

/-! ## Theorems: the order of the help listing -/

theorem strncasecmp_begins (a b : CStr) :
    strncasecmp a b a.length = 0 ↔ a.map tolower <+: b.map tolower := by
  induction a generalizing b with
  | nil => simp [strncasecmp]
  | cons x xs ih =>
    cases b with
    | nil => simp [strncasecmp]
    | cons y ys =>
      simp only [List.length_cons, strncasecmp, List.map_cons]
      by_cases h : tolower x = tolower y
      · simp only [h, if_true]
        rw [ih ys]
        constructor
        · rintro ⟨t, ht⟩
          exact ⟨t, by simp [ht]⟩
        · rintro ⟨t, ht⟩
          simp only [List.cons_append, List.cons.injEq, true_and] at ht
          exact ⟨t, ht⟩
      · simp only [h, if_false]
        constructor
        · intro h1
          split at h1 <;> simp at h1
        · rintro ⟨t, ht⟩
          simp only [List.cons_append, List.cons.injEq] at ht
          exact absurd ht.1 h

theorem strncasecmp_contains (a b : CStr) :
    strncasecmp a b b.length = 0 ↔ b.map tolower <+: a.map tolower := by
  induction b generalizing a with
  | nil => simp [strncasecmp]
  | cons y ys ih =>
    cases a with
    | nil => simp [strncasecmp]
    | cons x xs =>
      simp only [List.length_cons, strncasecmp, List.map_cons]
      by_cases h : tolower x = tolower y
      · simp only [h, if_true]
        rw [ih xs]
        constructor
        · rintro ⟨t, ht⟩
          exact ⟨t, by simp [ht]⟩
        · rintro ⟨t, ht⟩
          simp only [List.cons_append, List.cons.injEq, true_and] at ht
          exact ⟨t, ht⟩
      · simp only [h, if_false]
        constructor
        · intro h1
          split at h1 <;> simp at h1
        · rintro ⟨t, ht⟩
          simp only [List.cons_append, List.cons.injEq] at ht
          exact absurd ht.1.symm h

theorem help_merge_pairs (l1 l2 : List ast_cli_entry) :
    help_merge l1 l2
      = ((help_merge l1 l2).map Prod.fst).map (fun e => (e, join 80 e.cmda)) := by
  induction l1, l2 using help_merge.induct with
  | case1 => simp [help_merge_nil_nil]
  | case2 e2 r2 ih =>
    rw [help_merge_left_nil]
    simp only [List.map_cons]
    rw [← ih]
  | case3 e1 r1 ih =>
    rw [help_merge_right_nil]
    simp only [List.map_cons]
    rw [← ih]
  | case4 e1 r1 e2 r2 hlt ih =>
    rw [help_merge_dynamic _ _ _ _ hlt]
    simp only [List.map_cons]
    rw [← ih]
  | case5 e1 r1 e2 r2 hlt ih =>
    rw [help_merge_builtin _ _ _ _ hlt]
    simp only [List.map_cons]
    rw [← ih]

theorem help_merge_perm (l1 l2 : List ast_cli_entry) :
    ((help_merge l1 l2).map Prod.fst).Perm (l1 ++ l2) := by
  induction l1, l2 using help_merge.induct with
  | case1 => simp [help_merge_nil_nil]
  | case2 e2 r2 ih =>
    rw [help_merge_left_nil]
    simpa using ih
  | case3 e1 r1 ih =>
    rw [help_merge_right_nil]
    simpa using ih
  | case4 e1 r1 e2 r2 hlt ih =>
    rw [help_merge_dynamic _ _ _ _ hlt]
    simp only [List.map_cons]
    exact (List.Perm.cons e2 ih).trans (List.perm_middle).symm
  | case5 e1 r1 e2 r2 hlt ih =>
    rw [help_merge_builtin _ _ _ _ hlt]
    simp only [List.map_cons, List.cons_append]
    exact List.Perm.cons e1 ih

theorem help_merge_sublist_left (l1 l2 : List ast_cli_entry) :
    l1.Sublist ((help_merge l1 l2).map Prod.fst) := by
  induction l1, l2 using help_merge.induct with
  | case1 => simp
  | case2 e2 r2 ih => simp
  | case3 e1 r1 ih =>
    rw [help_merge_right_nil]
    exact List.Sublist.cons₂ e1 ih
  | case4 e1 r1 e2 r2 hlt ih =>
    rw [help_merge_dynamic _ _ _ _ hlt]
    exact List.Sublist.cons e2 ih
  | case5 e1 r1 e2 r2 hlt ih =>
    rw [help_merge_builtin _ _ _ _ hlt]
    exact List.Sublist.cons₂ e1 ih

theorem help_merge_sublist_right (l1 l2 : List ast_cli_entry) :
    l2.Sublist ((help_merge l1 l2).map Prod.fst) := by
  induction l1, l2 using help_merge.induct with
  | case1 => simp
  | case2 e2 r2 ih =>
    rw [help_merge_left_nil]
    exact List.Sublist.cons₂ e2 ih
  | case3 e1 r1 ih => simp
  | case4 e1 r1 e2 r2 hlt ih =>
    rw [help_merge_dynamic _ _ _ _ hlt]
    exact List.Sublist.cons₂ e2 ih
  | case5 e1 r1 e2 r2 hlt ih =>
    rw [help_merge_builtin _ _ _ _ hlt]
    exact List.Sublist.cons e1 ih

theorem help_merge_find_right (p : ast_cli_entry → Bool) (l1 l2 : List ast_cli_entry)
    (h : ∀ b ∈ l1, p b = false) :
    ((help_merge l1 l2).map Prod.fst).find? p = l2.find? p := by
  induction l1, l2 using help_merge.induct with
  | case1 => simp [help_merge_nil_nil]
  | case2 e2 r2 ih =>
    rw [help_merge_left_nil]
    simp only [List.map_cons, List.find?_cons]
    rw [ih h]
  | case3 e1 r1 ih =>
    rw [help_merge_right_nil]
    simp only [List.map_cons, List.find?_cons, h e1 (List.mem_cons_self _ _)]
    exact ih (fun b hb => h b (List.mem_cons_of_mem _ hb))
  | case4 e1 r1 e2 r2 hlt ih =>
    rw [help_merge_dynamic _ _ _ _ hlt]
    simp only [List.map_cons, List.find?_cons]
    rw [ih h]
  | case5 e1 r1 e2 r2 hlt ih =>
    rw [help_merge_builtin _ _ _ _ hlt]
    simp only [List.map_cons, List.find?_cons, h e1 (List.mem_cons_self _ _)]
    exact ih (fun b hb => h b (List.mem_cons_of_mem _ hb))

theorem help_merge_find_left (p : ast_cli_entry → Bool) (l1 l2 : List ast_cli_entry)
    (h : ∀ d ∈ l2, p d = false) :
    ((help_merge l1 l2).map Prod.fst).find? p = l1.find? p := by
  induction l1, l2 using help_merge.induct with
  | case1 => simp [help_merge_nil_nil]
  | case2 e2 r2 ih =>
    rw [help_merge_left_nil]
    simp only [List.map_cons, List.find?_cons, h e2 (List.mem_cons_self _ _)]
    exact ih (fun b hb => h b (List.mem_cons_of_mem _ hb))
  | case3 e1 r1 ih =>
    rw [help_merge_right_nil]
    simp only [List.map_cons, List.find?_cons]
    rw [ih h]
  | case4 e1 r1 e2 r2 hlt ih =>
    rw [help_merge_dynamic _ _ _ _ hlt]
    simp only [List.map_cons, List.find?_cons, h e2 (List.mem_cons_self _ _)]
    exact ih (fun b hb => h b (List.mem_cons_of_mem _ hb))
  | case5 e1 r1 e2 r2 hlt ih =>
    rw [help_merge_builtin _ _ _ _ hlt]
    simp only [List.map_cons, List.find?_cons]
    rw [ih h]

theorem merged_view_eq_steps (helpers : List ast_cli_entry) :
    merged_view helpers
      = (help_merge_steps (builtins.length + helpers.length) builtins helpers).map Prod.fst := by
  unfold merged_view
  rw [help_merge_eq_steps builtins helpers _ (le_refl _)]

/-- C19 (as stated, refuted): after `show agents` is registered on the empty
dynamic list, the help listing shows it before the built-in `show channel`;
both match the typed word `show` inexactly; the first match in the order of
the listing is `show agents`, but `find_cli` returns `show channel`. -/
theorem find_cli_prefers_builtins :
    Reachable [sample_entry 1 ["show", "agents"]] ∧
    (merged_view [sample_entry 1 ["show", "agents"]]).map (fun e => e.cmda)
      = [[cstr "help"], [cstr "load"], [cstr "show", cstr "agents"],
         [cstr "show", cstr "channel"], [cstr "show", cstr "channels"],
         [cstr "show", cstr "modules"], [cstr "unload"]] ∧
    (merged_view [sample_entry 1 ["show", "agents"]]).find?
        (fun e => find_cli_match e.cmda [cstr "show"] (-1))
      = some (sample_entry 1 ["show", "agents"]) ∧
    (find_cli [sample_entry 1 ["show", "agents"]] [cstr "show"] (-1)).map (fun e => e.cmda)
      = some [cstr "show", cstr "channel"] := by
  have hreg : ast_cli_register [] (sample_entry 1 ["show", "agents"])
      = (0, [sample_entry 1 ["show", "agents"]]) := by decide
  have hr := Reachable.register [] (sample_entry 1 ["show", "agents"]) Reachable.empty
  rw [hreg] at hr
  rw [merged_view_eq_steps]
  exact ⟨hr, by decide, by decide, by decide⟩

/-- C19 (amended): for every dynamic list, every word list and every mode,
`find_cli` returns the first entry that passes its candidate test in the
built-in table followed by the dynamic list: the first matching built-in in
table order if a built-in matches, otherwise the first matching dynamic entry
in list order. The help listing keeps the built-ins in table order and the
dynamic entries in list order, so when the matching entries are all built-in,
or all dynamic, the entry returned is the first match in the order of the
listing. -/
theorem find_cli_first_of_builtins_then_dynamic (helpers : List ast_cli_entry)
    (cmds : List CStr) (exact : Int) :
    find_cli helpers cmds exact
      = (builtins ++ helpers).find? (fun e => find_cli_match e.cmda cmds exact) ∧
    ((∃ b ∈ builtins, find_cli_match b.cmda cmds exact = true) →
      find_cli helpers cmds exact
        = builtins.find? (fun e => find_cli_match e.cmda cmds exact)) ∧
    ((∀ b ∈ builtins, find_cli_match b.cmda cmds exact = false) →
      find_cli helpers cmds exact
          = helpers.find? (fun e => find_cli_match e.cmda cmds exact) ∧
      find_cli helpers cmds exact
          = (merged_view helpers).find? (fun e => find_cli_match e.cmda cmds exact)) ∧
    ((∀ d ∈ helpers, find_cli_match d.cmda cmds exact = false) →
      find_cli helpers cmds exact
          = (merged_view helpers).find? (fun e => find_cli_match e.cmda cmds exact)) ∧
    builtins.Sublist (merged_view helpers) ∧
    helpers.Sublist (merged_view helpers) := by
  refine ⟨find_cli_eq_find helpers cmds exact, ?_, ?_, ?_,
    help_merge_sublist_left builtins helpers, help_merge_sublist_right builtins helpers⟩
  · rintro ⟨b, hb, hm⟩
    unfold find_cli
    cases hf : builtins.find? (fun e => find_cli_match e.cmda cmds exact) with
    | some e => rfl
    | none =>
      rw [List.find?_eq_none] at hf
      exact absurd hm (hf b hb)
  · intro hno
    have hnone : builtins.find? (fun e => find_cli_match e.cmda cmds exact) = none := by
      rw [List.find?_eq_none]
      intro b hb
      simp [hno b hb]
    have h1 : find_cli helpers cmds exact
        = helpers.find? (fun e => find_cli_match e.cmda cmds exact) := by
      unfold find_cli
      rw [hnone]
    refine ⟨h1, ?_⟩
    rw [h1]
    exact (help_merge_find_right _ builtins helpers hno).symm
  · intro hno
    have hnone : helpers.find? (fun e => find_cli_match e.cmda cmds exact) = none := by
      rw [List.find?_eq_none]
      intro d hd
      simp [hno d hd]
    rw [find_cli_eq_find, List.find?_append, hnone, Option.or_none]
    exact (help_merge_find_left _ builtins helpers hno).symm

/-- Witness of C19 (amended): with `show agents` registered, the typed word
`help` is matched by a built-in only, which is the first match of the listing. -/
theorem find_cli_first_of_builtins_then_dynamic_witness :
    find_cli [sample_entry 1 ["show", "agents"]] [cstr "help"] 0
      = (merged_view [sample_entry 1 ["show", "agents"]]).find?
          (fun e => find_cli_match e.cmda [cstr "help"] 0) :=
  (find_cli_first_of_builtins_then_dynamic [sample_entry 1 ["show", "agents"]]
    [cstr "help"] 0).2.2.2.1 (by decide)

theorem help_loop_fits (fd : Int) (ms : Option CStr) (l1 l2 : List ast_cli_entry)
    (hfit : ∀ e ∈ l1 ++ l2, join_overruns 80 e.cmda = false) :
    help_loop fd ms l1 l2
      = some (((help_merge l1 l2).filter (fun p => help_shown ms p.2)).map
          (fun p => Event.ast_cli fd help_format [p.2, p.1.summary])) := by
  induction l1, l2 using help_loop.induct fd ms with
  | case1 => rw [help_loop, help_merge_nil_nil]; rfl
  | case2 e2 r2 ho =>
    exact absurd ho (by rw [hfit e2 (by simp)]; decide)
  | case3 e2 r2 ho ih =>
    rw [help_loop, if_neg ho, ih (fun e he => hfit e (by simp at he ⊢; exact Or.inr he)),
      help_merge_left_nil]
    simp only [Option.map_some', help_emit, List.filter_cons]
    split_ifs <;> rfl
  | case4 e1 r1 ho =>
    exact absurd ho (by rw [hfit e1 (by simp)]; decide)
  | case5 e1 r1 ho ih =>
    rw [help_loop, if_neg ho, ih (fun e he => hfit e (by simp at he ⊢; exact Or.inr he)),
      help_merge_right_nil]
    simp only [Option.map_some', help_emit, List.filter_cons]
    split_ifs <;> rfl
  | case6 e1 r1 e2 r2 ho =>
    rcases ho with ho | ho
    · exact absurd ho (by rw [hfit e2 (by simp)]; decide)
    · exact absurd ho (by rw [hfit e1 (by simp)]; decide)
  | case7 e1 r1 e2 r2 ho hlt ih =>
    rw [help_loop, if_neg ho, if_pos hlt,
      ih (fun e he => hfit e (by simp at he ⊢; tauto)), help_merge_dynamic _ _ _ _ hlt]
    simp only [Option.map_some', help_emit, List.filter_cons]
    split_ifs <;> rfl
  | case8 e1 r1 e2 r2 ho hlt ih =>
    rw [help_loop, if_neg ho, if_neg hlt,
      ih (fun e he => hfit e (by simp at he ⊢; tauto)), help_merge_builtin _ _ _ _ hlt]
    simp only [Option.map_some', help_emit, List.filter_cons]
    split_ifs <;> rfl

theorem help_loop_overrun (fd : Int) (ms : Option CStr) (l1 l2 : List ast_cli_entry)
    (h : ∃ e ∈ l1 ++ l2, join_overruns 80 e.cmda = true) :
    help_loop fd ms l1 l2 = none := by
  induction l1, l2 using help_loop.induct fd ms with
  | case1 => obtain ⟨e, he, _⟩ := h; simp at he
  | case2 e2 r2 ho => rw [help_loop, if_pos ho]
  | case3 e2 r2 ho ih =>
    rw [help_loop, if_neg ho, ih ?_]
    · rfl
    · obtain ⟨e, he, hov⟩ := h
      simp only [List.nil_append, List.mem_cons] at he
      rcases he with he | he
      · rw [he] at hov; exact absurd hov ho
      · exact ⟨e, by simpa using he, hov⟩
  | case4 e1 r1 ho => rw [help_loop, if_pos ho]
  | case5 e1 r1 ho ih =>
    rw [help_loop, if_neg ho, ih ?_]
    · rfl
    · obtain ⟨e, he, hov⟩ := h
      simp only [List.append_nil, List.mem_cons] at he
      rcases he with he | he
      · rw [he] at hov; exact absurd hov ho
      · exact ⟨e, by simpa using he, hov⟩
  | case6 e1 r1 e2 r2 ho => rw [help_loop, if_pos ho]
  | case7 e1 r1 e2 r2 ho hlt ih =>
    rw [help_loop, if_neg ho, if_pos hlt, ih ?_]
    · rfl
    · obtain ⟨e, he, hov⟩ := h
      simp only [List.mem_append, List.mem_cons] at he
      rcases he with he | he | he
      · exact ⟨e, List.mem_append_left _ (List.mem_cons.2 he), hov⟩
      · rw [he] at hov; exact absurd (Or.inl hov) ho
      · exact ⟨e, List.mem_append_right _ he, hov⟩
  | case8 e1 r1 e2 r2 ho hlt ih =>
    rw [help_loop, if_neg ho, if_neg hlt, ih ?_]
    · rfl
    · obtain ⟨e, he, hov⟩ := h
      simp only [List.cons_append, List.mem_cons, List.mem_append] at he
      rcases he with he | he | he
      · rw [he] at hov; exact absurd (Or.inr hov) ho
      · exact ⟨e, List.mem_append_left _ he, hov⟩
      · exact ⟨e, List.mem_append_right _ (List.mem_cons.2 he), hov⟩

theorem builtins_fit : ∀ e ∈ builtins, join_overruns 80 e.cmda = false := by decide

/-- The text of a line of the help listing: the joined path cut to 20
characters and right-aligned in 20 columns, three spaces, the summary and a
newline, as far as the buffer of `ast_cli` holds it. -/
theorem ast_cli_help_line (path summary : CStr) :
    ast_cli help_format [path, summary]
      = some ((pad_left 20 (path.take 20) ++ [32, 32, 32] ++ summary ++ [10]).take 4095) := by
  have hfmt : help_format = [37, 50, 48, 46, 50, 48, 115, 32, 32, 32, 37, 115, 10] := by
    decide
  unfold ast_cli format_text
  rw [hfmt]
  simp [format_run]

/-- C20 (amended): for every dynamic list whose entries have a joined
word-path (the words separated by single spaces) shorter than 80 characters,
the merge loop of `help_workhorse` ends and, without filter, makes one
`ast_cli` call for every built-in and every dynamic entry, as many calls as
there are entries, the built-ins in table order and the dynamic entries in
list order; with a filter word list whose joined text is shorter than 80
characters it makes the calls for exactly the sub-sequence of those entries
whose joined word-path starts, case-insensitively, with the joined filter.
Each call has the format of a help line, the joined path of the entry and its
summary, and writes the first 20 characters of the path right-aligned in 20
columns, three spaces, the summary and a newline (the first 4095 characters of
that text if it is longer). -/
theorem help_workhorse_lists_all (helpers : List ast_cli_entry) (fd : Int)
    (hfit : ∀ e ∈ helpers, (spaced e.cmda).length < 80) :
    help_workhorse helpers fd none
      = some (0, (merged_view helpers).map
          (fun e => Event.ast_cli fd help_format [spaced e.cmda, e.summary])) ∧
    (merged_view helpers).length = builtins.length + helpers.length ∧
    (merged_view helpers).Perm (builtins ++ helpers) ∧
    builtins.Sublist (merged_view helpers) ∧
    helpers.Sublist (merged_view helpers) ∧
    (∀ filt : List CStr, (spaced filt).length < 80 →
      help_workhorse helpers fd (some filt)
        = some (0, ((merged_view helpers).filter
            (fun e => decide ((spaced filt).map tolower <+: (spaced e.cmda).map tolower))).map
            (fun e => Event.ast_cli fd help_format [spaced e.cmda, e.summary]))) ∧
    (∀ path summary : CStr,
      ast_cli help_format [path, summary]
        = some ((pad_left 20 (path.take 20) ++ [32, 32, 32] ++ summary ++ [10]).take 4095)) := by
  have hperm := help_merge_perm builtins helpers
  have hall : ∀ e ∈ builtins ++ helpers, join_overruns 80 e.cmda = false := by
    intro e he
    rcases List.mem_append.1 he with h | h
    · exact builtins_fit e h
    · exact (join_fits_iff 80 e.cmda).2 (hfit e h)
  have hview : ∀ e ∈ merged_view helpers, join 80 e.cmda = spaced e.cmda := by
    intro e he
    exact join_of_no_overrun 80 e.cmda (hall e (hperm.mem_iff.1 he))
  have hmap : ∀ (l : List ast_cli_entry), (∀ e ∈ l, join 80 e.cmda = spaced e.cmda) →
      l.map (fun e => Event.ast_cli fd help_format [join 80 e.cmda, e.summary])
        = l.map (fun e => Event.ast_cli fd help_format [spaced e.cmda, e.summary]) := by
    intro l hl
    apply List.map_congr_left
    intro e he
    rw [hl e he]
  refine ⟨?_, ?_, hperm, help_merge_sublist_left builtins helpers,
    help_merge_sublist_right builtins helpers, ?_, ast_cli_help_line⟩
  · unfold help_workhorse
    simp only
    rw [help_loop_fits fd none builtins helpers hall]
    simp only [help_shown, List.filter_true, Option.map_some', Option.some.injEq,
      Prod.mk.injEq, true_and]
    conv_lhs => rw [help_merge_pairs]
    rw [List.map_map]
    exact hmap (merged_view helpers) hview
  · unfold merged_view
    rw [hperm.length_eq, List.length_append]
  · intro filt hfilt
    have hf : join_overruns 80 filt = false := (join_fits_iff 80 filt).2 hfilt
    unfold help_workhorse
    simp only [hf, Bool.false_eq_true, if_false]
    rw [help_loop_fits fd _ builtins helpers hall, join_of_no_overrun 80 filt hf]
    simp only [help_shown, Option.map_some', Option.some.injEq, Prod.mk.injEq, true_and]
    conv_lhs => rw [help_merge_pairs]
    rw [List.filter_map, List.map_map]
    have hfilter : (merged_view helpers).filter
          ((fun p : ast_cli_entry × CStr =>
            decide (strncasecmp (spaced filt) p.2 (spaced filt).length = 0)) ∘
          fun e : ast_cli_entry => (e, join 80 e.cmda))
        = (merged_view helpers).filter
          (fun e => decide ((spaced filt).map tolower <+: (spaced e.cmda).map tolower)) := by
      apply List.filter_congr
      intro e he
      simp only [Function.comp_def, hview e he]
      by_cases h : (spaced filt).map tolower <+: (spaced e.cmda).map tolower
      · simp [h, (strncasecmp_begins _ _).2 h]
      · have h2 : ¬ strncasecmp (spaced filt) (spaced e.cmda) (spaced filt).length = 0 :=
          fun h3 => h ((strncasecmp_begins _ _).1 h3)
        simp [h, h2]
    show List.map ((fun p : ast_cli_entry × CStr =>
          Event.ast_cli fd help_format [p.2, p.1.summary]) ∘
          fun e : ast_cli_entry => (e, join 80 e.cmda))
        ((merged_view helpers).filter _) = _
    rw [hfilter]
    apply hmap
    intro e he
    exact hview e (List.mem_of_mem_filter he)

set_option maxRecDepth 20000 in
/-- Witness of C20 (amended): with the built-ins only, the filter `show` leaves
the three `show` commands. -/
theorem help_workhorse_lists_all_witness :
    (help_workhorse [] 1 (some [cstr "show"])).map (fun r => listed_paths r.2)
      = some [cstr "show channel", cstr "show channels", cstr "show modules"] := by
  rw [(help_workhorse_lists_all [] 1 (by simp)).2.2.2.2.2.1 [cstr "show"] (by decide),
    merged_view_eq_steps]
  decide

set_option maxRecDepth 20000 in
/-- C20 (as stated, refuted): with the dynamic entry of the one word
`abcdefghijklmnopqrstuvwxyz` registered, the listing filtered by `abc` has its
line, and the text of that line is the first 20 letters, three spaces, the
summary and a newline: the line does not carry the joined path of the entry.
And with a dynamic entry of twelve words `sixlet` registered (72 characters
without the spaces, 83 with them), the `join` of its words writes outside the
buffer `fullcmd2`, so the listing has no defined result. -/
theorem help_line_cuts_path :
    Reachable [sample_entry 1 ["abcdefghijklmnopqrstuvwxyz"]] ∧
    help_workhorse [sample_entry 1 ["abcdefghijklmnopqrstuvwxyz"]] 1 (some [cstr "abc"])
      = some (0, [Event.ast_cli 1 help_format
          [cstr "abcdefghijklmnopqrstuvwxyz", cstr "sample"]]) ∧
    ast_cli help_format [cstr "abcdefghijklmnopqrstuvwxyz", cstr "sample"]
      = some (cstr "abcdefghijklmnopqrst   sample\n") ∧
    ¬ (cstr "abcdefghijklmnopqrstuvwxyz" <:+: cstr "abcdefghijklmnopqrst   sample\n") ∧
    Reachable [sample_entry 2 ["sixlet", "sixlet", "sixlet", "sixlet", "sixlet", "sixlet",
      "sixlet", "sixlet", "sixlet", "sixlet", "sixlet", "sixlet"]] ∧
    join_overruns 80 (sample_entry 2 ["sixlet", "sixlet", "sixlet", "sixlet", "sixlet",
      "sixlet", "sixlet", "sixlet", "sixlet", "sixlet", "sixlet", "sixlet"]).cmda = true ∧
    help_workhorse [sample_entry 2 ["sixlet", "sixlet", "sixlet", "sixlet", "sixlet", "sixlet",
      "sixlet", "sixlet", "sixlet", "sixlet", "sixlet", "sixlet"]] 1 none = none := by
  have hreg1 : ast_cli_register [] (sample_entry 1 ["abcdefghijklmnopqrstuvwxyz"])
      = (0, [sample_entry 1 ["abcdefghijklmnopqrstuvwxyz"]]) := by decide
  have hr1 := Reachable.register [] (sample_entry 1 ["abcdefghijklmnopqrstuvwxyz"])
    Reachable.empty
  rw [hreg1] at hr1
  have hreg2 : ast_cli_register [] (sample_entry 2 ["sixlet", "sixlet", "sixlet", "sixlet",
      "sixlet", "sixlet", "sixlet", "sixlet", "sixlet", "sixlet", "sixlet", "sixlet"])
      = (0, [sample_entry 2 ["sixlet", "sixlet", "sixlet", "sixlet", "sixlet", "sixlet",
      "sixlet", "sixlet", "sixlet", "sixlet", "sixlet", "sixlet"]]) := by
    decide
  have hr2 := Reachable.register [] (sample_entry 2 ["sixlet", "sixlet", "sixlet", "sixlet",
      "sixlet", "sixlet", "sixlet", "sixlet", "sixlet", "sixlet", "sixlet", "sixlet"])
    Reachable.empty
  rw [hreg2] at hr2
  refine ⟨hr1, ?_, ?_, by decide, hr2, by decide, ?_⟩
  · rw [help_workhorse_eq_steps]; decide
  · rw [ast_cli_help_line]; decide
  · rw [help_workhorse_eq_steps]; decide

/-! ## Theorems: completion -/

theorem generator_next_cases (b : Option gen_result × Int) (k : Int → gen_result)
    (R : gen_result) (h : generator_next b k = R) :
    (∃ m1, b = (some R, m1)) ∨ (∃ m1, b = (none, m1) ∧ k m1 = R) := by
  obtain ⟨o, m1⟩ := b
  cases o with
  | none => exact Or.inr ⟨m1, rfl, h⟩
  | some r =>
    simp only [generator_next] at h
    exact Or.inl ⟨m1, by rw [h]⟩

theorem generator_body_cases (env : Env) (text word : CStr) (state : Int) (x : Nat)
    (ms : CStr) (e : ast_cli_entry) (f : CStr) (m : Int) :
    (generator_body env text word state x ms e f m).2 = generator_count ms f m ∧
    ((∃ R, strncasecmp ms f ms.length = 0 ∧ generator_count ms f m > state ∧
        generator_word word x e = some R ∧
        (generator_body env text word state x ms e f m).1 = some R) ∨
      (¬ (strncasecmp ms f ms.length = 0 ∧ generator_count ms f m > state ∧
          (generator_word word x e).isSome = true) ∧
        (generator_body env text word state x ms e f m).1
          = generator_delegate env text word state x ms e f)) := by
  unfold generator_body
  simp only
  by_cases hc : strncasecmp ms f ms.length = 0 ∧ generator_count ms f m > state
  · rw [if_pos hc]
    cases hw : generator_word word x e with
    | none => simp
    | some R => exact ⟨rfl, Or.inl ⟨R, hc.1, hc.2, rfl, rfl⟩⟩
  · rw [if_neg hc]
    refine ⟨rfl, Or.inr ⟨?_, rfl⟩⟩
    intro h
    exact hc ⟨h.1, h.2.1⟩

theorem generator_word_word (word : CStr) (x : Nat) (e e1 : ast_cli_entry) (w : CStr)
    (h : generator_word word x e = some (gen_result.word e1 w)) :
    e1 = e ∧ e.cmda[if word.length ≠ 0 then x - 1 else x]? = some w := by
  unfold generator_word at h
  split_ifs at h with h1 h2
  · simp at h
  · simp only [Option.map_eq_some', gen_result.word.injEq] at h
    obtain ⟨res, hres, he, hw⟩ := h
    exact ⟨he.symm, by rw [if_pos h1, hres, hw]⟩
  · simp only [Option.map_eq_some', gen_result.word.injEq] at h
    obtain ⟨res, hres, he, hw⟩ := h
    exact ⟨he.symm, by rw [if_neg h1, hres, hw]⟩

theorem generator_word_kind (word : CStr) (x : Nat) (e : ast_cli_entry) (R : gen_result)
    (h : generator_word word x e = some R) :
    R = gen_result.out_of_bounds ∨ ∃ w, R = gen_result.word e w := by
  unfold generator_word at h
  split_ifs at h with h1 h2
  · left; simpa using h.symm
  · simp only [Option.map_eq_some'] at h
    obtain ⟨res, _, hw⟩ := h
    exact Or.inr ⟨res, hw.symm⟩
  · simp only [Option.map_eq_some'] at h
    obtain ⟨res, _, hw⟩ := h
    exact Or.inr ⟨res, hw.symm⟩

theorem generator_delegate_kind (env : Env) (text word : CStr) (state : Int) (x : Nat)
    (ms : CStr) (e : ast_cli_entry) (f : CStr) (R : gen_result)
    (h : generator_delegate env text word state x ms e f = some R) :
    strncasecmp ms f f.length = 0 ∧
      ∃ g, e.generator = some g ∧
        R = gen_result.generated e (generator_pos word x)
          (env.call_generator g text word (generator_pos word x) state) := by
  unfold generator_delegate at h
  split at h
  · rename_i g hg
    split_ifs at h with h1
    simp only [Option.some.injEq] at h
    exact ⟨h1, g, hg, h.symm⟩
  · simp at h

/-- What a return of the body can be: the out-of-bounds read of `cmda[-1]`, a
word of the picked entry, or the result of its generator. -/
theorem generator_body_some (env : Env) (text word : CStr) (state : Int) (x : Nat)
    (ms : CStr) (e : ast_cli_entry) (f : CStr) (m m1 : Int) (R : gen_result)
    (h : generator_body env text word state x ms e f m = (some R, m1)) :
    (R = gen_result.out_of_bounds) ∨
    (strncasecmp ms f ms.length = 0 ∧
      ∃ w, R = gen_result.word e w ∧ e.cmda[if word.length ≠ 0 then x - 1 else x]? = some w) ∨
    (strncasecmp ms f f.length = 0 ∧
      ∃ g, e.generator = some g ∧
        R = gen_result.generated e (generator_pos word x)
          (env.call_generator g text word (generator_pos word x) state)) := by
  obtain ⟨_, hc⟩ := generator_body_cases env text word state x ms e f m
  rw [h] at hc
  rcases hc with ⟨R1, hhit, _, hw, h1⟩ | ⟨_, h1⟩
  · simp only [Option.some.injEq] at h1
    subst h1
    rcases generator_word_kind word x e R hw with h2 | ⟨w, h2⟩
    · exact Or.inl h2
    · right; left
      subst h2
      exact ⟨hhit, w, rfl, (generator_word_word word x e e w hw).2⟩
  · right; right
    exact generator_delegate_kind env text word state x ms e f R h1.symm

theorem generator_sound_mono (env : Env) (text word : CStr) (state : Int) (x : Nat)
    (ms : CStr) (l l1 : List ast_cli_entry) (R : gen_result) (hsub : ∀ e ∈ l, e ∈ l1)
    (h : generator_sound env text word state x ms l R) :
    generator_sound env text word state x ms l1 R := by
  rcases h with h | h | ⟨e, he, h⟩ | ⟨e, he, h⟩
  · exact Or.inl h
  · exact Or.inr (Or.inl h)
  · exact Or.inr (Or.inr (Or.inl ⟨e, hsub e he, h⟩))
  · exact Or.inr (Or.inr (Or.inr ⟨e, hsub e he, h⟩))

theorem generator_body_sound (env : Env) (text word : CStr) (state : Int) (x : Nat)
    (ms : CStr) (e : ast_cli_entry) (m m1 : Int) (R : gen_result)
    (hfit : join_overruns 80 e.cmda = false)
    (h : generator_body env text word state x ms e (join 80 e.cmda) m = (some R, m1)) :
    generator_sound env text word state x ms [e] R := by
  rcases generator_body_some env text word state x ms e _ m m1 R h with h1 | h1 | h1
  · exact Or.inr (Or.inl h1)
  · exact Or.inr (Or.inr (Or.inl ⟨e, List.mem_singleton.2 rfl, hfit, h1⟩))
  · exact Or.inr (Or.inr (Or.inr ⟨e, List.mem_singleton.2 rfl, hfit, h1⟩))

theorem generator_sentinel (env : Env) (text word : CStr) (state : Int) (x : Nat)
    (ms : CStr) (f : CStr) (m : Int) :
    generator_next (generator_body env text word state x ms sentinel f m)
      (fun _ => gen_result.out_of_bounds) = gen_result.out_of_bounds := by
  cases hb : generator_body env text word state x ms sentinel f m with
  | mk o m1 =>
    cases o with
    | none => rfl
    | some R =>
      simp only [generator_next]
      rcases generator_body_some env text word state x ms sentinel f m m1 R hb with
        h1 | ⟨_, w, _, hw⟩ | ⟨_, g, hg, _⟩
      · exact h1
      · simp [sentinel] at hw
      · simp [sentinel] at hg

/-- Every result of the loop is NULL, an access outside an array, or comes from
an entry the loop was given. -/
theorem generator_loop_sound (env : Env) (text word : CStr) (state : Int) (x : Nat)
    (ms : CStr) (l1 l2 : List ast_cli_entry) (f : CStr) (m : Int) :
    generator_sound env text word state x ms (l1 ++ l2)
      (generator_loop env text word state x ms l1 l2 f m) := by
  induction l1, l2, f, m using generator_loop.induct env text word state x ms with
  | case1 f m => rw [generator_loop]; exact Or.inl rfl
  | case2 e2 r2 f m ho =>
    rw [generator_loop, if_pos ho]
    exact Or.inr (Or.inl rfl)
  | case3 e2 r2 f m ho hlt ih =>
    rw [generator_loop, if_neg ho, if_pos hlt]
    rcases generator_next_cases _ _ _ rfl with ⟨m1, hb⟩ | ⟨m1, _, hk⟩
    · exact generator_sound_mono _ _ _ _ _ _ _ _ _ (by simp)
        (generator_body_sound env text word state x ms e2 m m1 _ (by simpa using ho) hb)
    · rw [← hk]
      exact generator_sound_mono _ _ _ _ _ _ _ _ _
        (fun e he => by simp at he ⊢; exact Or.inr he) (ih m1)
  | case4 e2 r2 f m ho hlt =>
    rw [generator_loop, if_neg ho, if_neg hlt, generator_sentinel]
    exact Or.inr (Or.inl rfl)
  | case5 e1 r1 f m ho =>
    rw [generator_loop, if_pos ho]
    exact Or.inr (Or.inl rfl)
  | case6 e1 r1 f m ho ih =>
    rw [generator_loop, if_neg ho]
    rcases generator_next_cases _ _ _ rfl with ⟨m1, hb⟩ | ⟨m1, _, hk⟩
    · exact generator_sound_mono _ _ _ _ _ _ _ _ _ (by simp)
        (generator_body_sound env text word state x ms e1 m m1 _ (by simpa using ho) hb)
    · rw [← hk]
      exact generator_sound_mono _ _ _ _ _ _ _ _ _
        (fun e he => by simp at he ⊢; exact Or.inr he) (ih m1)
  | case7 e1 r1 e2 r2 f m ho =>
    rw [generator_loop, if_pos ho]
    exact Or.inr (Or.inl rfl)
  | case8 e1 r1 e2 r2 f m ho hlt ih =>
    rw [generator_loop, if_neg ho, if_pos hlt]
    rcases generator_next_cases _ _ _ rfl with ⟨m1, hb⟩ | ⟨m1, _, hk⟩
    · exact generator_sound_mono _ _ _ _ _ _ _ _ _ (by simp)
        (generator_body_sound env text word state x ms e2 m m1 _
          (by simpa using fun h => ho (Or.inl h)) hb)
    · rw [← hk]
      exact generator_sound_mono _ _ _ _ _ _ _ _ _
        (fun e he => by simp at he ⊢; tauto) (ih m1)
  | case9 e1 r1 e2 r2 f m ho hlt ih =>
    rw [generator_loop, if_neg ho, if_neg hlt]
    rcases generator_next_cases _ _ _ rfl with ⟨m1, hb⟩ | ⟨m1, _, hk⟩
    · exact generator_sound_mono _ _ _ _ _ _ _ _ _ (by simp)
        (generator_body_sound env text word state x ms e1 m m1 _
          (by simpa using fun h => ho (Or.inr h)) hb)
    · rw [← hk]
      exact generator_sound_mono _ _ _ _ _ _ _ _ _
        (fun e he => by simp at he ⊢; tauto) (ih m1)

theorem generator_body_not_null (env : Env) (text word : CStr) (state : Int) (x : Nat)
    (ms : CStr) (e : ast_cli_entry) (f : CStr) (m m1 : Int) :
    generator_body env text word state x ms e f m ≠ (some gen_result.null, m1) := by
  intro h
  rcases generator_body_some env text word state x ms e f m m1 _ h with
    h1 | ⟨_, w, h1, _⟩ | ⟨_, g, _, h1⟩ <;> simp at h1

theorem generator_body_none (env : Env) (text : CStr) (x : Nat) (ms : CStr)
    (e : ast_cli_entry) (m m1 : Int) (hm : 0 ≤ m)
    (hfit : join_overruns 80 e.cmda = false)
    (h : generator_body env text [] 0 x ms e (join 80 e.cmda) m = (none, m1)) :
    0 ≤ m1 ∧ generator_quiet env text x ms e := by
  obtain ⟨h2, hc⟩ := generator_body_cases env text [] 0 x ms e (join 80 e.cmda) m
  rw [h] at h2 hc
  simp only at h2
  have hm1 : 0 ≤ m1 := by
    rw [h2]
    unfold generator_count
    split_ifs <;> omega
  refine ⟨hm1, hfit, ?_⟩
  rcases hc with ⟨R, _, _, _, h1⟩ | ⟨hno, h1⟩
  · simp at h1
  · refine ⟨?_, h1.symm⟩
    rintro ⟨hhit, hw⟩
    apply hno
    refine ⟨hhit, ?_, ?_⟩
    · unfold generator_count
      rw [if_pos hhit]
      omega
    · simpa [generator_word] using hw

/-- When the loop ends with NULL for an empty `word` and state 0, no entry it
was given had anything to return. -/
theorem generator_loop_null (env : Env) (text : CStr) (x : Nat) (ms : CStr)
    (l1 l2 : List ast_cli_entry) (f : CStr) (m : Int) (hm : 0 ≤ m)
    (h : generator_loop env text [] 0 x ms l1 l2 f m = gen_result.null) :
    ∀ e ∈ l1 ++ l2, generator_quiet env text x ms e := by
  induction l1, l2, f, m using generator_loop.induct env text [] 0 x ms with
  | case1 f m => intro e he; simp at he
  | case2 e2 r2 f m ho =>
    rw [generator_loop, if_pos ho] at h
    exact absurd h (by decide)
  | case3 e2 r2 f m ho hlt ih =>
    rw [generator_loop, if_neg ho, if_pos hlt] at h
    rcases generator_next_cases _ _ _ h with ⟨m1, hb⟩ | ⟨m1, hb, hk⟩
    · exact absurd hb (generator_body_not_null env text [] 0 x ms e2 _ m m1)
    · obtain ⟨hm1, hq⟩ := generator_body_none env text x ms e2 m m1 hm (by simpa using ho) hb
      intro e he
      simp only [List.nil_append, List.mem_cons] at he
      rcases he with he | he
      · rw [he]; exact hq
      · exact ih m1 hm1 hk e (by simpa using he)
  | case4 e2 r2 f m ho hlt =>
    rw [generator_loop, if_neg ho, if_neg hlt, generator_sentinel] at h
    exact absurd h (by decide)
  | case5 e1 r1 f m ho =>
    rw [generator_loop, if_pos ho] at h
    exact absurd h (by decide)
  | case6 e1 r1 f m ho ih =>
    rw [generator_loop, if_neg ho] at h
    rcases generator_next_cases _ _ _ h with ⟨m1, hb⟩ | ⟨m1, hb, hk⟩
    · exact absurd hb (generator_body_not_null env text [] 0 x ms e1 _ m m1)
    · obtain ⟨hm1, hq⟩ := generator_body_none env text x ms e1 m m1 hm (by simpa using ho) hb
      intro e he
      simp only [List.append_nil, List.mem_cons] at he
      rcases he with he | he
      · rw [he]; exact hq
      · exact ih m1 hm1 hk e (by simpa using he)
  | case7 e1 r1 e2 r2 f m ho =>
    rw [generator_loop, if_pos ho] at h
    exact absurd h (by decide)
  | case8 e1 r1 e2 r2 f m ho hlt ih =>
    rw [generator_loop, if_neg ho, if_pos hlt] at h
    rcases generator_next_cases _ _ _ h with ⟨m1, hb⟩ | ⟨m1, hb, hk⟩
    · exact absurd hb (generator_body_not_null env text [] 0 x ms e2 _ m m1)
    · obtain ⟨hm1, hq⟩ := generator_body_none env text x ms e2 m m1 hm
        (by simpa using fun h => ho (Or.inl h)) hb
      intro e he
      simp only [List.mem_append, List.mem_cons] at he
      rcases he with he | he | he
      · exact ih m1 hm1 hk e (List.mem_append_left _ (List.mem_cons.2 he))
      · rw [he]; exact hq
      · exact ih m1 hm1 hk e (List.mem_append_right _ he)
  | case9 e1 r1 e2 r2 f m ho hlt ih =>
    rw [generator_loop, if_neg ho, if_neg hlt] at h
    rcases generator_next_cases _ _ _ h with ⟨m1, hb⟩ | ⟨m1, hb, hk⟩
    · exact absurd hb (generator_body_not_null env text [] 0 x ms e1 _ m m1)
    · obtain ⟨hm1, hq⟩ := generator_body_none env text x ms e1 m m1 hm
        (by simpa using fun h => ho (Or.inr h)) hb
      intro e he
      simp only [List.cons_append, List.mem_cons, List.mem_append] at he
      rcases he with he | he | he
      · rw [he]; exact hq
      · exact ih m1 hm1 hk e (List.mem_append_left _ he)
      · exact ih m1 hm1 hk e (List.mem_append_right _ (List.mem_cons.2 he))

theorem tolower_space : tolower 32 = 32 := by decide

theorem map_spaced (ws : List CStr) :
    (spaced ws).map tolower = spaced (lower_path ws) := by
  induction ws with
  | nil => rfl
  | cons w r ih =>
    cases r with
    | nil => simp [spaced, lower_path]
    | cons v r1 =>
      simp only [spaced, lower_path, List.map_cons, List.map_append] at ih ⊢
      rw [ih, tolower_space]

theorem spaced_begins (a b : List (List Nat)) (h : a <+: b) : spaced a <+: spaced b := by
  obtain ⟨t, rfl⟩ := h
  induction a with
  | nil => exact List.nil_prefix
  | cons w r ih =>
    cases r with
    | nil =>
      rw [List.singleton_append, spaced_cons w t]
      exact List.prefix_append _ _
    | cons v r1 =>
      simp only [List.cons_append, spaced] at ih ⊢
      obtain ⟨u, hu⟩ := ih
      refine ⟨u, ?_⟩
      have hu2 : spaced (v :: r1.append t) = spaced (v :: r1) ++ u := hu.symm
      rw [hu2]
      simp

theorem take_begins {α : Type} (a b : List α) (n : Nat) (h : a <+: b) :
    a.take n <+: b.take n := by
  obtain ⟨t, rfl⟩ := h
  rw [List.take_append_eq_append_take]
  exact List.prefix_append _ _

/-- A path that begins another, word by word, also begins it as joined text. -/
theorem join_begins (p q : List CStr) (h : path_begins p q) :
    (join 80 p).map tolower <+: (join 80 q).map tolower := by
  rw [join_eq_take, join_eq_take, List.map_take, List.map_take, map_spaced, map_spaced]
  exact take_begins _ _ 80 (spaced_begins _ _ h)

theorem generator_loop_stale (env : Env) (text word : CStr) (state : Int) (x : Nat)
    (ms : CStr) (e1 : ast_cli_entry) (r1 l2 : List ast_cli_entry) (f f1 : CStr) (m : Int) :
    generator_loop env text word state x ms (e1 :: r1) l2 f m
      = generator_loop env text word state x ms (e1 :: r1) l2 f1 m := by
  cases l2 with
  | nil => rw [generator_loop, generator_loop]
  | cons e2 r2 => rw [generator_loop, generator_loop]

/-- The table of built-ins has a first entry, so what the buffer `fullcmd1`
holds on entry is never read. -/
theorem ast_cli_generator_stale (env : Env) (helpers : List ast_cli_entry) (mem : Bool)
    (garbage : Nat → Option Nat) (stale : CStr) (text word : CStr) (state : Int) :
    ast_cli_generator env helpers mem garbage stale text word state
      = ast_cli_generator env helpers mem garbage [] text word state := by
  unfold ast_cli_generator
  cases parse_args env.AST_MAX_ARGS mem text ((List.range env.AST_MAX_ARGS).map garbage) with
  | none => rfl
  | some r =>
    simp only
    rw [show builtins = builtins.head (by decide) :: builtins.tail from rfl,
      generator_loop_stale _ _ _ _ _ _ _ _ _ stale [] _]

theorem ast_cli_generator_eq_steps (env : Env) (helpers : List ast_cli_entry) (mem : Bool)
    (garbage : Nat → Option Nat) (stale : CStr) (text word : CStr) (state : Int) :
    ast_cli_generator env helpers mem garbage stale text word state
      = match parse_args env.AST_MAX_ARGS mem text
            ((List.range env.AST_MAX_ARGS).map garbage) with
        | some r =>
          if join_overruns 80 (argv_words r.dup r.argv) = true then gen_result.out_of_bounds
          else
            generator_steps env text word state r.max (join 80 (argv_words r.dup r.argv))
              (builtins.length + helpers.length) builtins helpers [] 0
        | none => gen_result.null := by
  rw [ast_cli_generator_stale]
  unfold ast_cli_generator
  cases parse_args env.AST_MAX_ARGS mem text ((List.range env.AST_MAX_ARGS).map garbage) with
  | none => rfl
  | some r =>
    simp only
    rw [generator_loop_eq_steps _ _ _ _ _ _ _ _ _ _ _ (le_refl _)]

set_option maxRecDepth 20000 in
/-- C17 (the code at the failing input): with the one dynamic entry `zap`
registered, the help listing shows seven entries, `zap` last; on the empty
line with an empty word, `ast_cli_generator` at state 6 does not return `zap`
and at state 7 does not return NULL: after the six built-ins it picks the
sentinel of the table instead of `zap` and reads past the table. With the
built-ins only the states 0 to 5 give `help`, `load`, `show`, `show`, `show`,
`unload` and state 6 gives NULL. -/
theorem generator_reads_past_table (stale : CStr) :
    Reachable [sample_entry 1 ["zap"]] ∧
    (merged_view [sample_entry 1 ["zap"]]).map (fun e => e.cmda)
      = [[cstr "help"], [cstr "load"], [cstr "show", cstr "channel"],
         [cstr "show", cstr "channels"], [cstr "show", cstr "modules"], [cstr "unload"],
         [cstr "zap"]] ∧
    ast_cli_generator sample_env [sample_entry 1 ["zap"]] true (fun _ => none) stale [] [] 6
      = gen_result.out_of_bounds ∧
    ast_cli_generator sample_env [sample_entry 1 ["zap"]] true (fun _ => none) stale [] [] 7
      = gen_result.out_of_bounds ∧
    [0, 1, 2, 3, 4, 5, 6].map (fun k : Int =>
        returned (ast_cli_generator sample_env [] true (fun _ => none) stale [] [] k))
      = [some (some (cstr "help")), some (some (cstr "load")), some (some (cstr "show")),
         some (some (cstr "show")), some (some (cstr "show")), some (some (cstr "unload")),
         some none] := by
  have hreg : ast_cli_register [] (sample_entry 1 ["zap"])
      = (0, [sample_entry 1 ["zap"]]) := by decide
  have hr := Reachable.register [] (sample_entry 1 ["zap"]) Reachable.empty
  rw [hreg] at hr
  refine ⟨hr, ?_, ?_, ?_, ?_⟩
  · rw [merged_view_eq_steps]; decide
  · rw [ast_cli_generator_eq_steps]; decide
  · rw [ast_cli_generator_eq_steps]; decide
  · simp only [ast_cli_generator_eq_steps]; decide

set_option maxRecDepth 20000 in
/-- C16 (the code at the failing input): with the built-ins only, on the line
`show channels` with the in-progress word `channels` (and also on that line
followed by a space, with an empty word), `ast_cli_generator` returns the
result of the generator of the entry `show channel`, called with word index 1
(respectively 2), because the joined text `show channel` begins the joined
text `show channels`. The path of that entry is not the beginning, word by
word, of the typed words, and `find_cli` with `exact = 0` gives the entry
`show channels` for them, which has no generator. -/
theorem generator_called_for_other_command (stale : CStr) :
    (∃ e r, e.cmda = [cstr "show", cstr "channel"] ∧ e.generator = some complete_ch ∧
      ast_cli_generator sample_env [] true (fun _ => none) stale (cstr "show channels")
        (cstr "channels") 0 = gen_result.generated e 1 r) ∧
    (∃ e r, e.cmda = [cstr "show", cstr "channel"] ∧ e.generator = some complete_ch ∧
      ast_cli_generator sample_env [] true (fun _ => none) stale (cstr "show channels ")
        [] 0 = gen_result.generated e 2 r) ∧
    ¬ path_begins [cstr "show", cstr "channel"] [cstr "show", cstr "channels"] ∧
    (find_cli [] [cstr "show", cstr "channels"] 0).map (fun e => (e.cmda, e.generator))
      = some ([cstr "show", cstr "channels"], none) := by
  refine ⟨?_, ?_, by decide, by decide⟩
  · rw [ast_cli_generator_eq_steps]
    exact ⟨_, _, by decide, by decide, rfl⟩
  · rw [ast_cli_generator_eq_steps]
    exact ⟨_, _, by decide, by decide, rfl⟩

set_option maxRecDepth 20000 in
/-- C14 (as stated, refuted): with the built-ins only, on the fully typed line
`show channel` followed by a space, with an empty word and state 0, the call
returns what the generator of `show channel` returns, here NULL, although that
command has a generator. And with the dynamic entry `sh` registered, on the
line `sh` followed by a space the call returns the word `channel`, taken from
the entry `show channel`, although no entry has a path beginning with the words
`sh channel`. -/
theorem completion_disagrees_with_dispatch :
    (∃ e, e ∈ builtins ∧ e.cmda = [cstr "show", cstr "channel"] ∧
      e.generator = some complete_ch ∧
      ast_cli_generator sample_env [] true (fun _ => none) [] (cstr "show channel ") [] 0
        = gen_result.generated e 2 none) ∧
    returned (ast_cli_generator sample_env [] true (fun _ => none) []
      (cstr "show channel ") [] 0) = some none ∧
    Reachable [sample_entry 1 ["sh"]] ∧
    (∃ e, e.cmda = [cstr "show", cstr "channel"] ∧
      ast_cli_generator sample_env [sample_entry 1 ["sh"]] true (fun _ => none) []
        (cstr "sh ") [] 0 = gen_result.word e (cstr "channel")) ∧
    (∀ e ∈ builtins ++ [sample_entry 1 ["sh"]],
      ¬ path_begins [cstr "sh", cstr "channel"] e.cmda) := by
  have hreg : ast_cli_register [] (sample_entry 1 ["sh"])
      = (0, [sample_entry 1 ["sh"]]) := by decide
  have hr := Reachable.register [] (sample_entry 1 ["sh"]) Reachable.empty
  rw [hreg] at hr
  refine ⟨?_, ?_, hr, ?_, by decide⟩
  · rw [ast_cli_generator_eq_steps]
    exact ⟨_, by decide, by decide, by decide, rfl⟩
  · rw [ast_cli_generator_eq_steps]
    decide
  · rw [ast_cli_generator_eq_steps]
    exact ⟨_, by decide, rfl⟩

/-- C14 (amended): for every dynamic list and every line whose tokens are,
case-insensitively, the complete non-empty word-path `P` of a built-in or
dynamic entry, a call of `ast_cli_generator` with an empty in-progress word
and state 0 that runs to the end of its loop and returns NULL shows that this
entry has no generator and that no entry has a further word after the typed
path; a call that returns the result of a generator returns what the
generator of an entry gives for the word index `argc`, whatever that is, and
the space-joined path of that entry begins, case-insensitively and as a
string, the space-joined `P`; and a call that returns a word `w` of an entry
returns the word at index `argc` of a built-in or dynamic entry whose
space-joined path begins, case-insensitively and as a string, with the
space-joined `P`. -/
theorem completion_after_full_path (env : Env) (helpers : List ast_cli_entry)
    (garbage : Nat → Option Nat) (stale : CStr) (text : List Nat) (argc : Nat)
    (argv : List CStr) (eP : ast_cli_entry)
    (htok : parse_words env.AST_MAX_ARGS text ((List.range env.AST_MAX_ARGS).map garbage)
      = some (argc, argv))
    (hne : argv ≠ [])
    (heP : eP ∈ builtins ++ helpers) (hsame : path_same eP.cmda argv) :
    (ast_cli_generator env helpers true garbage stale text [] 0 = gen_result.null →
      eP.generator = none ∧
      ∀ q ∈ builtins ++ helpers, path_begins argv q.cmda → q.cmda.length ≤ argv.length) ∧
    (∀ e pos r,
      ast_cli_generator env helpers true garbage stale text [] 0
        = gen_result.generated e pos r →
      e ∈ builtins ++ helpers ∧ pos = argc ∧
      (spaced e.cmda).map tolower <+: (spaced argv).map tolower ∧
      ∃ g, e.generator = some g ∧ r = env.call_generator g text [] argc 0) ∧
    (∀ e w,
      ast_cli_generator env helpers true garbage stale text [] 0 = gen_result.word e w →
      e ∈ builtins ++ helpers ∧ e.cmda[argc]? = some w ∧
      (spaced argv).map tolower <+: (spaced e.cmda).map tolower) := by
  have hcount := parse_words_count env.AST_MAX_ARGS text garbage argc argv htok hne
  unfold parse_words at htok
  cases hp : parse_args env.AST_MAX_ARGS true text
      ((List.range env.AST_MAX_ARGS).map garbage) with
  | none => rw [hp] at htok; simp at htok
  | some r0 =>
    rw [hp] at htok
    simp only [Option.map_some', Option.some.injEq, Prod.mk.injEq] at htok
    obtain ⟨h1, h2⟩ := htok
    have hgen : ast_cli_generator env helpers true garbage stale text [] 0
        = if join_overruns 80 argv = true then gen_result.out_of_bounds
          else generator_loop env text [] 0 argc (join 80 argv) builtins helpers stale 0 := by
      unfold ast_cli_generator
      rw [hp]
      simp only [h1, h2]
    rw [hgen]
    by_cases hov : join_overruns 80 argv = true
    · rw [if_pos hov]
      refine ⟨fun h => absurd h (by decide), fun e pos r h => absurd h (by simp),
        fun e w h => absurd h (by simp)⟩
    rw [if_neg hov]
    have hms : join 80 argv = spaced argv := join_of_no_overrun 80 argv (by simpa using hov)
    have hsound := generator_loop_sound env text [] 0 argc (join 80 argv) builtins helpers
      stale 0
    refine ⟨?_, ?_, ?_⟩
    · intro hnull
      have hq := generator_loop_null env text argc (join 80 argv) builtins helpers stale 0
        (le_refl _) hnull
      refine ⟨?_, ?_⟩
      · have hd := (hq eP heP).2.2
        cases hg : eP.generator with
        | none => rfl
        | some g =>
          exfalso
          have hb : path_begins eP.cmda argv := path_same_begins _ _ hsame
          have ht := (strncasecmp_contains (join 80 argv) (join 80 eP.cmda)).2
            (join_begins _ _ hb)
          simp [generator_delegate, hg, ht] at hd
      · intro q hqm hb
        by_contra hlen
        apply (hq q hqm).2.1
        refine ⟨(strncasecmp_begins _ _).2 (join_begins _ _ hb), ?_⟩
        rw [hcount]
        have : argv.length < q.cmda.length := by omega
        simp [this]
    · intro e pos r hres
      rw [hres] at hsound
      rcases hsound with h | h | ⟨e1, _, _, _, w, h, _⟩ | ⟨e1, he1, hfit, ht, g, hg, h⟩
      · simp at h
      · simp at h
      · simp at h
      · simp only [gen_result.generated.injEq] at h
        obtain ⟨rfl, rfl, rfl⟩ := h
        have hcon := (strncasecmp_contains _ _).1 ht
        rw [hms, join_of_no_overrun 80 e.cmda hfit] at hcon
        refine ⟨he1, by simp [generator_pos], hcon, g, hg, ?_⟩
        simp [generator_pos]
    · intro e w hres
      rw [hres] at hsound
      rcases hsound with h | h | ⟨e1, he1, hfit, ht, w1, h, hw⟩ | ⟨e1, _, _, _, g, _, h⟩
      · simp at h
      · simp at h
      · simp only [gen_result.word.injEq] at h
        obtain ⟨rfl, rfl⟩ := h
        have hbeg := (strncasecmp_begins _ _).1 ht
        rw [hms, join_of_no_overrun 80 e.cmda hfit] at hbeg
        exact ⟨he1, by simpa using hw, hbeg⟩
      · simp at h

set_option maxRecDepth 20000 in
/-- Witness of C14 (amended): with the built-ins only, the fully typed line
`help` followed by a space gives NULL at the end of the loop: `help` has no
generator and no entry continues it. -/
theorem completion_after_full_path_witness :
    ast_cli_generator sample_env [] true (fun _ => none) [] (cstr "help ") [] 0
        = gen_result.null ∧
    ∀ q ∈ builtins ++ [], path_begins [cstr "help"] q.cmda → q.cmda.length ≤ 1 :=
  ⟨by rw [ast_cli_generator_eq_steps]; decide,
    ((completion_after_full_path sample_env [] (fun _ => none) [] (cstr "help ") 1
      [cstr "help"]
      { addr := builtin_addr 0, cmda := [cstr "help"], handler := handle_help,
        summary := cstr "Display help list, or specific help on a command",
        usage := help_help, generator := none }
      (by decide) (by decide) (by decide) (by decide)).1
      (by rw [ast_cli_generator_eq_steps]; decide)).2⟩

end AstCli
